import Mathlib

/-!
# The archiver pipeline of `client/archiver/archiver.go`

A shallow embedding of the archiver: items live in a heap indexed by natural
numbers (a pointer `*archiverItem` is an index), every method takes the heap
(or the whole archiver state) and returns the new one.  A method body that
runs under the item's lock is one atomic step.  Go panics and a goroutine
blocking forever on a lock it already holds are results of type `Fault`.
-/

namespace Archiver

/-! ## Data model -/

/-- Go `error` value: `none` is `nil`, `some msg` is an error whose text is `msg`. -/
abbrev error := Option String

/-- Abnormal endings of a call: a Go panic, or blocking forever on a mutex
the goroutine already holds. -/
inductive Fault
  | panic
  | deadlock
deriving DecidableEq, Repr

/-- Modelled from the spec: `isolated.DigestItem` is declared outside
archiver.go; the spec describes it as hex digest string, "is-hashed" flag and
byte size, which is the order of the literal `isolated.DigestItem{digest, true, size}`.
The zero value has the empty digest. -/
structure DigestItem where
  Digest : String
  IsIsolated : Bool
  Size : Int
deriving DecidableEq, Repr

/-- Modelled from the spec: `isolatedclient.PushState`, the opaque
server-assigned upload token. -/
structure PushState where
  token : Nat
deriving DecidableEq, Repr

/-- An `io.ReadSeeker` supplied by the caller, given by what its methods
return: `io.Copy(h, src)` yields `copySize` bytes whose hex-encoded hash sum is
`copySum`, or fails with `copyErr`; `Seek(0, os.SEEK_SET)` returns
`(seekPos, seekErr)`. -/
structure ReadSeeker where
  copySize : Int
  copySum : String
  copyErr : error
  seekPos : Int
  seekErr : error
deriving DecidableEq, Repr

/-- The struct `archiverItem`.  `wgHashed` is the counter of the
`sync.WaitGroup`: callers blocked in `WaitForHashed` are released when it
reaches 0.  `linked` holds heap indices; the nil slice is `[]` (the code only
ever appends to it, so an empty non-nil slice never occurs). -/
structure archiverItem where
  displayName : String
  path : String
  wgHashed : Nat
  err : error
  digestItem : DigestItem
  linked : List Nat
  src : Option ReadSeeker
  state : Option PushState
deriving DecidableEq, Repr

/-- The heap of items: `h i` is the item the pointer `i` refers to. -/
abbrev Heap := Nat → archiverItem

/-- The zero value of `archiverItem`. -/
def zeroItem : archiverItem :=
  { displayName := "", path := "", wgHashed := 0, err := none,
    digestItem := { Digest := "", IsIsolated := false, Size := 0 },
    linked := [], src := none, state := none }

/-- The constructor `newArchiverItem`: the fields given, everything else zero, and
`wgHashed.Add(1)`. -/
def newArchiverItem (displayName path : String) (src : Option ReadSeeker) : archiverItem :=
  { zeroItem with displayName := displayName, path := path, src := src, wgHashed := 1 }

/-- The call `wgHashed.Done()` on one item: decrements the counter; a negative counter
panics. -/
def wgDone (it : archiverItem) : Except Fault archiverItem :=
  if it.wgHashed = 0 then .error .panic
  else .ok { it with wgHashed := it.wgHashed - 1 }

/-- The call `i.wgHashed.Done()` on the heap. -/
def Done (h : Heap) (i : Nat) : Except Fault Heap :=
  match wgDone (h i) with
  | .error f => .error f
  | .ok it => .ok (Function.update h i it)

/-- The method `WaitForHashed` returns on item `i` exactly when the counter is 0. -/
def hashedReleased (h : Heap) (i : Nat) : Prop := (h i).wgHashed = 0

instance (h : Heap) (i : Nat) : Decidable (hashedReleased h i) := by
  unfold hashedReleased; infer_instance

/-- The method `archiverItem.Error`. -/
def Error (h : Heap) (i : Nat) : error := (h i).err

/-- The method `archiverItem.Digest`. -/
def Digest (h : Heap) (i : Nat) : String := (h i).digestItem.Digest

/-- The method `archiverItem.DisplayName`. -/
def DisplayName (h : Heap) (i : Nat) : String := (h i).displayName

/-- The loop `for _, child := range i.linked { child.err = err }` of `setErr`. -/
def setErrChildren (e : String) : List Nat → Heap → Heap
  | [], h => h
  | c :: cs, h => setErrChildren e cs (Function.update h c { h c with err := some e })

/-- The method `archiverItem.setErr`.  A nil error panics.  When the item has no error
yet, the error is stored and copied to every linked child; locking a child that
is the item itself never returns.  In all cases `src` is cleared. -/
def setErr (h : Heap) (i : Nat) (err : error) : Except Fault Heap :=
  match err with
  | none => .error .panic
  | some e =>
    if (h i).err = none then
      if i ∈ (h i).linked then .error .deadlock
      else
        let h1 := setErrChildren e (h i).linked (Function.update h i { h i with err := some e })
        .ok (Function.update h1 i { h1 i with src := none })
    else .ok (Function.update h i { h i with src := none })

/-- The loop over `i.linked` at the end of `calcDigest`: each child gets the
digest and its completion signal is released. -/
def calcDigestChildren (d : DigestItem) : List Nat → Heap → Except Fault Heap
  | [], h => .ok h
  | c :: cs, h =>
    match wgDone { h c with digestItem := d } with
    | .error f => .error f
    | .ok it => calcDigestChildren d cs (Function.update h c it)

/-- Text that `%s` prints for an `error` argument of `fmt.Errorf`. -/
def fmtErr : error → String
  | none => "%!s(<nil>)"
  | some e => e

/-- The error branches of `calcDigest`: `i.setErr(err)`, return `ret`, and the
deferred `i.wgHashed.Done()`. -/
def calcDigestFail (h : Heap) (i : Nat) (err ret : String) : Except Fault (Heap × error) :=
  match setErr h i (some err) with
  | .error f => .error f
  | .ok h1 =>
    match Done h1 i with
    | .error f => .error f
    | .ok h2 => .ok (h2, some ret)

/-- The tail of `calcDigest` once the digest `d` is known: store it, hand it
to the linked children, return nil, then the deferred `i.wgHashed.Done()`. -/
def calcDigestStore (h : Heap) (i : Nat) (d : DigestItem) : Except Fault (Heap × error) :=
  if i ∈ (h i).linked then .error .deadlock
  else
    match calcDigestChildren d (h i).linked (Function.update h i { h i with digestItem := d }) with
    | .error f => .error f
    | .ok h1 =>
      match Done h1 i with
      | .error f => .error f
      | .ok h2 => .ok (h2, none)

/-- The method `archiverItem.calcDigest`.  `HashFile` is `isolated.HashFile`, the
external file hasher.  Returns the new heap and the returned error. -/
def calcDigest (HashFile : String → Except String DigestItem) (h : Heap) (i : Nat) :
    Except Fault (Heap × error) :=
  if (h i).path ≠ "" then
    match HashFile (h i).path with
    | .error err =>
      calcDigestFail h i err ("hash(" ++ DisplayName h i ++ ") failed: " ++ err ++ "\n")
    | .ok d => calcDigestStore h i d
  else
    match (h i).src with
    | none => .error .panic
    | some src =>
      match src.copyErr with
      | some err =>
        calcDigestFail h i err ("read(" ++ DisplayName h i ++ ") failed: " ++ err ++ "\n")
      | none =>
        if src.seekErr ≠ none ∨ src.seekPos ≠ 0 then
          let err := "seek(" ++ DisplayName h i ++ ") failed: " ++ fmtErr src.seekErr ++ "\n"
          calcDigestFail h i err err
        else
          calcDigestStore h i { Digest := src.copySum, IsIsolated := true, Size := src.copySize }

/-- The method `archiverItem.link`: `i.link(child)`.  Panics unless the child is a
pristine path item; then the child is appended to `i.linked` and, when `i`
already has a digest or an error, inherits it and is released. -/
def link (h : Heap) (i child : Nat) : Except Fault Heap :=
  if (h child).src ≠ none ∨ (h child).state ≠ none ∨ (h child).linked ≠ [] ∨ (h child).err ≠ none then
    .error .panic
  else if child = i then .error .deadlock
  else
    let h1 := Function.update h i { h i with linked := (h i).linked ++ [child] }
    if (h1 i).digestItem.Digest ≠ "" then
      match wgDone { h1 child with digestItem := (h1 i).digestItem, err := (h1 i).err } with
      | .error f => .error f
      | .ok it => .ok (Function.update h1 child it)
    else if (h1 i).err ≠ none then
      match wgDone { h1 child with err := (h1 i).err } with
      | .error f => .error f
      | .ok it => .ok (Function.update h1 child it)
    else .ok h1

/-! ## The archiver -/

/-- The struct `UploadStat`; `Duration` in nanoseconds. -/
structure UploadStat where
  Duration : Nat
  Size : Int
  Name : String
deriving DecidableEq, Repr

/-- The struct `Stats`. -/
structure Stats where
  Hits : List Int
  Pushed : List UploadStat
deriving DecidableEq, Repr

/-- What `doUpload` hands to `IsolateServer.Push` as the data source: the file
opened at the item's path, or the item's stream. -/
inductive UploadSrc
  | file (path : String)
  | reader (src : ReadSeeker)
deriving DecidableEq, Repr

/-- One call `a.is.Push(state, src)`. -/
structure PushCall where
  state : Option PushState
  src : UploadSrc
deriving DecidableEq, Repr

/-- The progress groups and sections (the constants at the top of the file). -/
def groupFound : Nat := 0
def groupFoundFound : Nat := 0
def groupHash : Nat := 1
def groupHashTodo : Nat := 0
def groupHashDone : Nat := 1
def groupLookup : Nat := 2
def groupLookupTodo : Nat := 0
def groupLookupDone : Nat := 1
def groupUpload : Nat := 3
def groupUploadTodo : Nat := 0
def groupUploadDone : Nat := 1

/-- The struct `archiver` together with the state of its goroutines.

* `items`, `nextItem`: the heap of items and the number of items allocated.
* `canceler`: the reason held by the `common.Canceler` (nil until cancelled).
* `progress g s`: the counter of section `s` of group `g` of `common.Progress`.
* A channel is the list of all values sent on it so far, with the number of
  values its receiving loop has taken: `stage1DedupeChan`/`stage1Recv`,
  `stage2HashChan`/`stage2Recv`; for `stage3LookupChan` and `stage4UploadChan`
  only the values sent.  `closed` is set once `Close` has closed the dedupe
  channel and set the field to nil.
* `seen`: the local map of `stage1DedupeLoop`.
* `hashPool`: the tasks scheduled on the pool of `stage2HashLoop` that have
  not started; `hashed`: the items on which `calcDigest` was called, in order.
* `isPush`: the calls made to `a.is.Push`, in order. -/
structure archiver where
  maxConcurrentHash : Nat
  maxConcurrentContains : Nat
  maxConcurrentUpload : Nat
  containsBatchingDelay : Nat
  containsBatchSize : Nat
  items : Heap
  nextItem : Nat
  canceler : error
  progress : Nat → Nat → Int
  stage1DedupeChan : List Nat
  stage1Recv : Nat
  closed : Bool
  seen : String → Option Nat
  stage2HashChan : List Nat
  stage2Recv : Nat
  hashPool : List Nat
  hashed : List Nat
  stage3LookupChan : List Nat
  stage4UploadChan : List Nat
  stats : Stats
  isPush : List PushCall

/-- The constructor `New`: the archiver before anything was pushed (durations in
nanoseconds, so 100 ms is 100000000). -/
def New : archiver :=
  { maxConcurrentHash := 5, maxConcurrentContains := 64, maxConcurrentUpload := 8,
    containsBatchingDelay := 100 * 1000000, containsBatchSize := 50,
    items := fun _ => zeroItem, nextItem := 0, canceler := none,
    progress := fun _ _ => 0,
    stage1DedupeChan := [], stage1Recv := 0, closed := false, seen := fun _ => none,
    stage2HashChan := [], stage2Recv := 0, hashPool := [], hashed := [],
    stage3LookupChan := [], stage4UploadChan := [],
    stats := { Hits := [], Pushed := [] }, isPush := [] }

/-- Modelled from the spec: `common.Progress.Update(group, section, count)`
is declared outside archiver.go; the spec has it receive per-stage increment
events, with no feedback into the pipeline. -/
def progressUpdate (a : archiver) (group sect : Nat) (count : Int) : archiver :=
  { a with progress := fun g s =>
      if g = group ∧ s = sect then a.progress g s + count else a.progress g s }

/-- The method `archiver.CancelationReason`. -/
def CancelationReason (a : archiver) : error := a.canceler

/-- Modelled from the spec: `common.Canceler.Cancel` is declared outside
archiver.go; the spec has it idempotent, only the first call's error being
retained.  The spec does not say what `Cancel(nil)` does, so the reason is a
non-nil error. -/
def Cancel (a : archiver) (reason : String) : archiver :=
  match a.canceler with
  | some _ => a
  | none => { a with canceler := some reason }

/-- The method `archiver.push`: nil when the archiver was closed, otherwise the item is
sent to the dedupe channel.  The item was allocated at heap index `item`. -/
def push (a : archiver) (item : Nat) : archiver × Option Nat :=
  if a.closed then (a, none)
  else
    (progressUpdate { a with stage1DedupeChan := a.stage1DedupeChan ++ [item] }
      groupFound groupFoundFound 1, some item)

/-- Heap allocation of `newArchiverItem(displayName, path, src)`: the new
item gets the next free index. -/
def alloc (a : archiver) (displayName path : String) (src : Option ReadSeeker) : archiver × Nat :=
  ({ a with items := Function.update a.items a.nextItem (newArchiverItem displayName path src),
            nextItem := a.nextItem + 1 }, a.nextItem)

/-- The method `archiver.Push`.  Calling `Seek` on a nil reader panics. -/
def Push (a : archiver) (displayName : String) (src : Option ReadSeeker) :
    Except Fault (archiver × Option Nat) :=
  let (a1, i) := alloc a displayName "" src
  match src with
  | none => .error .panic
  | some r =>
    if r.seekPos ≠ 0 ∨ r.seekErr ≠ none then
      match setErr a1.items i
          (some ("seek(" ++ DisplayName a1.items i ++ ") failed: " ++ fmtErr r.seekErr ++ "\n")) with
      | .error f => .error f
      | .ok h1 =>
        match Done h1 i with
        | .error f => .error f
        | .ok h2 => .ok ({ a1 with items := h2 }, some i)
    else .ok (push a1 i)

/-- The method `archiver.PushFile`. -/
def PushFile (a : archiver) (displayName path : String) : archiver × Option Nat :=
  let (a1, i) := alloc a displayName path none
  push a1 i

/-- The body of the loop of `stage1DedupeLoop` for one received `item`. -/
def stage1DedupeBody (a : archiver) (item : Nat) : Except Fault archiver :=
  if CancelationReason a ≠ none then
    match setErr a.items item (CancelationReason a) with
    | .error f => .error f
    | .ok h1 =>
      match Done h1 item with
      | .error f => .error f
      | .ok h2 => .ok { a with items := h2 }
  else
    match (if (a.items item).path ≠ "" then a.seen (a.items item).path else none) with
    | some previous =>
      match link a.items previous item with
      | .error f => .error f
      | .ok h1 => .ok { a with items := h1 }
    | none =>
      let a1 := progressUpdate a groupHash groupHashTodo 1
      .ok { a1 with stage2HashChan := a1.stage2HashChan ++ [item],
                    seen := Function.update a1.seen (a1.items item).path (some item) }

/-- The loop of `stage1DedupeLoop` over the items it receives, in order. -/
def stage1DedupeLoop : archiver → List Nat → Except Fault archiver
  | a, [] => .ok a
  | a, item :: rest =>
    match stage1DedupeBody a item with
    | .error f => .error f
    | .ok a1 => stage1DedupeLoop a1 rest

/-- The job closure that `stage2HashLoop` schedules for `item`. -/
def stage2HashJob (HashFile : String → Except String DigestItem) (a : archiver) (item : Nat) :
    Except Fault archiver :=
  match calcDigest HashFile a.items item with
  | .error f => .error f
  | .ok (h1, some err) => .ok (Cancel { a with items := h1 } err)
  | .ok (h1, none) =>
    let a1 := progressUpdate { a with items := h1 } groupHash groupHashDone 1
    let a2 := progressUpdate a1 groupLookup groupLookupTodo 1
    .ok { a2 with stage3LookupChan := a2.stage3LookupChan ++ [item] }

/-- The on-cancel closure that `stage2HashLoop` schedules for `item`. -/
def stage2HashCanceled (a : archiver) (item : Nat) : Except Fault archiver :=
  match setErr a.items item (CancelationReason a) with
  | .error f => .error f
  | .ok h1 =>
    match Done h1 item with
    | .error f => .error f
    | .ok h2 => .ok { a with items := h2 }

/-- The loop `for index, state := range states` of `doContains`, from
position `index` on.  `items[index]` out of range panics. -/
def doContainsStates (items : List Nat) : List (Option PushState) → Nat → archiver →
    Except Fault archiver
  | [], _, a => .ok a
  | state :: rest, index, a =>
    match items.get? index with
    | none => .error .panic
    | some it =>
      match state with
      | none =>
        doContainsStates items rest (index + 1)
          { a with stats := { a.stats with Hits := a.stats.Hits ++ [(a.items it).digestItem.Size] } }
      | some st =>
        let a1 := { a with items := Function.update a.items it { a.items it with state := some st } }
        let a2 := progressUpdate a1 groupUpload groupUploadTodo 1
        doContainsStates items rest (index + 1)
          { a2 with stage4UploadChan := a2.stage4UploadChan ++ [it] }

/-- The loop `for _, item := range items { item.setErr(err) }` of `doContains`. -/
def setErrAll (err : error) : List Nat → Heap → Except Fault Heap
  | [], h => .ok h
  | item :: rest, h =>
    match setErr h item err with
    | .error f => .error f
    | .ok h1 => setErrAll err rest h1

/-- The error `fmt.Errorf("contains(%d) failed: %s", len(items), err)`. -/
def containsErr (n : Nat) (err : String) : String :=
  "contains(" ++ toString n ++ ") failed: " ++ err

/-- The method `archiver.doContains`.  `reply` is what `a.is.Contains(tmp)` returns for
the digests of `items`: an error, or the states. -/
def doContains (a : archiver) (items : List Nat) (reply : Except String (List (Option PushState))) :
    Except Fault archiver :=
  match reply with
  | .error err =>
    let a1 := Cancel a (containsErr items.length err)
    match setErrAll (some (containsErr items.length err)) items a1.items with
    | .error f => .error f
    | .ok h1 => .ok { a1 with items := h1 }
  | .ok states =>
    doContainsStates items states 0 (progressUpdate a groupLookup groupLookupDone items.length)

/-- The method `archiver.doUpload`.  `openErr` is the error of `os.Open(item.path)`
(consulted only when the item has no stream), `pushErr` the error returned by
`a.is.Push`, `elapsed` the value of `time.Since(start)`. -/
def doUpload (a : archiver) (item : Nat) (openErr pushErr : error) (elapsed : Nat) :
    Except Fault archiver :=
  let afterPush (a0 : archiver) (src : UploadSrc) : Except Fault archiver :=
    let a1 := { a0 with isPush := a0.isPush ++ [{ state := (a0.items item).state, src := src }] }
    let r : Except Fault archiver :=
      match pushErr with
      | some err =>
        let a2 := Cancel a1 ("push(" ++ (a1.items item).path ++ ") failed: " ++ err ++ "\n")
        match setErr a2.items item
            (some ("push(" ++ (a1.items item).path ++ ") failed: " ++ err ++ "\n")) with
        | .error f => .error f
        | .ok h1 => .ok { a2 with items := h1 }
      | none => .ok (progressUpdate a1 groupUpload groupUploadDone 1)
    match r with
    | .error f => .error f
    | .ok a3 =>
      .ok { a3 with stats := { a3.stats with Pushed := a3.stats.Pushed ++
              [{ Duration := elapsed, Size := (a3.items item).digestItem.Size,
                 Name := DisplayName a3.items item }] } }
  match (a.items item).src with
  | none =>
    match openErr with
    | some err =>
      let a1 := Cancel a err
      match setErr a1.items item (some err) with
      | .error f => .error f
      | .ok h1 => .ok { a1 with items := h1 }
    | none => afterPush a (.file (a.items item).path)
  | some src =>
    afterPush { a with items := Function.update a.items item { a.items item with src := none } }
      (.reader src)

/-! ## The goroutines as a transition system -/

/-- One atomic step of the pipeline's front half.
* `PushFile`, `Push`, `Cancel`, `Close`: calls by the user of the archiver
  (`Close` only up to closing the dedupe channel).
* `stage1Dedupe`: `stage1DedupeLoop` receives the next item and runs its body.
* `stage2Hash`: `stage2HashLoop` receives the next item and schedules it.
* `hashJob item`, `hashCanceled item`: the pool starts the task scheduled for
  `item` by running its job, or its on-cancel closure. -/
inductive Event
  | PushFile (displayName path : String)
  | Push (displayName : String) (src : Option ReadSeeker)
  | Cancel (reason : String)
  | Close
  | stage1Dedupe
  | stage2Hash
  | hashJob (item : Nat)
  | hashCanceled (item : Nat)
deriving DecidableEq, Repr

/-- Modelled from the spec: `common.GoroutinePool.Schedule` is declared
outside archiver.go; the spec has task submission check cancellation and, if
tripped, invoke the on-cancel callback instead of running the task.  So a
scheduled task runs its job when the Canceler is not tripped and its on-cancel
closure when it is; either way it leaves the pool.  An event that is not
enabled (nothing to receive, task not in the pool) leaves the state as it is. -/
def step (HashFile : String → Except String DigestItem) (a : archiver) : Event → Except Fault archiver
  | .PushFile displayName path => .ok (PushFile a displayName path).1
  | .Push displayName src =>
    match Push a displayName src with
    | .error f => .error f
    | .ok r => .ok r.1
  | .Cancel reason => .ok (Cancel a reason)
  | .Close => .ok { a with closed := true }
  | .stage1Dedupe =>
    match a.stage1DedupeChan.get? a.stage1Recv with
    | none => .ok a
    | some item => stage1DedupeBody { a with stage1Recv := a.stage1Recv + 1 } item
  | .stage2Hash =>
    match a.stage2HashChan.get? a.stage2Recv with
    | none => .ok a
    | some item => .ok { a with stage2Recv := a.stage2Recv + 1, hashPool := a.hashPool ++ [item] }
  | .hashJob item =>
    if item ∈ a.hashPool ∧ a.canceler = none then
      stage2HashJob HashFile
        { a with hashPool := a.hashPool.erase item, hashed := a.hashed ++ [item] } item
    else .ok a
  | .hashCanceled item =>
    if item ∈ a.hashPool ∧ a.canceler ≠ none then
      stage2HashCanceled { a with hashPool := a.hashPool.erase item } item
    else .ok a

/-- Runs a schedule: the events in order, stopping at the first fault. -/
def run (HashFile : String → Except String DigestItem) : archiver → List Event → Except Fault archiver
  | a, [] => .ok a
  | a, e :: es =>
    match step HashFile a e with
    | .error f => .error f
    | .ok a1 => run HashFile a1 es

/-- The items the dedupe loop has received so far, in order. -/
def processed (a : archiver) : List Nat := a.stage1DedupeChan.take a.stage1Recv


/-- A call made on a representative item: `r.link(child)` or `r.setErr(err)`
with a non-nil `err`. -/
inductive ItemCall
  | link (child : Nat)
  | setErr (err : String)
deriving DecidableEq, Repr

/-- Performs one call on the representative `r`. -/
def applyCall (h : Heap) (r : Nat) : ItemCall → Except Fault Heap
  | .link child => link h r child
  | .setErr err => setErr h r (some err)

/-- Performs the calls on the representative `r` one after the other. -/
def applyCalls (r : Nat) : Heap → List ItemCall → Except Fault Heap
  | h, [] => .ok h
  | h, c :: cs =>
    match applyCall h r c with
    | .error f => .error f
    | .ok h1 => applyCalls r h1 cs

/-- The error of every item linked to `r` equals the error of `r`. -/
def errMirrored (h : Heap) (r : Nat) : Prop := ∀ c ∈ (h r).linked, Error h c = Error h r

/-- A small heap for examples: item 0 is the item of `PushFile("a", "/a")`
to which item 1, the item of `PushFile("b", "/a")`, is linked; items 2 and 3
are the untouched items of `PushFile("c", "/a")` and `PushFile("d", "/a")`;
every other cell is the zero item. -/
def exHeap : Heap := fun i =>
  if i = 0 then { newArchiverItem "a" "/a" none with linked := [1] }
  else if i = 1 then newArchiverItem "b" "/a" none
  else if i = 2 then newArchiverItem "c" "/a" none
  else if i = 3 then newArchiverItem "d" "/a" none
  else zeroItem

instance (h : Heap) (r : Nat) : Decidable (errMirrored h r) := by
  unfold errMirrored; infer_instance

/-- The children passed by the `link` calls of a sequence of calls, in order. -/
def linkTargets : List ItemCall → List Nat
  | [] => []
  | .link c :: cs => c :: linkTargets cs
  | .setErr _ :: cs => linkTargets cs

/-- Item `c` passes the check at the top of `link` (no stream, no state,
nothing linked, no error) and its completion signal is still pending. -/
def linkable (h : Heap) (c : Nat) : Prop :=
  (h c).src = none ∧ (h c).state = none ∧ (h c).linked = [] ∧ (h c).err = none ∧
    (h c).wgHashed ≠ 0

instance (h : Heap) (c : Nat) : Decidable (linkable h c) := by
  unfold linkable; infer_instance

/-- Item `j` carries the error of every item it is linked to. -/
def mirrorsRep (h : Heap) (j : Nat) : Prop :=
  ∀ r, j ∈ (h r).linked → Error h j = Error h r

/-- The sizes that a successful lookup records as hits: one entry for each
item paired with a nil result, in batch order. -/
def lookupHits (h : Heap) (ps : List (Nat × Option PushState)) : List Int :=
  (ps.filter (fun p => p.2.isNone)).map (fun p => (h p.1).digestItem.Size)

/-- The items of a batch that are paired with a nil result, in batch order. -/
def lookupHitItems (ps : List (Nat × Option PushState)) : List Nat :=
  (ps.filter (fun p => p.2.isNone)).map Prod.fst

/-- The items of a batch that are paired with a non-nil result, in batch order. -/
def lookupMisses (ps : List (Nat × Option PushState)) : List Nat :=
  (ps.filter (fun p => p.2.isSome)).map Prod.fst

/-- An example archiver: item 0 (`PushFile("a", "/a")`) and item 1
(`PushFile("b", "/b")`) were deduplicated and hashed, with sizes 3 and 4. -/
def exHashed : archiver :=
  { New with
    items := fun i =>
      if i = 0 then { newArchiverItem "a" "/a" none with
        wgHashed := 0, digestItem := { Digest := "aa", IsIsolated := true, Size := 3 } }
      else if i = 1 then { newArchiverItem "b" "/b" none with
        wgHashed := 0, digestItem := { Digest := "bb", IsIsolated := true, Size := 4 } }
      else zeroItem
    nextItem := 2
    stage1DedupeChan := [0, 1], stage1Recv := 2
    stage2HashChan := [0, 1], stage2Recv := 2, hashed := [0, 1]
    stage3LookupChan := [0, 1] }

/-- Relates two heaps that differ at most in `err` and `src` fields, where
every error either stayed or became `e`, and no error was cleared. -/
def errOnly (e : String) (h h' : Heap) : Prop :=
  ∀ j, h' j = { h j with err := (h' j).err, src := (h' j).src } ∧
    ((h' j).err = (h j).err ∨ (h' j).err = some e) ∧ ((h j).err ≠ none → (h' j).err ≠ none)

/-- The data source `doUpload` passes to `Push` for an item. -/
def uploadSrc (it : archiverItem) : UploadSrc :=
  match it.src with
  | some r => .reader r
  | none => .file it.path

/-- The example archiver after the lookup of items 0 and 1: item 0 was found
on the server (a hit of size 3), item 1 was not and got the upload token 7. -/
def exLooked : archiver :=
  { exHashed with
    items := fun i =>
      if i = 1 then { exHashed.items 1 with state := some { token := 7 } } else exHashed.items i
    stage4UploadChan := [1]
    stats := { Hits := [3], Pushed := [] } }

/-- A step of the pipeline: an event of the front half, a `setErr` with a
non-nil error on some item, a `doContains` task with the reply it gets, or a
`doUpload` task with the results it gets. -/
inductive PipelineStep
  | event (e : Event)
  | setErr (i : Nat) (err : String)
  | doContains (items : List Nat) (reply : Except String (List (Option PushState)))
  | doUpload (item : Nat) (openErr pushErr : error) (elapsed : Nat)

/-- Performs one step of the pipeline. -/
def pipelineStep (HashFile : String → Except String DigestItem) (a : archiver) :
    PipelineStep → Except Fault archiver
  | .event e => step HashFile a e
  | .setErr i err =>
    match setErr a.items i (some err) with
    | .error f => .error f
    | .ok h1 => .ok { a with items := h1 }
  | .doContains items reply => doContains a items reply
  | .doUpload item openErr pushErr elapsed => doUpload a item openErr pushErr elapsed

/-- The example archiver after the lookup of items 0 and 1 failed with
"down": both items carry the wrapped error, and so does the Canceler. -/
def exFailed : archiver :=
  { exHashed with
    items := fun i =>
      if i = 0 ∨ i = 1 then { exHashed.items i with err := some "contains(2) failed: down" }
      else exHashed.items i
    canceler := some "contains(2) failed: down" }

/-- The heap after a `setErr` that finds no earlier error. -/
def setErrFresh (h : Heap) (i : Nat) (e : String) : Heap := fun j =>
  if j = i then { h i with err := some e, src := none }
  else if j ∈ (h i).linked then { h j with err := some e } else h j

/-! ## Deduplication, as the spec words it -/

/-- The first item of `xs` whose path (given by `P`) is `p`. -/
def firstWithPath (P : Nat → String) (xs : List Nat) (p : String) : Option Nat :=
  xs.find? (fun k => decide (P k = p))

/-- Whether item `i` of the submitted sequence `xs` should enter the hash
stage: its path is empty, or it is the first item of `xs` with its path. -/
def entersHash (P : Nat → String) (xs : List Nat) (i : Nat) : Bool :=
  decide (P i = "") || decide (firstWithPath P xs (P i) = some i)

/-- The items of the submitted sequence `xs` that should enter the hash
stage, in submission order. -/
def expectedForwarded (P : Nat → String) (xs : List Nat) : List Nat :=
  xs.filter (entersHash P xs)

/-- The number of distinct non-empty paths among the items `xs`. -/
def distinctPaths (P : Nat → String) (xs : List Nat) : Nat :=
  ((xs.map P).filter (fun p => decide (p ≠ ""))).toFinset.card

/-- The items that entered the hash stage, by what became of them: those on
which `calcDigest` was called, those scheduled on the pool, and those still in
the channel. -/
def hashWork (a : archiver) : List Nat :=
  a.hashed ++ (a.hashPool ++ a.stage2HashChan.drop a.stage2Recv)

/-- Every item keeps its linked list and its path. -/
def keepsShape (h h' : Heap) : Prop :=
  ∀ j, (h' j).linked = (h j).linked ∧ (h' j).path = (h j).path

/-- Only item `i` and the items linked to it may differ. -/
def touchesOnly (h h' : Heap) (i : Nat) : Prop :=
  ∀ j, j ≠ i → j ∉ (h i).linked → h' j = h j

/-- The Canceler never loses its reason. -/
def sticky (a a' : archiver) : Prop := ∀ e, a.canceler = some e → a'.canceler = some e

/-- The dedupe side of the state is unchanged. -/
structure sameStage1 (a a' : archiver) : Prop where
  nextItem : a'.nextItem = a.nextItem
  chan1 : a'.stage1DedupeChan = a.stage1DedupeChan
  recv1 : a'.stage1Recv = a.stage1Recv
  seen : a'.seen = a.seen
  chan2 : a'.stage2HashChan = a.stage2HashChan

/-- The hash side of the state is unchanged. -/
structure sameStage2 (a a' : archiver) : Prop where
  recv2 : a'.stage2Recv = a.stage2Recv
  hashPool : a'.hashPool = a.hashPool
  hashed : a'.hashed = a.hashed

/-- What one step of the front half does to the state, by kind: nothing that
matters (`idle`: `Cancel`, `Close`, an event that is not enabled), an
allocation by `Push` or `PushFile`, the three branches of the dedupe loop
(`reject` under cancellation, `linkTo` a representative, `forward` to the hash
stage), `sched` of a hash task, and a hash task that succeeds (`hashOk`) or
does not (`hashAbort`: `calcDigest` fails, or the on-cancel closure runs). -/
inductive Move (HashFile : String → Except String DigestItem) (a a' : archiver) : Prop
  | idle (h1 : sameStage1 a a') (h2 : sameStage2 a a') (hi : a'.items = a.items)
      (hc : sticky a a')
  | alloc (h2 : sameStage2 a a') (hc : a'.canceler = a.canceler)
      (hn : a'.nextItem = a.nextItem + 1)
      (hi : ∀ j, j ≠ a.nextItem → a'.items j = a.items j)
      (hl : (a'.items a.nextItem).linked = [])
      (hq : a'.stage1DedupeChan = a.stage1DedupeChan ∨
        (a'.stage1DedupeChan = a.stage1DedupeChan ++ [a.nextItem] ∧
          (a'.items a.nextItem).err = none ∧ (a'.items a.nextItem).wgHashed = 1 ∧
          (a'.items a.nextItem).digestItem.Digest = "" ∧ (a'.items a.nextItem).state = none ∧
          ((a'.items a.nextItem).path ≠ "" → (a'.items a.nextItem).src = none)))
      (hr : a'.stage1Recv = a.stage1Recv) (hs : a'.seen = a.seen)
      (hq2 : a'.stage2HashChan = a.stage2HashChan)
  | reject (x : Nat) (e : String) (h2 : sameStage2 a a')
      (hg : a.stage1DedupeChan.get? a.stage1Recv = some x)
      (hc : a.canceler = some e) (hc' : a'.canceler = some e)
      (hn : a'.nextItem = a.nextItem) (hq : a'.stage1DedupeChan = a.stage1DedupeChan)
      (hr : a'.stage1Recv = a.stage1Recv + 1) (hs : a'.seen = a.seen)
      (hq2 : a'.stage2HashChan = a.stage2HashChan)
      (hshape : keepsShape a.items a'.items) (htouch : touchesOnly a.items a'.items x)
      (herr : (a.items x).err = none → (a'.items x).err = some e)
      (hwg : (a.items x).wgHashed ≠ 0 ∧ (a'.items x).wgHashed = (a.items x).wgHashed - 1)
  | linkTo (x prev : Nat) (h2 : sameStage2 a a')
      (hg : a.stage1DedupeChan.get? a.stage1Recv = some x)
      (hc : a.canceler = none) (hc' : a'.canceler = none)
      (hn : a'.nextItem = a.nextItem) (hq : a'.stage1DedupeChan = a.stage1DedupeChan)
      (hr : a'.stage1Recv = a.stage1Recv + 1) (hs : a'.seen = a.seen)
      (hq2 : a'.stage2HashChan = a.stage2HashChan)
      (hp : (a.items x).path ≠ "") (hseen : a.seen (a.items x).path = some prev)
      (hprev : a'.items prev = { a.items prev with linked := (a.items prev).linked ++ [x] })
      (hrest : ∀ j, j ≠ prev → j ≠ x → a'.items j = a.items j)
      (hx : (a'.items x).linked = (a.items x).linked ∧ (a'.items x).path = (a.items x).path)
      (hxl : (a.items x).linked = []) (hne : x ≠ prev)
      (hdig : (a.items prev).digestItem.Digest ≠ "" →
        (a'.items x).digestItem = (a.items prev).digestItem)
      (hdig0 : (a.items prev).digestItem.Digest = "" →
        (a'.items x).digestItem = (a.items x).digestItem)
      (herr : (a'.items x).err = (a.items prev).err)
  | forward (x : Nat) (h2 : sameStage2 a a')
      (hg : a.stage1DedupeChan.get? a.stage1Recv = some x)
      (hc : a.canceler = none) (hc' : a'.canceler = none)
      (hn : a'.nextItem = a.nextItem) (hq : a'.stage1DedupeChan = a.stage1DedupeChan)
      (hr : a'.stage1Recv = a.stage1Recv + 1)
      (hp : (a.items x).path = "" ∨ a.seen (a.items x).path = none)
      (hs : a'.seen = Function.update a.seen (a.items x).path (some x))
      (hq2 : a'.stage2HashChan = a.stage2HashChan ++ [x])
      (hi : a'.items = a.items)
  | sched (x : Nat) (h1 : sameStage1 a a') (hi : a'.items = a.items)
      (hc : a'.canceler = a.canceler)
      (hg : a.stage2HashChan.get? a.stage2Recv = some x)
      (hr : a'.stage2Recv = a.stage2Recv + 1) (hp : a'.hashPool = a.hashPool ++ [x])
      (hd : a'.hashed = a.hashed)
  | hashOk (x : Nat) (h1 : sameStage1 a a') (hx : x ∈ a.hashPool)
      (hc : a.canceler = none) (hc' : a'.canceler = none)
      (hr : a'.stage2Recv = a.stage2Recv) (hp : a'.hashPool = a.hashPool.erase x)
      (hd : a'.hashed = a.hashed ++ [x])
      (hshape : keepsShape a.items a'.items) (htouch : touchesOnly a.items a'.items x)
      (hkids : ∀ c ∈ (a.items x).linked, (a'.items c).digestItem = (a'.items x).digestItem)
      (herr : ∀ j, (a'.items j).err = (a.items j).err)
  | hashAbort (x : Nat) (h1 : sameStage1 a a') (hx : x ∈ a.hashPool)
      (hc : sticky a a') (hc' : a'.canceler ≠ none)
      (hr : a'.stage2Recv = a.stage2Recv) (hp : a'.hashPool = a.hashPool.erase x)
      (hd : a'.hashed = a.hashed ∨ a'.hashed = a.hashed ++ [x])
      (hshape : keepsShape a.items a'.items) (htouch : touchesOnly a.items a'.items x)
      (hmir : errMirrored a.items x → errMirrored a'.items x)

/-- The invariant of the front half of the pipeline.  `P` gives the path of
every item ever allocated. -/
structure Inv (P : Nat → String) (a : archiver) : Prop where
  path_eq : ∀ i, i < a.nextItem → (a.items i).path = P i
  chan1_lt : ∀ i ∈ a.stage1DedupeChan, i < a.nextItem
  chan1_nodup : a.stage1DedupeChan.Nodup
  recv1_le : a.stage1Recv ≤ a.stage1DedupeChan.length
  chan2_sub : ∀ i ∈ a.stage2HashChan, i ∈ processed a
  chan2_nodup : a.stage2HashChan.Nodup
  recv2_le : a.stage2Recv ≤ a.stage2HashChan.length
  seen_sound : ∀ p r, a.seen p = some r → r ∈ a.stage2HashChan ∧ P r = p
  linked_sound : ∀ r c, c ∈ (a.items r).linked →
    c ∈ processed a ∧ c ∉ a.stage2HashChan ∧ P c ≠ "" ∧ a.seen (P c) = some r
  fresh : ∀ i ∈ a.stage1DedupeChan.drop a.stage1Recv,
    (a.items i).err = none ∧ (a.items i).wgHashed = 1 ∧ (a.items i).digestItem.Digest = "" ∧
    (a.items i).state = none ∧ ((a.items i).path ≠ "" → (a.items i).src = none)
  mirrored : ∀ r, errMirrored a.items r
  work_nodup : (hashWork a).Nodup
  work_sub : ∀ i ∈ hashWork a, i ∈ a.stage2HashChan
  forwarded : a.canceler = none → a.stage2HashChan = expectedForwarded P (processed a)
  seen_first : a.canceler = none → ∀ p, p ≠ "" → a.seen p = firstWithPath P (processed a) p
  placed : a.canceler = none →
    ∀ i ∈ processed a, i ∈ a.stage2HashChan ∨ ∃ r, i ∈ (a.items r).linked
  work_all : a.canceler = none → ∀ i ∈ a.stage2HashChan, i ∈ hashWork a
  hashed_digest : a.canceler = none → ∀ r ∈ a.hashed, ∀ c ∈ (a.items r).linked,
    (a.items c).digestItem.Digest = (a.items r).digestItem.Digest

/-- Item `i` was failed by the dedupe loop with the error `e`: it has that
error, its completion signal is released, and nothing refers to it. -/
structure Rejected (e : String) (a : archiver) (i : Nat) : Prop where
  done : i ∈ processed a
  err : (a.items i).err = some e
  released : (a.items i).wgHashed = 0
  not_forwarded : i ∉ a.stage2HashChan
  not_linked : ∀ r, i ∉ (a.items r).linked
  no_links : (a.items i).linked = []

/-- An example file hasher: every file hashes, to a digest made of its path. -/
def exHashFile : String → Except String DigestItem :=
  fun p => .ok { Digest := "h:" ++ p, IsIsolated := true, Size := 1 }

/-- An example stream: one byte, reads and seeks without error. -/
def exStream : ReadSeeker :=
  { copySize := 1, copySum := "s1", copyErr := none, seekPos := 0, seekErr := none }

/-- An example schedule.  Items 0 and 1 (both of path "/a"), the stream item
2 and item 3 (path "/b") are pushed; the dedupe loop forwards 0 and links 1 to
it; 0 is hashed; item 4 (path "/a") is pushed; the dedupe loop forwards 2 and
3 and links 4 to 0, which is hashed by then; 2 and 3 are hashed. -/
def exSchedule : List Event :=
  [.PushFile "a" "/a", .PushFile "b" "/a", .Push "s" (some exStream), .PushFile "c" "/b",
   .stage1Dedupe, .stage1Dedupe, .stage2Hash, .hashJob 0, .PushFile "d" "/a",
   .stage1Dedupe, .stage1Dedupe, .stage1Dedupe, .stage2Hash, .stage2Hash, .hashJob 2, .hashJob 3]

/-! ## Statistics -/

/-- Go addition of two `int64` values (`common.Size` is an `int64`): the sum
wraps around modulo 2^64 into the range from -2^63 to 2^63 - 1. -/
def addInt64 (x y : Int) : Int :=
  (x + y + 9223372036854775808) % 18446744073709551616 - 9223372036854775808

/-- The sum of a list of integers as a Go `int64`. -/
def wrapInt64 (x : Int) : Int :=
  (x + 9223372036854775808) % 18446744073709551616 - 9223372036854775808

/-- The method `Stats.TotalHits`. -/
def Stats.TotalHits (s : Stats) : Nat := s.Hits.length

/-- The method `Stats.TotalBytesHits`: the loop `for _, i := range s.Hits { out += i }`. -/
def Stats.TotalBytesHits (s : Stats) : Int := s.Hits.foldl addInt64 0

/-- The method `Stats.TotalMisses`. -/
def Stats.TotalMisses (s : Stats) : Nat := s.Pushed.length

/-- The method `Stats.TotalBytesPushed`: the loop
`for _, i := range s.Pushed { out += i.Size }`. -/
def Stats.TotalBytesPushed (s : Stats) : Int :=
  s.Pushed.foldl (fun out i => addInt64 out i.Size) 0

/-- The statement `a.stats.Hits = append(a.stats.Hits, size)` of `doContains`. -/
def Stats.addHit (s : Stats) (size : Int) : Stats := { s with Hits := s.Hits ++ [size] }

/-- The statement `a.stats.Pushed = append(a.stats.Pushed, u)` of `doUpload`. -/
def Stats.addPushed (s : Stats) (u : UploadStat) : Stats := { s with Pushed := s.Pushed ++ [u] }

/-! ## Worker pools -/

/-- Modelled from the spec: `common.GoroutinePool` is declared outside
archiver.go; the spec has it a bounded-concurrency task executor with a
cancellation hook.  Its width is the first argument of `NewGoroutinePool`. -/
structure GoroutinePool where
  maxConcurrentJobs : Nat
  canceler : error
deriving DecidableEq, Repr

/-- Modelled from the spec: `common.NewGoroutinePool(maxConcurrentJobs, canceler)`. -/
def NewGoroutinePool (maxConcurrentJobs : Nat) (canceler : error) : GoroutinePool :=
  { maxConcurrentJobs := maxConcurrentJobs, canceler := canceler }

/-- Modelled from the spec: a bounded pool runs at most `maxConcurrentJobs`
jobs at a time, so a scheduled task can start while fewer than that are running. -/
def GoroutinePool.canStart (p : GoroutinePool) (running : Nat) : Bool :=
  decide (running < p.maxConcurrentJobs)

/-- The pool that `stage2HashLoop` creates:
`pool := common.NewGoroutinePool(a.maxConcurrentContains, a.canceler)`. -/
def stage2HashLoop_pool (a : archiver) : GoroutinePool :=
  NewGoroutinePool a.maxConcurrentContains a.canceler

/-- The pool that `stage3LookupLoop` creates:
`pool := common.NewGoroutinePool(a.maxConcurrentContains, a.canceler)`. -/
def stage3LookupLoop_pool (a : archiver) : GoroutinePool :=
  NewGoroutinePool a.maxConcurrentContains a.canceler

/-- The pool that `stage4UploadLoop` creates:
`pool := common.NewGoroutinePool(a.maxConcurrentUpload, a.canceler)`. -/
def stage4UploadLoop_pool (a : archiver) : GoroutinePool :=
  NewGoroutinePool a.maxConcurrentUpload a.canceler

/-- Modelled from the spec: `common.GoroutinePool.Schedule(job, onCanceled)`
is declared outside archiver.go; the spec has task submission check
cancellation and, if tripped, invoke the caller-supplied on-cancel callback
instead of running the task.  The spec does not say what happens when the
callback is nil; here nothing is invoked then (invoking a nil function would
panic, which sets no error on any item either). -/
def Schedule (a : archiver) (job : archiver → Except Fault archiver)
    (onCanceled : Option (archiver → Except Fault archiver)) : Except Fault archiver :=
  if CancelationReason a = none then job a
  else
    match onCanceled with
    | some f => f a
    | none => .ok a

/-- The task of `stage2HashLoop` for `item`, when the pool gets to it:
`pool.Schedule(func() { ... item.calcDigest() ... }, func() { item.setErr(...); item.wgHashed.Done() })`. -/
def stage2HashLoop_task (HashFile : String → Except String DigestItem) (a : archiver) (item : Nat) :
    Except Fault archiver :=
  Schedule a (fun a0 => stage2HashJob HashFile a0 item) (some (fun a0 => stage2HashCanceled a0 item))

/-- The task of `stage3LookupLoop` for `batch`, when the pool gets to it:
`pool.Schedule(func() { a.doContains(batch) }, nil)`. -/
def stage3LookupLoop_task (a : archiver) (batch : List Nat)
    (reply : Except String (List (Option PushState))) : Except Fault archiver :=
  Schedule a (fun a0 => doContains a0 batch reply) none

/-- The task of `stage4UploadLoop` for `item`, when the pool gets to it:
`pool.Schedule(func() { a.doUpload(item) }, nil)`. -/
def stage4UploadLoop_task (a : archiver) (item : Nat) (openErr pushErr : error) (elapsed : Nat) :
    Except Fault archiver :=
  Schedule a (fun a0 => doUpload a0 item openErr pushErr elapsed) none

/-- The example archiver with items 0 and 1 hashed, after `Cancel("stop")`. -/
def exCanceled : archiver := { exHashed with canceler := some "stop" }

/-- The example archiver after `Cancel("stop")`, had item 1 still been in the
hash pool at that time. -/
def exCanceledHashing : archiver :=
  { exHashed with
    items := fun i => if i = 1 then newArchiverItem "b" "/b" none else exHashed.items i
    canceler := some "stop", hashPool := [1], hashed := [0], stage3LookupChan := [0] }

/-! ## The lookup loop -/

/-- The local state of `stage3LookupLoop`: the pending `items`, whether
`timer` is armed (it is `never` otherwise), the variable `loop`, and the
batches handed to `pool.Schedule` so far, in order. -/
structure LookupLoop where
  items : List Nat
  timer : Bool
  loop : Bool
  batches : List (List Nat)
deriving DecidableEq, Repr

/-- What the `select` of `stage3LookupLoop` can receive: the timer fires, an
item arrives, or the channel is found closed. -/
inductive LookupEvent
  | timer
  | recv (item : Nat)
  | closed
deriving DecidableEq, Repr

/-- The state of `stage3LookupLoop` before its loop. -/
def LookupLoop.start : LookupLoop := { items := [], timer := false, loop := true, batches := [] }

/-- One iteration of the `for loop` of `stage3LookupLoop`.  The channel
`never` delivers nothing, so a timer event finds the state unchanged when the
timer is not armed. -/
def stage3LookupLoop_select (a : archiver) (s : LookupLoop) : LookupEvent → LookupLoop
  | .timer =>
    if s.timer then { s with batches := s.batches ++ [s.items], items := [], timer := false }
    else s
  | .closed => { s with loop := false }
  | .recv item =>
    let items := s.items ++ [item]
    if items.length = a.containsBatchSize then
      { s with batches := s.batches ++ [items], items := [], timer := false }
    else if s.timer = false then { s with items := items, timer := true }
    else { s with items := items }

/-- The `for loop` of `stage3LookupLoop` over the events it receives: it
runs while `loop` is true. -/
def stage3LookupLoop_for (a : archiver) : LookupLoop → List LookupEvent → LookupLoop
  | s, [] => s
  | s, e :: es =>
    if s.loop then stage3LookupLoop_for a (stage3LookupLoop_select a s e) es else s

/-- The part of `stage3LookupLoop` after the loop: a pending batch is
scheduled. -/
def stage3LookupLoop_flush (s : LookupLoop) : LookupLoop :=
  if s.items.length ≠ 0 then { s with batches := s.batches ++ [s.items] } else s

/-- The function `stage3LookupLoop` on the events it receives, the last of
which finds the channel closed: the loop, then the final flush. -/
def stage3LookupLoop (a : archiver) (events : List LookupEvent) : LookupLoop :=
  stage3LookupLoop_flush (stage3LookupLoop_for a LookupLoop.start (events ++ [.closed]))

/-! ## Close and Stats -/

/-- The method `Stats.deepCopy`, on the entries the two slices show. -/
def Stats.deepCopy (s : Stats) : Stats := { Hits := s.Hits, Pushed := s.Pushed }

/-- The method `archiver.Stats`. -/
def archiver.Stats (a : archiver) : Stats := a.stats.deepCopy

/-- The events that are steps of the pipeline's own goroutines, not calls by
the user of the archiver. -/
def Event.isInternal : Event → Bool
  | .stage1Dedupe => true
  | .stage2Hash => true
  | .hashJob _ => true
  | .hashCanceled _ => true
  | _ => false

/-- The method `archiver.Close`.  It closes the dedupe channel; `a.wg.Wait()`
returns after the remaining steps `work` of the goroutines; the result is
`a.CancelationReason()`.  Modelled from the spec: `progress.Close` and
`canceler.Close` are declared outside archiver.go; the spec has `Close` return
the cancellation reason if any, so they leave the reason as it is. -/
def Close (HashFile : String → Except String DigestItem) (a : archiver) (work : List Event) :
    Except Fault (archiver × error) :=
  match run HashFile { a with closed := true } work with
  | .error f => .error f
  | .ok a1 => .ok (a1, CancelationReason a1)

/-- An item has exactly one content source: a non-empty path and no stream,
or a stream and the empty path. -/
def hasOneSource (it : archiverItem) : Prop :=
  (it.path ≠ "" ∧ it.src = none) ∨ (it.path = "" ∧ it.src ≠ none)

instance (it : archiverItem) : Decidable (hasOneSource it) := by
  unfold hasOneSource; infer_instance

/-! ## Slices and the snapshot of the statistics -/

/-- A Go slice value: the backing array it points into, its length and its
capacity.  The nil slice has length and capacity 0. -/
structure Slice where
  array : Nat
  len : Nat
  cap : Nat
deriving DecidableEq, Repr

/-- The backing arrays of the slices of element type `α`: `cells k n` is
element `n` of array `k`; the arrays below `next` are allocated. -/
structure Arrays (α : Type) where
  cells : Nat → Nat → α
  next : Nat

/-- The elements a slice shows: `s[0]`, ..., `s[len(s)-1]`. -/
def Slice.elems {α : Type} (m : Arrays α) (s : Slice) : List α :=
  (List.range s.len).map (m.cells s.array)

/-- Go's built-in `append(s, x)`.  When the capacity allows, the element is
written into the backing array right after the last one; otherwise the
elements are copied into a newly allocated array and the element is written
there.  `grow` gives the capacity of the new array from the old capacity (Go
leaves it to the implementation); it is at least the new length. -/
def goAppend {α : Type} (grow : Nat → Nat) (m : Arrays α) (s : Slice) (x : α) : Arrays α × Slice :=
  if s.len < s.cap then
    ({ m with cells := Function.update m.cells s.array (Function.update (m.cells s.array) s.len x) },
     { s with len := s.len + 1 })
  else
    ({ cells := Function.update m.cells m.next (Function.update (m.cells s.array) s.len x),
       next := m.next + 1 },
     { array := m.next, len := s.len + 1, cap := max (grow s.cap) (s.len + 1) })

/-- A slice is well formed in a memory: its length is within its capacity and,
unless the capacity is 0, its backing array is allocated. -/
def Slice.valid {α : Type} (m : Arrays α) (s : Slice) : Prop :=
  s.len ≤ s.cap ∧ (s.cap = 0 ∨ s.array < m.next)

/-- The struct `Stats` as it lies in memory: the two slice values `Hits` and
`Pushed`. -/
structure StatsRef where
  Hits : Slice
  Pushed : Slice
deriving DecidableEq, Repr

/-- The memory the slices of a `Stats` point into.  An element of `Pushed` is
a pointer to an `UploadStat` that is never written after its creation, so it
is modelled by the record itself. -/
structure StatsMem where
  sizes : Arrays Int
  uploads : Arrays UploadStat

/-- The zero value of `Stats`: two nil slices. -/
def StatsRef.zero : StatsRef :=
  { Hits := { array := 0, len := 0, cap := 0 }, Pushed := { array := 0, len := 0, cap := 0 } }

/-- The memory before any backing array is allocated. -/
def StatsMem.empty : StatsMem :=
  { sizes := { cells := fun _ _ => 0, next := 0 },
    uploads := { cells := fun _ _ => { Duration := 0, Size := 0, Name := "" }, next := 0 } }

/-- The method `Stats.deepCopy` in memory: `&Stats{s.Hits, s.Pushed}` copies
the two slice values; the backing arrays are shared with the original. -/
def StatsRef.deepCopy (s : StatsRef) : StatsRef := { Hits := s.Hits, Pushed := s.Pushed }

/-- The entries a `Stats` shows in a given memory. -/
def StatsRef.read (m : StatsMem) (s : StatsRef) : Stats :=
  { Hits := s.Hits.elems m.sizes, Pushed := s.Pushed.elems m.uploads }

/-- What the pipeline appends to its statistics: a hit size (`doContains`) or
an upload record (`doUpload`). -/
inductive StatsAppend
  | hit (size : Int)
  | pushed (u : UploadStat)
deriving DecidableEq, Repr

/-- One append to the accumulator `a.stats` in memory:
`a.stats.Hits = append(a.stats.Hits, size)` or
`a.stats.Pushed = append(a.stats.Pushed, u)`. -/
def StatsRef.append (grow : Nat → Nat) (m : StatsMem) (acc : StatsRef) :
    StatsAppend → StatsMem × StatsRef
  | .hit size =>
    ({ m with sizes := (goAppend grow m.sizes acc.Hits size).1 },
     { acc with Hits := (goAppend grow m.sizes acc.Hits size).2 })
  | .pushed u =>
    ({ m with uploads := (goAppend grow m.uploads acc.Pushed u).1 },
     { acc with Pushed := (goAppend grow m.uploads acc.Pushed u).2 })

/-- A sequence of appends to the accumulator, in order. -/
def StatsRef.appends (grow : Nat → Nat) : StatsMem → StatsRef → List StatsAppend →
    StatsMem × StatsRef
  | m, acc, [] => (m, acc)
  | m, acc, op :: ops =>
    StatsRef.appends grow (StatsRef.append grow m acc op).1 (StatsRef.append grow m acc op).2 ops

/-- The same append on the entries. -/
def Stats.record (s : Stats) : StatsAppend → Stats
  | .hit size => s.addHit size
  | .pushed u => s.addPushed u

/-- The accumulator `acc` and an older copy `snap` of it in the memory `m`:
the slices of the accumulator are well formed, and where a slice of the copy
shares its backing array with the accumulator's it is no longer than that. -/
structure StatsRef.Snap (m : StatsMem) (acc snap : StatsRef) : Prop where
  hitsValid : acc.Hits.valid m.sizes
  hitsAlloc : snap.Hits.len = 0 ∨ snap.Hits.array < m.sizes.next
  hitsShort : snap.Hits.array = acc.Hits.array → snap.Hits.len ≤ acc.Hits.len
  pushedValid : acc.Pushed.valid m.uploads
  pushedAlloc : snap.Pushed.len = 0 ∨ snap.Pushed.array < m.uploads.next
  pushedShort : snap.Pushed.array = acc.Pushed.array → snap.Pushed.len ≤ acc.Pushed.len

/-- An example growth of capacities: double and add two. -/
def exGrow (c : Nat) : Nat := 2 * c + 2

/-- The items that arrive in a sequence of events of the lookup loop, in order. -/
def LookupEvent.arrivals : List LookupEvent → List Nat
  | [] => []
  | .recv item :: es => item :: LookupEvent.arrivals es
  | _ :: es => LookupEvent.arrivals es

/-- Whether an iteration of the loop of `stage3LookupLoop` executes
`timer = time.After(a.containsBatchingDelay)`, which creates a new timer. -/
def stage3LookupLoop_arms (a : archiver) (s : LookupLoop) : LookupEvent → Bool
  | .recv item =>
    let items := s.items ++ [item]
    if items.length = a.containsBatchSize then false
    else if s.timer = false then true
    else false
  | _ => false

/-- What holds of the state of the lookup loop between events, for the items
`arrived` so far: the batches scheduled, followed by the pending items, are
the items arrived; the timer is armed exactly when items are pending; no batch
is empty; and when the batch size is at least 1, fewer items than that are
pending and no batch is longer. -/
structure LookupLoop.Good (a : archiver) (s : LookupLoop) (arrived : List Nat) : Prop where
  all : s.batches.flatten ++ s.items = arrived
  armed : s.timer = true ↔ s.items ≠ []
  nonempty : ∀ b ∈ s.batches, b ≠ []
  pending : 1 ≤ a.containsBatchSize → s.items.length < a.containsBatchSize
  bounded : 1 ≤ a.containsBatchSize → ∀ b ∈ s.batches, b.length ≤ a.containsBatchSize

/-- The heap that `i.link(child)` leaves behind, also when it panics.  The
check at the top panics before anything is written; `child.wgHashed.Done()`
panics after the child was appended to `i.linked` and given the digest and the
error.  (The counter of a wait group that panicked is of no interest and is
left at 0.) -/
def linkHeap (h : Heap) (i child : Nat) : Heap :=
  if (h child).src ≠ none ∨ (h child).state ≠ none ∨ (h child).linked ≠ [] ∨ (h child).err ≠ none then
    h
  else if child = i then h
  else
    let h1 := Function.update h i { h i with linked := (h i).linked ++ [child] }
    if (h1 i).digestItem.Digest ≠ "" then
      Function.update h1 child
        { h1 child with digestItem := (h1 i).digestItem, err := (h1 i).err,
                        wgHashed := (h1 child).wgHashed - 1 }
    else if (h1 i).err ≠ none then
      Function.update h1 child
        { h1 child with err := (h1 i).err, wgHashed := (h1 child).wgHashed - 1 }
    else h1

/-- The digest item `calcDigest` computes for an item when nothing fails: the
result of `HashFile` for an item with a path, the sum and size of the stream
for an item without. -/
def calcDigestResult (HashFile : String → Except String DigestItem) (it : archiverItem)
    (d : DigestItem) : Prop :=
  (it.path ≠ "" ∧ HashFile it.path = .ok d) ∨
  (it.path = "" ∧ ∃ src, it.src = some src ∧ src.copyErr = none ∧ src.seekErr = none ∧
    src.seekPos = 0 ∧ d = { Digest := src.copySum, IsIsolated := true, Size := src.copySize })

/-- The loop `for _, child := range i.linked` of `calcDigest`, as
`calcDigestChildren`, with the log of the calls of `wgHashed.Done()` that
returned, in the order in which they were made: each child is appended to the
log when its `Done` returns. -/
def calcDigestChildrenLog (d : DigestItem) :
    List Nat → Heap → List Nat → Except Fault (Heap × List Nat)
  | [], h, log => .ok (h, log)
  | c :: cs, h, log =>
    match wgDone { h c with digestItem := d } with
    | .error f => .error f
    | .ok it => calcDigestChildrenLog d cs (Function.update h c it) (log ++ [c])

/-- The error branches of `calcDigest`, as `calcDigestFail`, with the log of
the calls of `wgHashed.Done()`: the deferred one on the item is the only
one. -/
def calcDigestFailLog (h : Heap) (i : Nat) (err ret : String) :
    Except Fault (Heap × error × List Nat) :=
  match setErr h i (some err) with
  | .error f => .error f
  | .ok h1 =>
    match Done h1 i with
    | .error f => .error f
    | .ok h2 => .ok (h2, some ret, [i])

/-- The tail of `calcDigest` once the digest `d` is known, as
`calcDigestStore`, with the log of the calls of `wgHashed.Done()`: those of
the loop over the linked children, then the deferred one on the item, which
runs when the function returns. -/
def calcDigestStoreLog (h : Heap) (i : Nat) (d : DigestItem) :
    Except Fault (Heap × error × List Nat) :=
  if i ∈ (h i).linked then .error .deadlock
  else
    match calcDigestChildrenLog d (h i).linked
        (Function.update h i { h i with digestItem := d }) [] with
    | .error f => .error f
    | .ok (h1, log) =>
      match Done h1 i with
      | .error f => .error f
      | .ok h2 => .ok (h2, none, log ++ [i])

/-- The method `archiverItem.calcDigest`, as `calcDigest`, returning also the
log of the calls of `wgHashed.Done()` it made, in order: the items whose
completion signal it released, first released first. -/
def calcDigestLog (HashFile : String → Except String DigestItem) (h : Heap) (i : Nat) :
    Except Fault (Heap × error × List Nat) :=
  if (h i).path ≠ "" then
    match HashFile (h i).path with
    | .error err =>
      calcDigestFailLog h i err ("hash(" ++ DisplayName h i ++ ") failed: " ++ err ++ "\n")
    | .ok d => calcDigestStoreLog h i d
  else
    match (h i).src with
    | none => .error .panic
    | some src =>
      match src.copyErr with
      | some err =>
        calcDigestFailLog h i err ("read(" ++ DisplayName h i ++ ") failed: " ++ err ++ "\n")
      | none =>
        if src.seekErr ≠ none ∨ src.seekPos ≠ 0 then
          let err := "seek(" ++ DisplayName h i ++ ") failed: " ++ fmtErr src.seekErr ++ "\n"
          calcDigestFailLog h i err err
        else
          calcDigestStoreLog h i { Digest := src.copySum, IsIsolated := true, Size := src.copySize }

/-- Statistics with two recorded hits whose sizes add up to 2^63, one more
than the largest `int64`. -/
def exBigStats : Stats := { Hits := [9223372036854775807, 1], Pushed := [] }

/-- An example heap: item 0 (`PushFile("a", "/a")`) with the items 1 and 2
(`PushFile("b", "/a")`, `PushFile("c", "/a")`) linked to it, none hashed yet. -/
def exLinked : Heap := fun i =>
  if i = 0 then { newArchiverItem "a" "/a" none with linked := [1, 2] }
  else if i = 1 then newArchiverItem "b" "/a" none
  else if i = 2 then newArchiverItem "c" "/a" none
  else zeroItem

end Archiver

/-! # Other packages of the repository

Go strings are sequences of bytes.  The functions below only compare, cut and
join strings at the ends of matched pieces, which for strings of valid UTF-8
comes to the same on bytes and on characters; they are given on Lean strings. -/

namespace Strings

/-- Go's `strings.HasPrefix(s, p)`: whether `s` begins with `p`. -/
def HasPrefix (s p : String) : Bool := p.data.isPrefixOf s.data

/-- Go's `strings.HasSuffix(s, p)`: whether `s` ends with `p`. -/
def HasSuffix (s p : String) : Bool := p.data.isSuffixOf s.data

/-- Go's `strings.TrimPrefix(s, p)`: `s` without the leading `p`, or `s`
itself when it does not begin with `p`. -/
def TrimPrefix (s p : String) : String :=
  if HasPrefix s p then ⟨s.data.drop p.data.length⟩ else s

/-- Go's `strings.TrimSuffix(s, p)`: `s` without the trailing `p`, or `s`
itself when it does not end with `p`. -/
def TrimSuffix (s p : String) : String :=
  if HasSuffix s p then ⟨s.data.take (s.data.length - p.data.length)⟩ else s

/-- Go's `strings.SplitN(s, sep, n)` for a separator of one character and
`n >= 0`: `s` cut at the first `n - 1` separators; the last piece is the
remainder, uncut.  For `n = 0` the result is nil. -/
def SplitN (sep : Char) : Nat → List Char → List (List Char)
  | 0, _ => []
  | 1, s => [s]
  | n + 2, s =>
    match s.span (fun c => c != sep) with
    | (piece, []) => [piece]
    | (piece, _ :: rest) => piece :: SplitN sep (n + 1) rest

end Strings

namespace Coordinator

/-- The constant `projectNamespacePrefix`. -/
def projectNamespacePrefix : String := "luci."

/-- The function `ProjectNamespace`. -/
def ProjectNamespace (project : String) : String := projectNamespacePrefix ++ project

/-- The function `ProjectFromNamespace`; `ns[len(projectNamespacePrefix):]`
is `ns` without its first five bytes, which are the five characters "luci."
when the test before it passed. -/
def ProjectFromNamespace (ns : String) : String :=
  if !Strings.HasPrefix ns projectNamespacePrefix then ""
  else ⟨ns.data.drop projectNamespacePrefix.length⟩

end Coordinator

namespace Cproto

/-- The function `trimPhrase(v, prefix, suffix)`, with `pfx` and `sfx` for its
second and third parameter. -/
def trimPhrase (v pfx sfx : String) : String :=
  if !Strings.HasPrefix v pfx then ""
  else
    if !Strings.HasSuffix (Strings.TrimPrefix v pfx) sfx then ""
    else Strings.TrimSuffix (Strings.TrimPrefix v pfx) sfx

end Cproto

namespace Types

/-- The fields of Go's `url.URL` that `ParseURL` reads. -/
structure URL where
  Scheme : String
  Host : String
  Path : String
deriving DecidableEq, Repr

/-- The struct `StreamAddr`; `cfgtypes.ProjectName` and `StreamPath` are string
types. -/
structure StreamAddr where
  Host : String
  Project : String
  Path : String
deriving DecidableEq, Repr

/-- An error built by `errors.Reason(...).D(...)` or
`errors.Annotate(err).Reason(...).D(...)`: the reason, the data attached, and
the text of the annotated error, if any. -/
structure Annotated where
  reason : String
  data : List (String × String)
  inner : Option String
deriving DecidableEq, Repr

/-- The constant `logDogURLScheme`. -/
def logDogURLScheme : String := "logdog"

/-- The function `ParseURL`.  `urlParse` is Go's `url.Parse`; `projectValidate`
and `pathValidate` are the methods `cfgtypes.ProjectName.Validate` and
`StreamPath.Validate`, returning the text of the error or nil. -/
def ParseURL (urlParse : String → Except String URL)
    (projectValidate pathValidate : String → Option String) (v : String) :
    Except Annotated StreamAddr :=
  match urlParse v with
  | .error err => .error { reason := "failed to parse URL", data := [], inner := some err }
  | .ok u =>
    if u.Scheme ≠ logDogURLScheme then
      .error { reason := "URL scheme %(scheme)q is not " ++ logDogURLScheme,
               data := [("scheme", u.Scheme)], inner := none }
    else
      let parts := Strings.SplitN '/' 3 u.Path.data
      if parts.length ≠ 3 ∨ (parts.getD 0 []).length ≠ 0 then
        .error { reason := "URL path does not include both project and path components: %(path)s",
                 data := [("path", u.Path)], inner := none }
      else
        let addr : StreamAddr :=
          { Host := u.Host, Project := ⟨parts.getD 1 []⟩, Path := ⟨parts.getD 2 []⟩ }
        match projectValidate addr.Project with
        | some err =>
          .error { reason := "invalid project name: %(project)q",
                   data := [("project", addr.Project)], inner := some err }
        | none =>
          match pathValidate addr.Path with
          | some err =>
            .error { reason := "invalid stream path: %(path)q",
                     data := [("path", addr.Path)], inner := some err }
          | none => .ok addr

/-- What Go's `url.Parse` returns for the string `logdog:///proj/a/+/b`, a URL
with an empty authority: scheme `logdog`, empty host, path `/proj/a/+/b`.
Every other string is of no interest here and is made to fail. -/
def exUrlParse (v : String) : Except String URL :=
  if v = "logdog:///proj/a/+/b" then .ok { Scheme := "logdog", Host := "", Path := "/proj/a/+/b" }
  else .error "parse error"

end Types

namespace Delegation

/-- The fields of the proto message `admin.DelegationRule` that `validateRule`
reads; `max_validity_duration` is an `int64`. -/
structure DelegationRule where
  Name : String
  Requestor : List String
  AllowedToImpersonate : List String
  AllowedAudience : List String
  TargetService : List String
  MaxValidityDuration : Int
deriving DecidableEq, Repr

/-- A call made on the `validation.Context`: `Enter(title, args...)`, `Exit()`
or `Error(format, args...)`, with the arguments as text. -/
inductive CtxCall where
  | Enter (title : String) (args : List String)
  | Exit
  | Error (format : String) (args : List String)
deriving DecidableEq, Repr

/-- The struct `identitySetValidator` without its `Context`; a nil
`AllowIDKinds` is `none`. -/
structure identitySetValidator where
  Field : String
  AllowReservedWords : List String
  AllowGroups : Bool
  AllowIDKinds : Option (List String)
deriving DecidableEq, Repr

/-- The body of the loop of `identitySetValidator.validate` for one item `s`:
the calls it makes on the context.  `MakeIdentity` is
`identity.MakeIdentity`, `Kind` the method `Identity.Kind`. -/
def validateItem (MakeIdentity : String → Except String String) (Kind : String → String)
    (v : identitySetValidator) (s : String) : List CtxCall :=
  if s ∈ v.AllowReservedWords then []
  else if Strings.HasPrefix s "group:" then
    if !v.AllowGroups then [.Error "group entries are not allowed - %q" [s]]
    else if s = "group:" then [.Error "bad group entry %q" [s]]
    else []
  else
    match MakeIdentity s with
    | .error err => [.Error "%s" [err]]
    | .ok id =>
      match v.AllowIDKinds with
      | none => []
      | some kinds =>
        if Kind id ∈ kinds then []
        else [.Error "identity of kind %q is not allowed here - %q" [Kind id, s]]

/-- The method `identitySetValidator.validate`: the calls it makes on the
context, in order. -/
def validate (MakeIdentity : String → Except String String) (Kind : String → String)
    (v : identitySetValidator) (items : List String) : List CtxCall :=
  if items.length = 0 then [.Error "%q is required" [v.Field]]
  else
    [.Enter "%q" [v.Field]] ++ (items.map (validateItem MakeIdentity Kind v)).flatten ++ [.Exit]

/-- The function `validateRule`: the calls it makes on the context, in order.
`Requestor` is the constant of that name of the package and `Service` is
`identity.Service`. -/
def validateRule (Requestor Service : String) (MakeIdentity : String → Except String String)
    (Kind : String → String) (title : String) (r : DelegationRule) : List CtxCall :=
  [.Enter title []] ++
  (if r.Name = "" then [.Error "\"name\" is required" []] else []) ++
  validate MakeIdentity Kind
    { Field := "requestor", AllowReservedWords := [], AllowGroups := true, AllowIDKinds := none }
    r.Requestor ++
  validate MakeIdentity Kind
    { Field := "allowed_to_impersonate", AllowReservedWords := [Requestor], AllowGroups := true,
      AllowIDKinds := none }
    r.AllowedToImpersonate ++
  validate MakeIdentity Kind
    { Field := "allowed_audience", AllowReservedWords := [Requestor, "*"], AllowGroups := true,
      AllowIDKinds := none }
    r.AllowedAudience ++
  validate MakeIdentity Kind
    { Field := "target_service", AllowReservedWords := ["*"], AllowGroups := false,
      AllowIDKinds := some [Service] }
    r.TargetService ++
  (if r.MaxValidityDuration = 0 then [.Error "\"max_validity_duration\" is required" []]
   else if r.MaxValidityDuration < 0 then [.Error "\"max_validity_duration\" must be positive" []]
   else if r.MaxValidityDuration > 24 * 3600 then
     [.Error "\"max_validity_duration\" must be smaller than 86401" []]
   else []) ++
  [.Exit]

/-- Whether a call on the context reports an error about the field
`max_validity_duration`: an `Error` whose format begins with the quoted name
of the field. -/
def aboutMaxValidity : CtxCall → Bool
  | .Error format _ => Strings.HasPrefix format "\"max_validity_duration\""
  | _ => false

/-- An example rule, complete but for its `max_validity_duration` of 0. -/
def exRule : DelegationRule :=
  { Name := "rule", Requestor := ["group:a"], AllowedToImpersonate := ["REQUESTOR"],
    AllowedAudience := ["*"], TargetService := ["*"], MaxValidityDuration := 0 }

end Delegation

namespace Archiver

/-! ## Heap lemmas -/

theorem setErrChildren_apply (e : String) (cs : List Nat) (h : Heap) (j : Nat) :
    setErrChildren e cs h j = if j ∈ cs then { h j with err := some e } else h j := by
  induction cs generalizing h with
  | nil => simp [setErrChildren]
  | cons c cs ih =>
    simp only [setErrChildren, ih, List.mem_cons]
    by_cases hj : j ∈ cs
    · by_cases hc : j = c
      · subst hc; simp [hj]
      · simp [hj, hc, Function.update_noteq]
    · by_cases hc : j = c
      · subst hc; simp [hj]
      · simp [hj, hc, Function.update_noteq]

theorem setErr_fresh (h : Heap) (i : Nat) (e : String) (hnil : (h i).err = none)
    (hself : i ∉ (h i).linked) : setErr h i (some e) = .ok (setErrFresh h i e) := by
  simp only [setErr, hnil, hself, if_true, if_false]
  congr 1
  funext j
  by_cases hj : j = i
  · subst hj; simp [setErrFresh, setErrChildren_apply, hself]
  · simp [setErrFresh, setErrChildren_apply, hj, Function.update_noteq]

theorem setErr_stale (h : Heap) (i : Nat) (e : String) (hne : (h i).err ≠ none) :
    setErr h i (some e) = .ok (Function.update h i { h i with src := none }) := by
  simp [setErr, hne]

theorem wgDone_ok {it it' : archiverItem} (hd : wgDone it = .ok it') :
    it.wgHashed ≠ 0 ∧ it' = { it with wgHashed := it.wgHashed - 1 } := by
  unfold wgDone at hd
  split at hd
  · cases hd
  · rename_i hne
    exact ⟨hne, by cases hd; rfl⟩

/-- The three ways `link` returns normally: nothing to inherit, or the child
inherits digest and error, or only the error; each time the child is appended. -/
theorem link_ok {h h' : Heap} {i c : Nat} (hl : link h i c = .ok h') :
    ((h c).src = none ∧ (h c).state = none ∧ (h c).linked = [] ∧ (h c).err = none) ∧ c ≠ i ∧
    h' i = { h i with linked := (h i).linked ++ [c] } ∧
    (∀ j, j ≠ i → j ≠ c → h' j = h j) ∧
    (((h i).digestItem.Digest ≠ "" ∧ (h c).wgHashed ≠ 0 ∧
        h' c = { h c with digestItem := (h i).digestItem, err := (h i).err,
                          wgHashed := (h c).wgHashed - 1 }) ∨
     ((h i).digestItem.Digest = "" ∧ (h i).err ≠ none ∧ (h c).wgHashed ≠ 0 ∧
        h' c = { h c with err := (h i).err, wgHashed := (h c).wgHashed - 1 }) ∨
     ((h i).digestItem.Digest = "" ∧ (h i).err = none ∧ h' c = h c)) := by
  unfold link at hl
  split at hl
  · cases hl
  rename_i hpre
  simp only [not_or, not_not] at hpre
  split at hl
  · cases hl
  rename_i hci
  refine ⟨hpre, hci, ?_⟩
  have hic : i ≠ c := fun x => hci x.symm
  simp only [Function.update_same, Function.update_noteq hci] at hl
  split at hl
  · rename_i hdig
    split at hl
    · cases hl
    rename_i it hd
    obtain ⟨hwg, rfl⟩ := wgDone_ok hd
    cases hl
    refine ⟨by simp [Function.update_noteq hic], ?_, Or.inl ⟨hdig, hwg, by simp⟩⟩
    intro j hji hjc
    simp [Function.update_noteq hji, Function.update_noteq hjc]
  · rename_i hdig
    simp only [not_not] at hdig
    split at hl
    · rename_i herr
      split at hl
      · cases hl
      rename_i it hd
      obtain ⟨hwg, rfl⟩ := wgDone_ok hd
      cases hl
      refine ⟨by simp [Function.update_noteq hic], ?_, Or.inr (Or.inl ⟨hdig, herr, hwg, by simp⟩)⟩
      intro j hji hjc
      simp [Function.update_noteq hji, Function.update_noteq hjc]
    · rename_i herr
      simp only [not_not] at herr
      cases hl
      refine ⟨by simp, ?_, Or.inr (Or.inr ⟨hdig, herr, by simp [Function.update_noteq hci]⟩)⟩
      intro j hji hjc
      simp [Function.update_noteq hji]

theorem link_errMirrored {h h' : Heap} {r c : Nat} (hl : link h r c = .ok h')
    (hm : errMirrored h r) : errMirrored h' r := by
  obtain ⟨⟨_, _, _, hce⟩, hcr, hr, hrest, hcase⟩ := link_ok hl
  intro x hx
  simp only [Error, hr] at hx ⊢
  have hcx : Error h' c = Error h r := by
    rcases hcase with ⟨_, _, hc⟩ | ⟨_, _, _, hc⟩ | ⟨_, he, hc⟩
    · simp [Error, hc]
    · simp [Error, hc]
    · simp [Error, hc, hce, he]
  by_cases hxc : x = c
  · subst hxc; exact hcx
  · have hxr : x ∈ (h r).linked := by
      rcases List.mem_append.mp hx with hx | hx
      · exact hx
      · exact absurd (List.mem_singleton.mp hx) hxc
    by_cases hxr2 : x = r
    · subst hxr2; simp [hr]
    · rw [hrest x hxr2 hxc]; exact hm x hxr

theorem setErr_errMirrored {h h' : Heap} {r : Nat} {e : String} (hs : setErr h r (some e) = .ok h')
    (hm : errMirrored h r) : errMirrored h' r := by
  by_cases hnil : (h r).err = none
  · by_cases hself : r ∈ (h r).linked
    · simp [setErr, hnil, hself] at hs
    · rw [setErr_fresh h r e hnil hself] at hs
      cases hs
      intro x hx
      have hx2 : x ∈ (h r).linked := by simpa [setErrFresh] using hx
      by_cases hxr : x = r
      · subst hxr; rfl
      · simp [Error, setErrFresh, hxr, hx2]
  · rw [setErr_stale h r e hnil] at hs
    cases hs
    intro x hx
    have hx2 : x ∈ (h r).linked := by simpa using hx
    by_cases hxr : x = r
    · subst hxr; rfl
    · have := hm x hx2
      simpa [Error, Function.update_noteq hxr] using this

theorem applyCalls_append {r : Nat} {h h' : Heap} {cs ds : List ItemCall}
    (hrun : applyCalls r h (cs ++ ds) = .ok h') :
    ∃ h1, applyCalls r h cs = .ok h1 ∧ applyCalls r h1 ds = .ok h' := by
  induction cs generalizing h with
  | nil => exact ⟨h, rfl, hrun⟩
  | cons c cs ih =>
    simp only [List.cons_append, applyCalls] at hrun ⊢
    cases hc : applyCall h r c with
    | error f => simp [hc] at hrun
    | ok h1 =>
      simp only [hc] at hrun ⊢
      exact ih hrun

theorem applyCalls_errMirrored {r : Nat} {h h' : Heap} {cs : List ItemCall}
    (hrun : applyCalls r h cs = .ok h') (hm : errMirrored h r) : errMirrored h' r := by
  induction cs generalizing h with
  | nil => cases hrun; exact hm
  | cons c cs ih =>
    simp only [applyCalls] at hrun
    cases hc : applyCall h r c with
    | error f => simp [hc] at hrun
    | ok h1 =>
      simp only [hc] at hrun
      refine ih hrun ?_
      cases c with
      | link child => exact link_errMirrored hc hm
      | setErr err => exact setErr_errMirrored hc hm

/-! ## Lookup lemmas -/

theorem doContainsStates_spec (items : List Nat) (hnd : items.Nodup) :
    ∀ (states : List (Option PushState)) (index : Nat) (sfx : List Nat) (a : archiver),
      items.drop index = sfx → sfx.length = states.length →
      ∃ a', doContainsStates items states index a = .ok a' ∧
        a'.stats.Hits = a.stats.Hits ++ lookupHits a.items (sfx.zip states) ∧
        a'.stats.Pushed = a.stats.Pushed ∧
        a'.stage4UploadChan = a.stage4UploadChan ++ lookupMisses (sfx.zip states) ∧
        a'.canceler = a.canceler ∧ a'.isPush = a.isPush ∧
        (∀ j, a'.items j = { a.items j with state := (a'.items j).state }) ∧
        (∀ p ∈ sfx.zip states, p.2 ≠ none → (a'.items p.1).state = p.2) ∧
        (∀ j, j ∉ lookupMisses (sfx.zip states) → (a'.items j).state = (a.items j).state) := by
  intro states
  induction states with
  | nil =>
    intro index sfx a _ _
    exact ⟨a, rfl, by simp [lookupHits], rfl, by simp [lookupMisses], rfl, rfl,
      fun _ => rfl, by simp, fun _ _ => rfl⟩
  | cons st rest ih =>
    intro index sfx a hsfx hlen
    cases sfx with
    | nil => simp at hlen
    | cons x tl =>
    have hidx : index < items.length := by
      by_contra hge
      rw [List.drop_eq_nil_of_le (by omega)] at hsfx
      cases hsfx
    have hx : items.get? index = some x := by
      have h1 := List.drop_eq_getElem_cons hidx
      rw [hsfx] at h1
      rw [List.get?_eq_getElem?, List.getElem?_eq_getElem hidx]
      exact congrArg some (List.cons.inj h1).1.symm
    have htl : items.drop (index + 1) = tl := by
      have h1 := List.drop_eq_getElem_cons hidx
      rw [hsfx] at h1
      exact (List.cons.inj h1).2.symm
    have hlen' : tl.length = rest.length := by simpa using hlen
    have hnotin : x ∉ tl := by
      have h1 : (x :: tl).Nodup := hsfx ▸ List.Nodup.sublist (List.drop_sublist index items) hnd
      exact (List.nodup_cons.mp h1).1
    have hnm : x ∉ lookupMisses (tl.zip rest) := by
      intro hm
      simp only [lookupMisses, List.mem_map, List.mem_filter] at hm
      obtain ⟨p, ⟨hp, _⟩, hp1⟩ := hm
      exact hnotin (hp1 ▸ (List.of_mem_zip hp).1)
    cases st with
    | none =>
      obtain ⟨a', hrun, hh, hp, hc, hcan, hpush, hit, hst, hun⟩ := ih (index + 1) tl
        { a with stats := { a.stats with Hits := a.stats.Hits ++ [(a.items x).digestItem.Size] } }
        htl hlen'
      simp only [] at hrun hh hp hc hcan hpush hit hst hun
      refine ⟨a', ?_, ?_, hp, ?_, hcan, hpush, hit, ?_, ?_⟩
      · simp only [doContainsStates, hx]; exact hrun
      · rw [hh]; simp [lookupHits]
      · rw [hc]; simp [lookupMisses]
      · intro p hp hne
        simp only [List.zip_cons_cons, List.mem_cons] at hp
        rcases hp with rfl | hp
        · exact absurd rfl hne
        · exact hst p hp hne
      · intro j hj
        apply hun
        simpa [lookupMisses] using hj
    | some s =>
      obtain ⟨a', hrun, hh, hp, hc, hcan, hpush, hit, hst, hun⟩ := ih (index + 1) tl
        { (progressUpdate
            { a with items := Function.update a.items x { a.items x with state := some s } }
            groupUpload groupUploadTodo 1) with
          stage4UploadChan := a.stage4UploadChan ++ [x] }
        htl hlen'
      simp only [progressUpdate] at hrun hh hp hc hcan hpush hit hst hun
      have hit0 : ∀ j, (Function.update a.items x
          { a.items x with state := some s } j).digestItem = (a.items j).digestItem := by
        intro j
        by_cases hj : j = x
        · subst hj; simp
        · simp [Function.update_noteq hj]
      refine ⟨a', ?_, ?_, hp, ?_, hcan, hpush, ?_, ?_, ?_⟩
      · simp only [doContainsStates, hx, progressUpdate]; exact hrun
      · rw [hh]
        simp only [lookupHits, List.zip_cons_cons, List.filter_cons,
          Option.isNone_some, Bool.false_eq_true, if_false, List.append_cancel_left_eq]
        apply List.map_congr_left
        intro p _
        rw [hit0]
      · rw [hc]; simp [lookupMisses]
      · intro j
        rw [hit j]
        by_cases hj : j = x
        · subst hj; simp
        · simp [Function.update_noteq hj]
      · intro p hp hne
        simp only [List.zip_cons_cons, List.mem_cons] at hp
        rcases hp with rfl | hp
        · rw [hun _ hnm]; simp
        · exact hst p hp hne
      · intro j hj
        simp only [lookupMisses, List.zip_cons_cons, List.filter_cons, Option.isSome_some, if_true,
          List.map_cons, List.mem_cons, not_or] at hj
        rw [hun j (by simpa [lookupMisses] using hj.2)]
        simp [Function.update_noteq hj.1]

/-! ## Error-setting lemmas -/

theorem errOnly_refl (e : String) (h : Heap) : errOnly e h h :=
  fun _ => ⟨rfl, Or.inl rfl, fun x => x⟩

theorem errOnly_trans {e : String} {h1 h2 h3 : Heap} (h12 : errOnly e h1 h2)
    (h23 : errOnly e h2 h3) : errOnly e h1 h3 := by
  intro j
  obtain ⟨a1, b1, c1⟩ := h12 j
  obtain ⟨a2, b2, c2⟩ := h23 j
  refine ⟨?_, ?_, fun x => c2 (c1 x)⟩
  · rw [a2, a1]
  · rcases b2 with b2 | b2
    · rw [b2]; exact b1
    · exact Or.inr b2

theorem setErr_errOnly {h h' : Heap} {i : Nat} {e : String} (hs : setErr h i (some e) = .ok h') :
    errOnly e h h' ∧ (h' i).err ≠ none := by
  by_cases hnil : (h i).err = none
  · by_cases hself : i ∈ (h i).linked
    · simp [setErr, hnil, hself] at hs
    · rw [setErr_fresh h i e hnil hself] at hs
      cases hs
      refine ⟨fun j => ?_, by simp [setErrFresh]⟩
      by_cases hj : j = i
      · subst hj; simp [setErrFresh]
      · by_cases hc : j ∈ (h i).linked
        · simp [setErrFresh, hj, hc]
        · simp [setErrFresh, hj, hc]
  · rw [setErr_stale h i e hnil] at hs
    cases hs
    refine ⟨fun j => ?_, by simpa using hnil⟩
    by_cases hj : j = i
    · subst hj; simp
    · simp [Function.update_noteq hj]

theorem setErr_total (h : Heap) (i : Nat) (e : String) (hself : i ∉ (h i).linked) :
    ∃ h', setErr h i (some e) = .ok h' := by
  by_cases hnil : (h i).err = none
  · exact ⟨_, setErr_fresh h i e hnil hself⟩
  · exact ⟨_, setErr_stale h i e hnil⟩

/-- A `setErr` on `r` leaves the error of `j` as it is, unless `r` has no
error yet and `j` is `r` or linked to `r`. -/
theorem setErr_keeps_err {h h' : Heap} {r : Nat} {e : String}
    (hs : setErr h r (some e) = .ok h') (j : Nat)
    (hj : (h r).err = none → j ≠ r ∧ j ∉ (h r).linked) : (h' j).err = (h j).err := by
  by_cases hnil : (h r).err = none
  · by_cases hself : r ∈ (h r).linked
    · simp [setErr, hnil, hself] at hs
    · rw [setErr_fresh h r e hnil hself] at hs
      cases hs
      simp [setErrFresh, (hj hnil).1, (hj hnil).2]
  · rw [setErr_stale h r e hnil] at hs
    cases hs
    by_cases hjr : j = r
    · subst hjr; simp
    · simp [Function.update_noteq hjr]

theorem setErrAll_errOnly (e : String) : ∀ (items : List Nat) (h h' : Heap),
    setErrAll (some e) items h = .ok h' →
    errOnly e h h' ∧ ∀ i ∈ items, (h' i).err ≠ none := by
  intro items
  induction items with
  | nil =>
    intro h h' hs
    cases hs
    exact ⟨errOnly_refl e h, by simp⟩
  | cons i rest ih =>
    intro h h' hs
    simp only [setErrAll] at hs
    cases h1 : setErr h i (some e) with
    | error f => simp [h1] at hs
    | ok h1' =>
      simp only [h1] at hs
      obtain ⟨ha, hb⟩ := setErr_errOnly h1
      obtain ⟨hc, hd⟩ := ih h1' h' hs
      refine ⟨errOnly_trans ha hc, ?_⟩
      intro x hx
      rcases List.mem_cons.mp hx with rfl | hx
      · exact (hc x).2.2 hb
      · exact hd x hx

theorem setErrAll_total (e : String) : ∀ (items : List Nat) (h : Heap),
    (∀ i ∈ items, i ∉ (h i).linked) → ∃ h', setErrAll (some e) items h = .ok h' := by
  intro items
  induction items with
  | nil => intro h _; exact ⟨h, rfl⟩
  | cons i rest ih =>
    intro h hself
    obtain ⟨h1, hs1⟩ := setErr_total h i e (hself i (List.mem_cons_self _ _))
    have hl : ∀ j, (h1 j).linked = (h j).linked := fun j => by
      have := ((setErr_errOnly hs1).1 j).1
      rw [this]
    obtain ⟨h', hs'⟩ := ih h1 (fun x hx => by
      rw [hl x]; exact hself x (List.mem_cons_of_mem _ hx))
    exact ⟨h', by simp only [setErrAll, hs1]; exact hs'⟩

theorem setErrAll_keeps_err (e : String) (j : Nat) : ∀ (items : List Nat) (h0 h h' : Heap),
    errOnly e h0 h → (h0 j).err ≠ none → (h j).err = (h0 j).err →
    (∀ r ∈ items, j ∈ (h0 r).linked → (h0 r).err ≠ none) →
    setErrAll (some e) items h = .ok h' → (h' j).err = (h0 j).err := by
  intro items
  induction items with
  | nil =>
    intro h0 h h' _ _ hk _ hs
    cases hs
    exact hk
  | cons i rest ih =>
    intro h0 h h' h0h hj hk hm hs
    simp only [setErrAll] at hs
    cases h1 : setErr h i (some e) with
    | error f => simp [h1] at hs
    | ok h1' =>
      simp only [h1] at hs
      have hlink : (h i).linked = (h0 i).linked := by rw [(h0h i).1]
      refine ih h0 h1' h' (errOnly_trans h0h (setErr_errOnly h1).1) hj ?_
        (fun r hr => hm r (List.mem_cons_of_mem _ hr)) hs
      rw [setErr_keeps_err h1 j ?_, hk]
      intro hnil
      have h0i : (h0 i).err = none := by
        by_contra hne
        exact (h0h i).2.2 hne hnil
      constructor
      · rintro rfl
        exact hj h0i
      · rw [hlink]
        intro hc
        exact hm i (List.mem_cons_self _ _) hc h0i

theorem zip_snd_unique {β : Type} : ∀ (l : List Nat) (m : List β) (x : Nat) (b c : β),
    l.Nodup → (x, b) ∈ l.zip m → (x, c) ∈ l.zip m → b = c := by
  intro l
  induction l with
  | nil => intro m x b c _ hb; simp at hb
  | cons y l ih =>
    intro m x b c hnd hb hc
    cases m with
    | nil => simp at hb
    | cons z m =>
      simp only [List.zip_cons_cons, List.mem_cons, Prod.mk.injEq] at hb hc
      have hy : y ∉ l := (List.nodup_cons.mp hnd).1
      rcases hb with ⟨hx, hb⟩ | hb
      · rcases hc with ⟨_, hc⟩ | hc
        · rw [hb, hc]
        · exact absurd (hx ▸ (List.of_mem_zip hc).1) hy
      · rcases hc with ⟨hx, _⟩ | hc
        · exact absurd (hx ▸ (List.of_mem_zip hb).1) hy
        · exact ih m x b c (List.nodup_cons.mp hnd).2 hb hc

theorem filter_isNone_isSome_length {α : Type} (ps : List (α × Option PushState)) :
    (ps.filter (fun p => p.2.isNone)).length + (ps.filter (fun p => p.2.isSome)).length
      = ps.length := by
  induction ps with
  | nil => rfl
  | cons p ps ih =>
    cases hp : p.2 with
    | none => simp [List.filter_cons, hp]; omega
    | some s => simp [List.filter_cons, hp]; omega

theorem doContainsStates_state_only (items : List Nat) :
    ∀ (states : List (Option PushState)) (index : Nat) (a a' : archiver),
      doContainsStates items states index a = .ok a' →
      ∀ j, a'.items j = { a.items j with state := (a'.items j).state } := by
  intro states
  induction states with
  | nil => intro index a a' hr j; cases hr; rfl
  | cons st rest ih =>
    intro index a a' hr j
    simp only [doContainsStates] at hr
    cases hx : items.get? index with
    | none => simp only [hx, reduceCtorEq] at hr
    | some x =>
      simp only [hx] at hr
      cases st with
      | none =>
        have := ih _ _ _ hr j
        simpa using this
      | some s =>
        have := ih _ _ _ hr j
        simp only [progressUpdate] at this
        rw [this]
        by_cases hj : j = x
        · subst hj; simp
        · simp [Function.update_noteq hj]

/-! ## Released items -/

theorem Done_ok {h h' : Heap} {i : Nat} (hd : Done h i = .ok h') :
    (h i).wgHashed ≠ 0 ∧ h' = Function.update h i { h i with wgHashed := (h i).wgHashed - 1 } := by
  unfold Done at hd
  cases hw : wgDone (h i) with
  | error f => simp [hw] at hd
  | ok it =>
    simp only [hw] at hd
    obtain ⟨h1, rfl⟩ := wgDone_ok hw
    cases hd
    exact ⟨h1, rfl⟩

theorem calcDigestChildren_released (d : DigestItem) : ∀ (cs : List Nat) (h h' : Heap),
    calcDigestChildren d cs h = .ok h' → ∀ j, (h j).wgHashed = 0 → h' j = h j := by
  intro cs
  induction cs with
  | nil => intro h h' hc j _; cases hc; rfl
  | cons c cs ih =>
    intro h h' hc j hj
    simp only [calcDigestChildren] at hc
    cases hw : wgDone { h c with digestItem := d } with
    | error f => simp [hw] at hc
    | ok it =>
      simp only [hw] at hc
      obtain ⟨h1, _⟩ := wgDone_ok hw
      have hjc : j ≠ c := fun x => h1 (x ▸ hj)
      rw [ih _ _ hc j (by simpa [Function.update_noteq hjc] using hj)]
      simp [Function.update_noteq hjc]

theorem calcDigestStore_released {h h' : Heap} {i : Nat} {d : DigestItem} {r : error}
    (hc : calcDigestStore h i d = .ok (h', r)) (j : Nat) (hj : (h j).wgHashed = 0) :
    h' j = h j := by
  unfold calcDigestStore at hc
  split at hc
  · cases hc
  rename_i hself
  cases h1 : calcDigestChildren d (h i).linked (Function.update h i { h i with digestItem := d }) with
  | error f => simp [h1] at hc
  | ok h1' =>
    simp only [h1] at hc
    cases h2 : Done h1' i with
    | error f => simp [h2] at hc
    | ok h2' =>
      simp only [h2, Except.ok.injEq, Prod.mk.injEq] at hc
      obtain ⟨rfl, _⟩ := hc
      obtain ⟨hw, rfl⟩ := Done_ok h2
      by_cases hji : j = i
      · subst hji
        exfalso
        apply hw
        rw [calcDigestChildren_released d _ _ _ h1 j (by simpa using hj)]
        simpa using hj
      · rw [Function.update_noteq hji,
          calcDigestChildren_released d _ _ _ h1 j (by simpa [Function.update_noteq hji] using hj)]
        simp [Function.update_noteq hji]

/-- A `setErr` changes no digest and no counter, and it leaves the error of an
item that carries the error of the items it is linked to, once that is set. -/
theorem setErr_stable {h h' : Heap} {r : Nat} {e : String} (hs : setErr h r (some e) = .ok h')
    (j : Nat) (hm : mirrorsRep h j) :
    (h' j).digestItem = (h j).digestItem ∧ (h' j).wgHashed = (h j).wgHashed ∧
      ((h j).err ≠ none → (h' j).err = (h j).err) := by
  have h1 := ((setErr_errOnly hs).1 j).1
  refine ⟨by rw [h1], by rw [h1], fun hne => setErr_keeps_err hs j (fun hnil => ⟨?_, ?_⟩)⟩
  · rintro rfl; exact hne hnil
  · intro hc
    have := hm r hc
    simp only [Error] at this
    exact hne (this.trans hnil)

theorem calcDigestFail_released {h h' : Heap} {i : Nat} {err ret : String} {r : error}
    (hc : calcDigestFail h i err ret = .ok (h', r)) (j : Nat) (hm : mirrorsRep h j)
    (hj : (h j).wgHashed = 0) :
    (h' j).digestItem = (h j).digestItem ∧ ((h j).err ≠ none → (h' j).err = (h j).err) := by
  unfold calcDigestFail at hc
  cases h1 : setErr h i (some err) with
  | error f => simp [h1] at hc
  | ok h1' =>
    simp only [h1] at hc
    cases h2 : Done h1' i with
    | error f => simp [h2] at hc
    | ok h2' =>
      simp only [h2, Except.ok.injEq, Prod.mk.injEq] at hc
      obtain ⟨rfl, _⟩ := hc
      obtain ⟨hw, rfl⟩ := Done_ok h2
      obtain ⟨ha, hb, hc'⟩ := setErr_stable h1 j hm
      have hji : j ≠ i := by
        rintro rfl
        exact hw (hb.trans hj)
      rw [Function.update_noteq hji]
      exact ⟨ha, hc'⟩

theorem calcDigest_released {HashFile : String → Except String DigestItem} {h h' : Heap} {i : Nat}
    {r : error} (hc : calcDigest HashFile h i = .ok (h', r)) (j : Nat) (hm : mirrorsRep h j)
    (hj : (h j).wgHashed = 0) :
    (h' j).digestItem = (h j).digestItem ∧ ((h j).err ≠ none → (h' j).err = (h j).err) := by
  have hstore : ∀ d, calcDigestStore h i d = .ok (h', r) →
      (h' j).digestItem = (h j).digestItem ∧ ((h j).err ≠ none → (h' j).err = (h j).err) := by
    intro d hd
    rw [calcDigestStore_released hd j hj]
    exact ⟨rfl, fun _ => rfl⟩
  unfold calcDigest at hc
  split at hc
  · split at hc
    · exact calcDigestFail_released hc j hm hj
    · exact hstore _ hc
  · split at hc
    · cases hc
    · split at hc
      · exact calcDigestFail_released hc j hm hj
      · split at hc
        · exact calcDigestFail_released hc j hm hj
        · exact hstore _ hc

theorem link_released {h h' : Heap} {i c : Nat} (hl : link h i c = .ok h') (j : Nat)
    (hj : (h j).wgHashed = 0) :
    (h' j).digestItem = (h j).digestItem ∧ (h' j).err = (h j).err := by
  obtain ⟨_, hci, hi, hrest, hcase⟩ := link_ok hl
  by_cases hji : j = i
  · subst hji; rw [hi]; exact ⟨rfl, rfl⟩
  · by_cases hjc : j = c
    · subst hjc
      rcases hcase with ⟨_, hw, _⟩ | ⟨_, _, hw, _⟩ | ⟨_, _, hc⟩
      · exact absurd hj hw
      · exact absurd hj hw
      · rw [hc]; exact ⟨rfl, rfl⟩
    · rw [hrest j hji hjc]; exact ⟨rfl, rfl⟩

theorem Cancel_items (a : archiver) (e : String) : (Cancel a e).items = a.items := by
  unfold Cancel; split <;> rfl

theorem setErr_Done_released {h h1 h2 : Heap} {i : Nat} {err : error}
    (hs : setErr h i err = .ok h1) (hd : Done h1 i = .ok h2) (j : Nat) (hm : mirrorsRep h j)
    (hj : (h j).wgHashed = 0) :
    (h2 j).digestItem = (h j).digestItem ∧ ((h j).err ≠ none → (h2 j).err = (h j).err) := by
  cases err with
  | none => simp [setErr] at hs
  | some e =>
    obtain ⟨hw, rfl⟩ := Done_ok hd
    obtain ⟨ha, hb, hc⟩ := setErr_stable hs j hm
    have hji : j ≠ i := by
      rintro rfl
      exact hw (hb.trans hj)
    rw [Function.update_noteq hji]
    exact ⟨ha, hc⟩

theorem step_released {HashFile : String → Except String DigestItem} {a a' : archiver} {e : Event}
    (hstep : step HashFile a e = .ok a') (j : Nat) (hj : j < a.nextItem)
    (hrel : (a.items j).wgHashed = 0) (hm : mirrorsRep a.items j) :
    (a'.items j).digestItem = (a.items j).digestItem ∧
      ((a.items j).err ≠ none → (a'.items j).err = (a.items j).err) := by
  have hjn : j ≠ a.nextItem := Nat.ne_of_lt hj
  cases e with
  | PushFile displayName path =>
    simp only [step, PushFile, alloc, push, Except.ok.injEq] at hstep
    subst hstep
    split <;> simp [progressUpdate, Function.update_noteq hjn]
  | Push displayName src =>
    simp only [step] at hstep
    cases hp : Push a displayName src with
    | error f => simp [hp] at hstep
    | ok r =>
      simp only [hp, Except.ok.injEq] at hstep
      subst hstep
      unfold Push at hp
      simp only [alloc] at hp
      cases src with
      | none => simp at hp
      | some rs =>
        simp only at hp
        split at hp
        · cases h1 : setErr (Function.update a.items a.nextItem (newArchiverItem displayName "" (some rs)))
              a.nextItem (some ("seek(" ++ DisplayName (Function.update a.items a.nextItem
                (newArchiverItem displayName "" (some rs))) a.nextItem ++ ") failed: " ++
                fmtErr rs.seekErr ++ "\n")) with
          | error f => simp [h1] at hp
          | ok h1' =>
            simp only [h1] at hp
            cases h2 : Done h1' a.nextItem with
            | error f => simp [h2] at hp
            | ok h2' =>
              simp only [h2, Except.ok.injEq] at hp
              subst hp
              have := setErr_Done_released h1 h2 j (by
                intro r hr
                have hr' : j ∈ (a.items r).linked := by
                  by_cases hrn : r = a.nextItem
                  · subst hrn
                    simp [newArchiverItem, zeroItem] at hr
                  · simpa [Function.update_noteq hrn] using hr
                have hx := hm r hr'
                simp only [Error] at hx ⊢
                by_cases hrn : r = a.nextItem
                · subst hrn
                  simp [newArchiverItem, zeroItem] at hr
                · simpa [Function.update_noteq hrn, Function.update_noteq hjn] using hx)
                (by simpa [Function.update_noteq hjn] using hrel)
              simpa [Function.update_noteq hjn] using this
        · simp only [push, Except.ok.injEq] at hp
          subst hp
          split <;> simp [progressUpdate, Function.update_noteq hjn]
  | Cancel reason =>
    simp only [step, Except.ok.injEq] at hstep
    subst hstep
    rw [Cancel_items]
    exact ⟨rfl, fun _ => rfl⟩
  | Close =>
    simp only [step, Except.ok.injEq] at hstep
    subst hstep
    exact ⟨rfl, fun _ => rfl⟩
  | stage1Dedupe =>
    simp only [step] at hstep
    cases hg : a.stage1DedupeChan.get? a.stage1Recv with
    | none =>
      simp only [hg, Except.ok.injEq] at hstep
      subst hstep
      exact ⟨rfl, fun _ => rfl⟩
    | some item =>
      simp only [hg] at hstep
      unfold stage1DedupeBody at hstep
      simp only [CancelationReason] at hstep
      split at hstep
      · cases h1 : setErr a.items item a.canceler with
        | error f => simp [h1] at hstep
        | ok h1' =>
          simp only [h1] at hstep
          cases h2 : Done h1' item with
          | error f => simp [h2] at hstep
          | ok h2' =>
            simp only [h2, Except.ok.injEq] at hstep
            subst hstep
            exact setErr_Done_released h1 h2 j hm hrel
      · split at hstep
        · rename_i previous _
          cases h1 : link a.items previous item with
          | error f => simp [h1] at hstep
          | ok h1' =>
            simp only [h1, Except.ok.injEq] at hstep
            subst hstep
            obtain ⟨hx, hy⟩ := link_released h1 j hrel
            exact ⟨hx, fun _ => hy⟩
        · simp only [progressUpdate, Except.ok.injEq] at hstep
          subst hstep
          exact ⟨rfl, fun _ => rfl⟩
  | stage2Hash =>
    simp only [step] at hstep
    split at hstep
    · simp only [Except.ok.injEq] at hstep
      subst hstep
      exact ⟨rfl, fun _ => rfl⟩
    · simp only [Except.ok.injEq] at hstep
      subst hstep
      exact ⟨rfl, fun _ => rfl⟩
  | hashJob item =>
    simp only [step] at hstep
    split at hstep
    · unfold stage2HashJob at hstep
      simp only at hstep
      cases hc : calcDigest HashFile a.items item with
      | error f => simp [hc] at hstep
      | ok r =>
        obtain ⟨h1, r1⟩ := r
        have := calcDigest_released hc j hm hrel
        cases r1 with
        | none =>
          simp only [hc, progressUpdate, Except.ok.injEq] at hstep
          subst hstep
          exact this
        | some err =>
          simp only [hc, Except.ok.injEq] at hstep
          subst hstep
          rw [Cancel_items]
          exact this
    · simp only [Except.ok.injEq] at hstep
      subst hstep
      exact ⟨rfl, fun _ => rfl⟩
  | hashCanceled item =>
    simp only [step] at hstep
    split at hstep
    · unfold stage2HashCanceled at hstep
      simp only [CancelationReason] at hstep
      cases h1 : setErr a.items item a.canceler with
      | error f => simp [h1] at hstep
      | ok h1' =>
        simp only [h1] at hstep
        cases h2 : Done h1' item with
        | error f => simp [h2] at hstep
        | ok h2' =>
          simp only [h2, Except.ok.injEq] at hstep
          subst hstep
          exact setErr_Done_released h1 h2 j hm hrel
    · simp only [Except.ok.injEq] at hstep
      subst hstep
      exact ⟨rfl, fun _ => rfl⟩

theorem doContains_stable {a a' : archiver} {items : List Nat}
    {reply : Except String (List (Option PushState))} (hd : doContains a items reply = .ok a')
    (j : Nat) (hm : mirrorsRep a.items j) :
    (a'.items j).digestItem = (a.items j).digestItem ∧
      ((a.items j).err ≠ none → (a'.items j).err = (a.items j).err) := by
  unfold doContains at hd
  cases reply with
  | error err =>
    simp only [Cancel_items] at hd
    cases hs : setErrAll (some (containsErr items.length err)) items a.items with
    | error f => simp [hs] at hd
    | ok h1 =>
      simp only [hs, Except.ok.injEq] at hd
      subst hd
      refine ⟨?_, ?_⟩
      · have := ((setErrAll_errOnly _ _ _ _ hs).1 j).1
        simp only []
        rw [this]
      · intro hne
        exact setErrAll_keeps_err _ j items a.items a.items h1 (errOnly_refl _ _) hne rfl
          (fun r _ hc => by
            have := hm r hc
            simp only [Error] at this
            rw [← this]; exact hne) hs
  | ok states =>
    simp only at hd
    have := doContainsStates_state_only items states 0 _ a' hd j
    simp only [progressUpdate] at this
    rw [this]
    exact ⟨rfl, fun _ => rfl⟩

theorem doUpload_stable {a a' : archiver} {item : Nat} {openErr pushErr : error} {elapsed : Nat}
    (hd : doUpload a item openErr pushErr elapsed = .ok a') (j : Nat)
    (hm : mirrorsRep a.items j) :
    (a'.items j).digestItem = (a.items j).digestItem ∧
      ((a.items j).err ≠ none → (a'.items j).err = (a.items j).err) := by
  have hclear : ∀ k, (Function.update a.items item { a.items item with src := none } k) =
      { a.items k with src := (Function.update a.items item { a.items item with src := none } k).src } := by
    intro k
    by_cases hk : k = item
    · subst hk; simp
    · simp [Function.update_noteq hk]
  have hm' : mirrorsRep (Function.update a.items item { a.items item with src := none }) j := by
    intro r hr
    have hr' : j ∈ (a.items r).linked := by rw [hclear r] at hr; exact hr
    have := hm r hr'
    simp only [Error] at this ⊢
    rw [hclear j, hclear r]
    exact this
  unfold doUpload at hd
  cases hsrc : (a.items item).src with
  | none =>
    simp only [hsrc] at hd
    cases hopen : openErr with
    | some err =>
      simp only [hopen, Cancel_items] at hd
      cases hs : setErr a.items item (some err) with
      | error f => simp [hs] at hd
      | ok h1 =>
        simp only [hs, Except.ok.injEq] at hd
        subst hd
        obtain ⟨x, _, z⟩ := setErr_stable hs j hm
        exact ⟨x, z⟩
    | none =>
      simp only [hopen] at hd
      cases hpush : pushErr with
      | some err =>
        simp only [hpush, Cancel_items] at hd
        cases hs : setErr a.items item
            (some ("push(" ++ (a.items item).path ++ ") failed: " ++ err ++ "\n")) with
        | error f => simp [hs] at hd
        | ok h1 =>
          simp only [hs, Except.ok.injEq] at hd
          subst hd
          obtain ⟨x, _, z⟩ := setErr_stable hs j hm
          exact ⟨x, z⟩
      | none =>
        simp only [hpush, progressUpdate, Except.ok.injEq] at hd
        subst hd
        exact ⟨rfl, fun _ => rfl⟩
  | some r =>
    simp only [hsrc] at hd
    cases hpush : pushErr with
    | some err =>
      simp only [hpush, Cancel_items, Function.update_same] at hd
      cases hs : setErr (Function.update a.items item { a.items item with src := none }) item
          (some ("push(" ++ (a.items item).path ++ ") failed: " ++ err ++ "\n")) with
      | error f => simp [hs] at hd
      | ok h1 =>
        simp only [hs, Except.ok.injEq] at hd
        subst hd
        obtain ⟨x, _, z⟩ := setErr_stable hs j hm'
        rw [hclear j] at x z
        exact ⟨x, z⟩
    | none =>
      simp only [hpush, progressUpdate, Except.ok.injEq] at hd
      subst hd
      simp only []
      rw [hclear j]
      exact ⟨rfl, fun _ => rfl⟩

/-! ## Lists of submitted items -/

theorem firstWithPath_mem {P : Nat → String} {xs : List Nat} {p : String} {r : Nat}
    (h : firstWithPath P xs p = some r) : r ∈ xs ∧ P r = p := by
  unfold firstWithPath at h
  exact ⟨List.mem_of_find?_eq_some h, by simpa using List.find?_some h⟩

theorem firstWithPath_eq_none {P : Nat → String} {xs : List Nat} {p : String} :
    firstWithPath P xs p = none ↔ ∀ x ∈ xs, P x ≠ p := by
  unfold firstWithPath
  simp

theorem firstWithPath_snoc (P : Nat → String) (xs : List Nat) (x : Nat) (p : String) :
    firstWithPath P (xs ++ [x]) p =
      (firstWithPath P xs p).or (if P x = p then some x else none) := by
  unfold firstWithPath
  rw [List.find?_append]
  congr 1
  by_cases hx : P x = p <;> simp [List.find?_cons, hx]

theorem firstWithPath_snoc_of_mem {P : Nat → String} {xs : List Nat} (x : Nat) {i : Nat}
    (hi : i ∈ xs) : firstWithPath P (xs ++ [x]) (P i) = firstWithPath P xs (P i) := by
  rw [firstWithPath_snoc]
  cases h : firstWithPath P xs (P i) with
  | none => exact absurd rfl (firstWithPath_eq_none.mp h i hi)
  | some r => rfl

theorem expectedForwarded_snoc (P : Nat → String) (xs : List Nat) (x : Nat) (hx : x ∉ xs) :
    expectedForwarded P (xs ++ [x]) = expectedForwarded P xs ++
      (if P x = "" ∨ firstWithPath P xs (P x) = none then [x] else []) := by
  unfold expectedForwarded
  rw [List.filter_append]
  congr 1
  · apply List.filter_congr
    intro i hi
    simp only [entersHash, firstWithPath_snoc_of_mem x hi]
  · by_cases he : P x = ""
    · simp [List.filter_cons, entersHash, he]
    · cases hf : firstWithPath P xs (P x) with
      | none => simp [List.filter_cons, entersHash, he, firstWithPath_snoc, hf]
      | some r =>
        have hrx : r ≠ x := fun h => hx (h ▸ (firstWithPath_mem hf).1)
        simp [List.filter_cons, entersHash, he, firstWithPath_snoc, hf, hrx]

theorem distinctPaths_snoc (P : Nat → String) (xs : List Nat) (x : Nat) :
    distinctPaths P (xs ++ [x]) = distinctPaths P xs +
      (if P x ≠ "" ∧ firstWithPath P xs (P x) = none then 1 else 0) := by
  unfold distinctPaths
  by_cases he : P x = ""
  · simp [List.filter_cons, he]
  · simp only [List.map_append, List.map_cons, List.map_nil, List.filter_append, List.filter_cons,
      ne_eq, he, not_false_eq_true, decide_True, if_true, List.filter_nil, List.toFinset_append,
      List.toFinset_cons, List.toFinset_nil, insert_emptyc_eq, true_and]
    cases hf : firstWithPath P xs (P x) with
    | none =>
      have hnot : P x ∉ ((xs.map P).filter (fun p => decide (¬p = ""))).toFinset := by
        intro hm
        simp only [List.mem_toFinset, List.mem_filter, List.mem_map] at hm
        obtain ⟨⟨y, hy, hyx⟩, _⟩ := hm
        exact firstWithPath_eq_none.mp hf y hy hyx
      rw [Finset.union_comm, ← Finset.insert_eq, Finset.card_insert_of_not_mem hnot]
      simp
    | some r =>
      have hin : P x ∈ ((xs.map P).filter (fun p => decide (¬p = ""))).toFinset := by
        simp only [List.mem_toFinset, List.mem_filter, List.mem_map]
        exact ⟨⟨r, (firstWithPath_mem hf).1, (firstWithPath_mem hf).2⟩, by simpa using he⟩
      rw [Finset.union_comm, ← Finset.insert_eq, Finset.insert_eq_of_mem hin]
      simp

/-- The forwarded items number the distinct non-empty paths plus the
empty-path items. -/
theorem expectedForwarded_length (P : Nat → String) (xs : List Nat) (hnd : xs.Nodup) :
    (expectedForwarded P xs).length =
      distinctPaths P xs + (xs.filter (fun i => decide (P i = ""))).length := by
  induction xs using List.reverseRecOn with
  | nil => simp [expectedForwarded, distinctPaths]
  | append_singleton xs x ih =>
    have hnd' : xs.Nodup := (List.nodup_append.mp hnd).1
    have hx : x ∉ xs := by
      intro hm
      exact (List.nodup_append.mp hnd).2.2 hm (List.mem_singleton_self x)
    rw [expectedForwarded_snoc P xs x hx, distinctPaths_snoc, List.length_append, ih hnd',
      List.filter_append, List.length_append]
    by_cases he : P x = ""
    · simp [List.filter_cons, he]; omega
    · cases hf : firstWithPath P xs (P x) with
      | none => simp [List.filter_cons, he]; omega
      | some r => simp [List.filter_cons, he]

/-! ## What each item method touches -/

theorem setErr_untouched {h h' : Heap} {i : Nat} {e : String} (hs : setErr h i (some e) = .ok h')
    (j : Nat) (hji : j ≠ i) (hjl : j ∉ (h i).linked) : h' j = h j := by
  by_cases hnil : (h i).err = none
  · by_cases hself : i ∈ (h i).linked
    · simp [setErr, hnil, hself] at hs
    · rw [setErr_fresh h i e hnil hself] at hs
      cases hs
      simp [setErrFresh, hji, hjl]
  · rw [setErr_stale h i e hnil] at hs
    cases hs
    simp [Function.update_noteq hji]

theorem setErr_shape {h h' : Heap} {i : Nat} {e : String} (hs : setErr h i (some e) = .ok h')
    (j : Nat) : (h' j).linked = (h j).linked ∧ (h' j).path = (h j).path ∧
      (h' j).wgHashed = (h j).wgHashed ∧ (h' j).digestItem = (h j).digestItem := by
  have := ((setErr_errOnly hs).1 j).1
  refine ⟨?_, ?_, ?_, ?_⟩ <;> rw [this]

theorem calcDigestChildren_effect (d : DigestItem) : ∀ (cs : List Nat) (h h' : Heap),
    calcDigestChildren d cs h = .ok h' →
    (∀ j, (h' j).linked = (h j).linked ∧ (h' j).path = (h j).path) ∧
    (∀ j, j ∉ cs → h' j = h j) ∧ (∀ j ∈ cs, (h' j).digestItem = d) := by
  intro cs
  induction cs with
  | nil =>
    intro h h' hc
    cases hc
    exact ⟨fun _ => ⟨rfl, rfl⟩, fun _ _ => rfl, by simp⟩
  | cons c cs ih =>
    intro h h' hc
    simp only [calcDigestChildren] at hc
    cases hw : wgDone { h c with digestItem := d } with
    | error f => simp [hw] at hc
    | ok it =>
      simp only [hw] at hc
      obtain ⟨_, rfl⟩ := wgDone_ok hw
      obtain ⟨h1, h2, h3⟩ := ih _ _ hc
      refine ⟨fun j => ?_, fun j hj => ?_, fun j hj => ?_⟩
      · rw [(h1 j).1, (h1 j).2]
        by_cases hjc : j = c
        · subst hjc; simp
        · simp [Function.update_noteq hjc]
      · simp only [List.mem_cons, not_or] at hj
        rw [h2 j hj.2]
        simp [Function.update_noteq hj.1]
      · by_cases hjcs : j ∈ cs
        · exact h3 j hjcs
        · have hjc : j = c := by
            rcases List.mem_cons.mp hj with x | x
            · exact x
            · exact absurd x hjcs
          subst hjc
          rw [h2 j hjcs]
          simp

theorem calcDigestStore_effect {h h' : Heap} {i : Nat} {d : DigestItem} {r : error}
    (hc : calcDigestStore h i d = .ok (h', r)) :
    r = none ∧ (∀ j, (h' j).linked = (h j).linked ∧ (h' j).path = (h j).path) ∧
    (∀ j, j ≠ i → j ∉ (h i).linked → h' j = h j) ∧
    (h' i).digestItem = d ∧ (∀ c ∈ (h i).linked, (h' c).digestItem = d) := by
  unfold calcDigestStore at hc
  split at hc
  · cases hc
  rename_i hself
  cases h1 : calcDigestChildren d (h i).linked (Function.update h i { h i with digestItem := d }) with
  | error f => simp [h1] at hc
  | ok h1' =>
    simp only [h1] at hc
    cases h2 : Done h1' i with
    | error f => simp [h2] at hc
    | ok h2' =>
      simp only [h2, Except.ok.injEq, Prod.mk.injEq] at hc
      obtain ⟨rfl, rfl⟩ := hc
      obtain ⟨_, rfl⟩ := Done_ok h2
      obtain ⟨e1, e2, e3⟩ := calcDigestChildren_effect d _ _ _ h1
      refine ⟨rfl, fun j => ?_, fun j hji hjl => ?_, ?_, fun c hcl => ?_⟩
      · by_cases hji : j = i
        · subst hji
          simp only [Function.update_same]
          rw [(e1 j).1, (e1 j).2]
          simp
        · rw [Function.update_noteq hji, (e1 j).1, (e1 j).2]
          simp [Function.update_noteq hji]
      · rw [Function.update_noteq hji, e2 j hjl]
        simp [Function.update_noteq hji]
      · simp only [Function.update_same]
        rw [e2 i hself]
        simp
      · have hci : c ≠ i := fun x => hself (x ▸ hcl)
        rw [Function.update_noteq hci]
        exact e3 c hcl

theorem calcDigestFail_effect {h h' : Heap} {i : Nat} {err ret : String} {r : error}
    (hc : calcDigestFail h i err ret = .ok (h', r)) :
    r = some ret ∧ (∀ j, (h' j).linked = (h j).linked ∧ (h' j).path = (h j).path) ∧
    (∀ j, j ≠ i → j ∉ (h i).linked → h' j = h j) := by
  unfold calcDigestFail at hc
  cases h1 : setErr h i (some err) with
  | error f => simp [h1] at hc
  | ok h1' =>
    simp only [h1] at hc
    cases h2 : Done h1' i with
    | error f => simp [h2] at hc
    | ok h2' =>
      simp only [h2, Except.ok.injEq, Prod.mk.injEq] at hc
      obtain ⟨rfl, rfl⟩ := hc
      obtain ⟨_, rfl⟩ := Done_ok h2
      refine ⟨rfl, fun j => ?_, fun j hji hjl => ?_⟩
      · by_cases hji : j = i
        · subst hji
          simp only [Function.update_same]
          exact ⟨(setErr_shape h1 j).1, (setErr_shape h1 j).2.1⟩
        · rw [Function.update_noteq hji]
          exact ⟨(setErr_shape h1 j).1, (setErr_shape h1 j).2.1⟩
      · rw [Function.update_noteq hji]
        exact setErr_untouched h1 j hji hjl

/-- What `calcDigest` does to the heap: it keeps every linked list and path,
touches only the item and the items linked to it, and when it returns nil the
item and the items linked to it hold the same digest item, which for a path
item is the result of `HashFile`. -/
theorem calcDigest_effect {HashFile : String → Except String DigestItem} {h h' : Heap} {i : Nat}
    {r : error} (hc : calcDigest HashFile h i = .ok (h', r)) :
    (∀ j, (h' j).linked = (h j).linked ∧ (h' j).path = (h j).path) ∧
    (∀ j, j ≠ i → j ∉ (h i).linked → h' j = h j) ∧
    (r = none → (∀ c ∈ (h i).linked, (h' c).digestItem = (h' i).digestItem) ∧
      ((h i).path ≠ "" → HashFile (h i).path = .ok (h' i).digestItem)) := by
  unfold calcDigest at hc
  split at hc
  · rename_i hp
    split at hc
    · obtain ⟨hr, e1, e2⟩ := calcDigestFail_effect hc
      exact ⟨e1, e2, fun hn => by rw [hr] at hn; cases hn⟩
    · rename_i d hd
      obtain ⟨_, e1, e2, e3, e4⟩ := calcDigestStore_effect hc
      exact ⟨e1, e2, fun _ => ⟨fun c hcl => by rw [e4 c hcl, e3], fun _ => by rw [e3]; exact hd⟩⟩
  · rename_i hp
    split at hc
    · cases hc
    · split at hc
      · obtain ⟨hr, e1, e2⟩ := calcDigestFail_effect hc
        exact ⟨e1, e2, fun hn => by rw [hr] at hn; cases hn⟩
      · split at hc
        · obtain ⟨hr, e1, e2⟩ := calcDigestFail_effect hc
          exact ⟨e1, e2, fun hn => by rw [hr] at hn; cases hn⟩
        · obtain ⟨_, e1, e2, e3, e4⟩ := calcDigestStore_effect hc
          exact ⟨e1, e2, fun _ => ⟨fun c hcl => by rw [e4 c hcl, e3], fun hne => absurd hne hp⟩⟩

/-- After `setErr` then `Done` on an item: linked lists and paths stay, only the
item and the items linked to it are touched; the item gets the error if it had
none, and its counter goes down by one. -/
theorem setErr_Done_effect {h h1 h2 : Heap} {i : Nat} {err : error}
    (hs : setErr h i err = .ok h1) (hd : Done h1 i = .ok h2) :
    (∀ j, (h2 j).linked = (h j).linked ∧ (h2 j).path = (h j).path) ∧
    (∀ j, j ≠ i → j ∉ (h i).linked → h2 j = h j) ∧
    ((h i).err = none → (h2 i).err = err) ∧ (h i).wgHashed ≠ 0 ∧
    (h2 i).wgHashed = (h i).wgHashed - 1 := by
  cases err with
  | none => simp [setErr] at hs
  | some e =>
    obtain ⟨hw, rfl⟩ := Done_ok hd
    refine ⟨fun j => ?_, fun j hji hjl => ?_, fun hnil => ?_, ?_, ?_⟩
    · by_cases hji : j = i
      · subst hji
        simp only [Function.update_same]
        exact ⟨(setErr_shape hs j).1, (setErr_shape hs j).2.1⟩
      · rw [Function.update_noteq hji]
        exact ⟨(setErr_shape hs j).1, (setErr_shape hs j).2.1⟩
    · rw [Function.update_noteq hji]
      exact setErr_untouched hs j hji hjl
    · simp only [Function.update_same]
      rcases ((setErr_errOnly hs).1 i).2.1 with x | x
      · exact absurd (x.trans hnil) (setErr_errOnly hs).2
      · exact x
    · rw [← (setErr_shape hs i).2.2.1]; exact hw
    · simp only [Function.update_same]
      rw [(setErr_shape hs i).2.2.1]

theorem Done_errMirrored {h h' : Heap} {i r : Nat} (hd : Done h i = .ok h')
    (hm : errMirrored h r) : errMirrored h' r := by
  obtain ⟨_, rfl⟩ := Done_ok hd
  have herr : ∀ j, (Function.update h i { h i with wgHashed := (h i).wgHashed - 1 } j).err =
      (h j).err ∧ (Function.update h i { h i with wgHashed := (h i).wgHashed - 1 } j).linked =
      (h j).linked := by
    intro j
    by_cases hj : j = i
    · subst hj; simp
    · simp [Function.update_noteq hj]
  intro c hc
  rw [(herr r).2] at hc
  simp only [Error, (herr c).1, (herr r).1]
  exact hm c hc

theorem setErr_Done_errMirrored {h h1 h2 : Heap} {i : Nat} {err : error}
    (hs : setErr h i err = .ok h1) (hd : Done h1 i = .ok h2) (hm : errMirrored h i) :
    errMirrored h2 i := by
  cases err with
  | none => simp [setErr] at hs
  | some e => exact Done_errMirrored hd (setErr_errMirrored hs hm)

theorem calcDigestChildren_err (d : DigestItem) : ∀ (cs : List Nat) (h h' : Heap),
    calcDigestChildren d cs h = .ok h' → ∀ j, (h' j).err = (h j).err := by
  intro cs
  induction cs with
  | nil => intro h h' hc j; cases hc; rfl
  | cons c cs ih =>
    intro h h' hc j
    simp only [calcDigestChildren] at hc
    cases hw : wgDone { h c with digestItem := d } with
    | error f => simp [hw] at hc
    | ok it =>
      simp only [hw] at hc
      obtain ⟨_, rfl⟩ := wgDone_ok hw
      rw [ih _ _ hc j]
      by_cases hjc : j = c
      · subst hjc; simp
      · simp [Function.update_noteq hjc]

/-- When `calcDigest` returns nil no error has changed; when it returns an
error, the items linked to the item still mirror its error. -/
theorem calcDigest_errors {HashFile : String → Except String DigestItem} {h h' : Heap} {i : Nat}
    {r : error} (hc : calcDigest HashFile h i = .ok (h', r)) :
    (r = none → ∀ j, (h' j).err = (h j).err) ∧
    (r ≠ none → errMirrored h i → errMirrored h' i) := by
  have hstore : ∀ d, calcDigestStore h i d = .ok (h', r) →
      (r = none → ∀ j, (h' j).err = (h j).err) ∧
      (r ≠ none → errMirrored h i → errMirrored h' i) := by
    intro d hd
    have hr := (calcDigestStore_effect hd).1
    refine ⟨fun _ j => ?_, fun hne => absurd hr hne⟩
    unfold calcDigestStore at hd
    split at hd
    · cases hd
    cases h1 : calcDigestChildren d (h i).linked
        (Function.update h i { h i with digestItem := d }) with
    | error f => simp [h1] at hd
    | ok h1' =>
      simp only [h1] at hd
      cases h2 : Done h1' i with
      | error f => simp [h2] at hd
      | ok h2' =>
        simp only [h2, Except.ok.injEq, Prod.mk.injEq] at hd
        obtain ⟨rfl, _⟩ := hd
        obtain ⟨_, rfl⟩ := Done_ok h2
        have e1 := calcDigestChildren_err d _ _ _ h1 j
        by_cases hji : j = i
        · subst hji
          simp only [Function.update_same]
          rw [e1]; simp
        · rw [Function.update_noteq hji, e1]
          simp [Function.update_noteq hji]
  have hfail : ∀ err ret, calcDigestFail h i err ret = .ok (h', r) →
      (r = none → ∀ j, (h' j).err = (h j).err) ∧
      (r ≠ none → errMirrored h i → errMirrored h' i) := by
    intro err ret hd
    have hr := (calcDigestFail_effect hd).1
    refine ⟨fun hn => absurd (hr.symm.trans hn) (by simp), fun _ hm => ?_⟩
    unfold calcDigestFail at hd
    cases h1 : setErr h i (some err) with
    | error f => simp [h1] at hd
    | ok h1' =>
      simp only [h1] at hd
      cases h2 : Done h1' i with
      | error f => simp [h2] at hd
      | ok h2' =>
        simp only [h2, Except.ok.injEq, Prod.mk.injEq] at hd
        obtain ⟨rfl, _⟩ := hd
        exact setErr_Done_errMirrored h1 h2 hm
  unfold calcDigest at hc
  split at hc
  · split at hc
    · exact hfail _ _ hc
    · exact hstore _ hc
  · split at hc
    · cases hc
    · split at hc
      · exact hfail _ _ hc
      · split at hc
        · exact hfail _ _ hc
        · exact hstore _ hc

/-! ## The steps of the front half, by kind -/

theorem sameStage1_refl (a : archiver) : sameStage1 a a := ⟨rfl, rfl, rfl, rfl, rfl⟩

theorem sameStage2_refl (a : archiver) : sameStage2 a a := ⟨rfl, rfl, rfl⟩

theorem Move_refl (HashFile : String → Except String DigestItem) (a : archiver) :
    Move HashFile a a :=
  .idle (sameStage1_refl a) (sameStage2_refl a) rfl (fun _ h => h)

theorem step_move {HashFile : String → Except String DigestItem} {a a' : archiver} {e : Event}
    (hstep : step HashFile a e = .ok a') : Move HashFile a a' := by
  cases e with
  | PushFile displayName path =>
    simp only [step, PushFile, alloc, push, Except.ok.injEq] at hstep
    subst hstep
    split
    · exact .alloc ⟨rfl, rfl, rfl⟩ rfl rfl (fun j hj => by simp [Function.update_noteq hj])
        (by simp [newArchiverItem, zeroItem]) (Or.inl rfl) rfl rfl rfl
    · exact .alloc ⟨rfl, rfl, rfl⟩ rfl rfl
        (fun j hj => by simp [progressUpdate, Function.update_noteq hj])
        (by simp [progressUpdate, newArchiverItem, zeroItem])
        (Or.inr ⟨rfl, by simp [progressUpdate, newArchiverItem, zeroItem],
          by simp [progressUpdate, newArchiverItem, zeroItem],
          by simp [progressUpdate, newArchiverItem, zeroItem],
          by simp [progressUpdate, newArchiverItem, zeroItem],
          by simp [progressUpdate, newArchiverItem, zeroItem]⟩) rfl rfl rfl
  | Push displayName src =>
    simp only [step] at hstep
    cases hp : Push a displayName src with
    | error f => simp [hp] at hstep
    | ok r =>
      simp only [hp, Except.ok.injEq] at hstep
      subst hstep
      unfold Push at hp
      simp only [alloc] at hp
      cases src with
      | none => simp at hp
      | some rs =>
        simp only at hp
        split at hp
        · cases h1 : setErr (Function.update a.items a.nextItem (newArchiverItem displayName "" (some rs)))
              a.nextItem (some ("seek(" ++ DisplayName (Function.update a.items a.nextItem
                (newArchiverItem displayName "" (some rs))) a.nextItem ++ ") failed: " ++
                fmtErr rs.seekErr ++ "\n")) with
          | error f => simp [h1] at hp
          | ok h1' =>
            simp only [h1] at hp
            cases h2 : Done h1' a.nextItem with
            | error f => simp [h2] at hp
            | ok h2' =>
              simp only [h2, Except.ok.injEq] at hp
              subst hp
              obtain ⟨e1, e2, _, _, _⟩ := setErr_Done_effect h1 h2
              refine .alloc ⟨rfl, rfl, rfl⟩ rfl rfl (fun j hj => ?_) ?_ (Or.inl rfl) rfl rfl rfl
              · simp only []
                rw [e2 j hj (by simp [newArchiverItem, zeroItem])]
                simp [Function.update_noteq hj]
              · simp only []
                rw [(e1 a.nextItem).1]
                simp [newArchiverItem, zeroItem]
        · simp only [push, Except.ok.injEq] at hp
          subst hp
          split
          · exact .alloc ⟨rfl, rfl, rfl⟩ rfl rfl (fun j hj => by simp [Function.update_noteq hj])
              (by simp [newArchiverItem, zeroItem]) (Or.inl rfl) rfl rfl rfl
          · exact .alloc ⟨rfl, rfl, rfl⟩ rfl rfl
              (fun j hj => by simp [progressUpdate, Function.update_noteq hj])
              (by simp [progressUpdate, newArchiverItem, zeroItem])
              (Or.inr ⟨rfl, by simp [progressUpdate, newArchiverItem, zeroItem],
                by simp [progressUpdate, newArchiverItem, zeroItem],
                by simp [progressUpdate, newArchiverItem, zeroItem],
                by simp [progressUpdate, newArchiverItem, zeroItem],
                by simp [progressUpdate, newArchiverItem, zeroItem]⟩) rfl rfl rfl
  | Cancel reason =>
    simp only [step, Except.ok.injEq] at hstep
    subst hstep
    unfold Cancel
    cases hc : a.canceler with
    | none =>
      exact .idle ⟨rfl, rfl, rfl, rfl, rfl⟩ ⟨rfl, rfl, rfl⟩ rfl (fun e he => by simp [hc] at he)
    | some e0 => exact Move_refl HashFile a
  | Close =>
    simp only [step, Except.ok.injEq] at hstep
    subst hstep
    exact .idle ⟨rfl, rfl, rfl, rfl, rfl⟩ ⟨rfl, rfl, rfl⟩ rfl (fun _ h => h)
  | stage1Dedupe =>
    simp only [step] at hstep
    cases hg : a.stage1DedupeChan.get? a.stage1Recv with
    | none =>
      simp only [hg, Except.ok.injEq] at hstep
      subst hstep
      exact Move_refl HashFile a
    | some item =>
      simp only [hg] at hstep
      unfold stage1DedupeBody at hstep
      simp only [CancelationReason] at hstep
      split at hstep
      · rename_i hcan
        cases h1 : setErr a.items item a.canceler with
        | error f => simp [h1] at hstep
        | ok h1' =>
          simp only [h1] at hstep
          cases h2 : Done h1' item with
          | error f => simp [h2] at hstep
          | ok h2' =>
            simp only [h2, Except.ok.injEq] at hstep
            subst hstep
            obtain ⟨e1, e2, e3, e4, e5⟩ := setErr_Done_effect h1 h2
            cases hc : a.canceler with
            | none => exact absurd hc hcan
            | some e =>
              rw [hc] at e3
              exact .reject item e ⟨rfl, rfl, rfl⟩ hg hc rfl rfl rfl rfl rfl rfl e1 e2 e3 ⟨e4, e5⟩
      · rename_i hcan
        simp only [ne_eq, not_not] at hcan
        split at hstep
        · rename_i previous hprev
          cases h1 : link a.items previous item with
          | error f => simp [h1] at hstep
          | ok h1' =>
            simp only [h1, Except.ok.injEq] at hstep
            subst hstep
            obtain ⟨⟨_, _, hl, hce⟩, hci, hi, hrest, hcase⟩ := link_ok h1
            have hp : (a.items item).path ≠ "" := by
              intro hpe
              simp [hpe] at hprev
            have hseen : a.seen (a.items item).path = some previous := by
              simpa [hp] using hprev
            refine .linkTo item previous ⟨rfl, rfl, rfl⟩ hg hcan hcan rfl rfl rfl rfl rfl hp hseen
              hi hrest ?_ hl hci ?_ ?_ ?_
            · rcases hcase with ⟨_, _, hc⟩ | ⟨_, _, _, hc⟩ | ⟨_, _, hc⟩ <;>
                (simp only []; rw [hc]; exact ⟨rfl, rfl⟩)
            · intro hdig
              rcases hcase with ⟨_, _, hc⟩ | ⟨hd, _⟩ | ⟨hd, _⟩
              · simp only []; rw [hc]
              · exact absurd hd hdig
              · exact absurd hd hdig
            · intro hdig
              rcases hcase with ⟨hd, _⟩ | ⟨_, _, _, hc⟩ | ⟨_, _, hc⟩
              · exact absurd hdig hd
              · simp only []; rw [hc]
              · simp only []; rw [hc]
            · rcases hcase with ⟨_, _, hc⟩ | ⟨_, _, _, hc⟩ | ⟨_, he, hc⟩
              · simp only []; rw [hc]
              · simp only []; rw [hc]
              · simp only []; rw [hc, hce, he]
        · rename_i hnone
          simp only [progressUpdate, Except.ok.injEq] at hstep
          subst hstep
          refine .forward item ⟨rfl, rfl, rfl⟩ hg hcan hcan rfl rfl rfl ?_ rfl rfl rfl
          by_cases hp : (a.items item).path = ""
          · exact Or.inl hp
          · exact Or.inr (by simpa [hp] using hnone)
  | stage2Hash =>
    simp only [step] at hstep
    cases hg : a.stage2HashChan.get? a.stage2Recv with
    | none =>
      simp only [hg, Except.ok.injEq] at hstep
      subst hstep
      exact Move_refl HashFile a
    | some item =>
      simp only [hg, Except.ok.injEq] at hstep
      subst hstep
      exact .sched item ⟨rfl, rfl, rfl, rfl, rfl⟩ rfl rfl hg rfl rfl rfl
  | hashJob item =>
    simp only [step] at hstep
    split at hstep
    · rename_i hen
      unfold stage2HashJob at hstep
      simp only at hstep
      cases hc : calcDigest HashFile a.items item with
      | error f => simp [hc] at hstep
      | ok r =>
        obtain ⟨h1, r1⟩ := r
        obtain ⟨e1, e2, e3⟩ := calcDigest_effect hc
        obtain ⟨e4, e5⟩ := calcDigest_errors hc
        cases r1 with
        | none =>
          simp only [hc, progressUpdate, Except.ok.injEq] at hstep
          subst hstep
          exact .hashOk item ⟨rfl, rfl, rfl, rfl, rfl⟩ hen.1 hen.2 hen.2 rfl rfl rfl e1 e2
            (e3 rfl).1 (e4 rfl)
        | some err =>
          simp only [hc, Except.ok.injEq] at hstep
          subst hstep
          refine .hashAbort item ?_ hen.1 ?_ ?_ ?_ ?_ ?_ ?_ ?_ ?_
          · unfold Cancel; split <;> exact ⟨rfl, rfl, rfl, rfl, rfl⟩
          · intro e he; simp [hen.2] at he
          · simp [Cancel, hen.2]
          · unfold Cancel; split <;> rfl
          · unfold Cancel; split <;> rfl
          · right; unfold Cancel; split <;> rfl
          · rw [Cancel_items]; exact e1
          · rw [Cancel_items]; exact e2
          · rw [Cancel_items]; exact e5 (by simp)
    · simp only [Except.ok.injEq] at hstep
      subst hstep
      exact Move_refl HashFile a
  | hashCanceled item =>
    simp only [step] at hstep
    split at hstep
    · rename_i hen
      unfold stage2HashCanceled at hstep
      simp only [CancelationReason] at hstep
      cases h1 : setErr a.items item a.canceler with
      | error f => simp [h1] at hstep
      | ok h1' =>
        simp only [h1] at hstep
        cases h2 : Done h1' item with
        | error f => simp [h2] at hstep
        | ok h2' =>
          simp only [h2, Except.ok.injEq] at hstep
          subst hstep
          obtain ⟨e1, e2, _, _, _⟩ := setErr_Done_effect h1 h2
          exact .hashAbort item ⟨rfl, rfl, rfl, rfl, rfl⟩ hen.1 (fun _ h => h) hen.2 rfl rfl
            (Or.inl rfl) e1 e2 (setErr_Done_errMirrored h1 h2)
    · simp only [Except.ok.injEq] at hstep
      subst hstep
      exact Move_refl HashFile a

/-! ## The invariant -/

theorem processed_succ {a : archiver} {x : Nat}
    (hg : a.stage1DedupeChan.get? a.stage1Recv = some x) :
    a.stage1DedupeChan.take (a.stage1Recv + 1) = processed a ++ [x] := by
  rw [List.get?_eq_getElem?] at hg
  rw [List.take_succ, hg]
  rfl

theorem mem_drop_of_get? {l : List Nat} {n x : Nat} (hg : l.get? n = some x) : x ∈ l.drop n := by
  rw [List.get?_eq_getElem?] at hg
  obtain ⟨hn, hx⟩ := List.getElem?_eq_some_iff.mp hg
  rw [List.drop_eq_getElem_cons hn, hx]
  exact List.mem_cons_self _ _

theorem drop_succ_of_get? {l : List Nat} {n x : Nat} (hg : l.get? n = some x) :
    l.drop n = x :: l.drop (n + 1) := by
  rw [List.get?_eq_getElem?] at hg
  obtain ⟨hn, hx⟩ := List.getElem?_eq_some_iff.mp hg
  rw [List.drop_eq_getElem_cons hn, hx]

theorem lt_length_of_get? {l : List Nat} {n x : Nat} (hg : l.get? n = some x) : n < l.length := by
  rw [List.get?_eq_getElem?] at hg
  exact (List.getElem?_eq_some_iff.mp hg).1

theorem not_mem_take_of_mem_drop {l : List Nat} (hnd : l.Nodup) {n x : Nat}
    (hx : x ∈ l.drop n) : x ∉ l.take n := by
  have h := hnd
  rw [← List.take_append_drop n l] at h
  intro ht
  exact (List.nodup_append.mp h).2.2 ht hx

theorem mem_take_or_drop {l : List Nat} (n : Nat) {x : Nat} (hx : x ∈ l) :
    x ∈ l.take n ∨ x ∈ l.drop n := by
  rw [← List.take_append_drop n l] at hx
  exact List.mem_append.mp hx

theorem Inv.processed_lt {P : Nat → String} {a : archiver} (hI : Inv P a) {i : Nat}
    (hi : i ∈ processed a) : i < a.nextItem :=
  hI.chan1_lt i (List.mem_of_mem_take hi)

theorem Inv.unlinked {P : Nat → String} {a : archiver} (hI : Inv P a) {i : Nat}
    (hi : i ∉ processed a) : (a.items i).linked = [] := by
  cases hl : (a.items i).linked with
  | nil => rfl
  | cons c cs =>
    exfalso
    have hc : c ∈ (a.items i).linked := by rw [hl]; exact List.mem_cons_self _ _
    obtain ⟨_, _, _, hs⟩ := hI.linked_sound i c hc
    exact hi (hI.chan2_sub i (hI.seen_sound _ _ hs).1)

theorem Inv.rep_in_chan2 {P : Nat → String} {a : archiver} (hI : Inv P a) {r c : Nat}
    (hc : c ∈ (a.items r).linked) : r ∈ a.stage2HashChan :=
  (hI.seen_sound _ _ (hI.linked_sound r c hc).2.2.2).1

theorem Inv.next_fresh {P : Nat → String} {a : archiver} (hI : Inv P a) {x : Nat}
    (hg : a.stage1DedupeChan.get? a.stage1Recv = some x) :
    x ∉ processed a ∧ x < a.nextItem ∧ (a.items x).linked = [] ∧ (a.items x).err = none ∧
      (a.items x).wgHashed = 1 ∧ x ∉ a.stage2HashChan ∧ (∀ r, x ∉ (a.items r).linked) ∧
      (a.items x).digestItem.Digest = "" := by
  have hfr := hI.fresh x (mem_drop_of_get? hg)
  have hd := mem_drop_of_get? hg
  have hnp : x ∉ processed a := not_mem_take_of_mem_drop hI.chan1_nodup hd
  exact ⟨hnp, hI.chan1_lt x (List.mem_of_mem_drop hd), hI.unlinked hnp, (hI.fresh x hd).1,
    (hI.fresh x hd).2.1, fun h => hnp (hI.chan2_sub x h),
    fun r h => hnp (hI.linked_sound r x h).1, hfr.2.2.1⟩

theorem Move_paths {HashFile : String → Except String DigestItem} {a a' : archiver}
    (hm : Move HashFile a a') :
    a.nextItem ≤ a'.nextItem ∧ ∀ i, i < a.nextItem → (a'.items i).path = (a.items i).path := by
  cases hm with
  | idle h1 h2 hi hc => exact ⟨by rw [h1.nextItem], fun i _ => by rw [hi]⟩
  | alloc h2 hc hn hi hl hq hr hs hq2 =>
    exact ⟨by omega, fun i hlt => by rw [hi i (Nat.ne_of_lt hlt)]⟩
  | reject x e h2 hg hc hc' hn hq hr hs hq2 hshape htouch herr hwg =>
    exact ⟨by omega, fun i _ => (hshape i).2⟩
  | linkTo x prev h2 hg hc hc' hn hq hr hs hq2 hp hseen hprev hrest hx hxl hne hdig hdig0 herr =>
    refine ⟨by omega, fun i _ => ?_⟩
    by_cases hip : i = prev
    · subst hip; rw [hprev]
    · by_cases hix : i = x
      · subst hix; exact hx.2
      · rw [hrest i hip hix]
  | forward x h2 hg hc hc' hn hq hr hp hs hq2 hi => exact ⟨by omega, fun i _ => by rw [hi]⟩
  | sched x h1 hi hc hg hr hp hd => exact ⟨by rw [h1.nextItem], fun i _ => by rw [hi]⟩
  | hashOk x h1 hx hc hc' hr hp hd hshape htouch hkids herr =>
    exact ⟨by rw [h1.nextItem], fun i _ => (hshape i).2⟩
  | hashAbort x h1 hx hc hc' hr hp hd hshape htouch hmir =>
    exact ⟨by rw [h1.nextItem], fun i _ => (hshape i).2⟩

theorem Move_sticky {HashFile : String → Except String DigestItem} {a a' : archiver}
    (hm : Move HashFile a a') : sticky a a' := by
  cases hm with
  | idle h1 h2 hi hc => exact hc
  | alloc h2 hc hn hi hl hq hr hs hq2 => intro e he; rw [hc]; exact he
  | reject x e h2 hg hc hc' hn hq hr hs hq2 hshape htouch herr hwg =>
    intro e' he; rw [hc'] ; rw [hc] at he; exact he
  | linkTo x prev h2 hg hc hc' hn hq hr hs hq2 hp hseen hprev hrest hx hxl hne hdig hdig0 herr =>
    intro e he; rw [hc] at he; cases he
  | forward x h2 hg hc hc' hn hq hr hp hs hq2 hi => intro e he; rw [hc] at he; cases he
  | sched x h1 hi hc hg hr hp hd => intro e he; rw [hc]; exact he
  | hashOk x h1 hx hc hc' hr hp hd hshape htouch hkids herr =>
    intro e he; rw [hc] at he; cases he
  | hashAbort x h1 hx hc hc' hr hp hd hshape htouch hmir => exact hc

theorem run_paths {HashFile : String → Except String DigestItem} :
    ∀ (evs : List Event) (a a' : archiver), run HashFile a evs = .ok a' →
      a.nextItem ≤ a'.nextItem ∧ (∀ i, i < a.nextItem → (a'.items i).path = (a.items i).path) ∧
      sticky a a' := by
  intro evs
  induction evs with
  | nil =>
    intro a a' hr
    cases hr
    exact ⟨Nat.le_refl _, fun _ _ => rfl, fun _ h => h⟩
  | cons e evs ih =>
    intro a a' hr
    simp only [run] at hr
    cases hs : step HashFile a e with
    | error f => simp [hs] at hr
    | ok a1 =>
      simp only [hs] at hr
      obtain ⟨n1, p1⟩ := Move_paths (step_move hs)
      obtain ⟨n2, p2, s2⟩ := ih a1 a' hr
      exact ⟨Nat.le_trans n1 n2, fun i hi => by rw [p2 i (Nat.lt_of_lt_of_le hi n1), p1 i hi],
        fun e he => s2 e (Move_sticky (step_move hs) e he)⟩

theorem Inv_congr {P : Nat → String} {a a' : archiver} (hI : Inv P a)
    (h1 : sameStage1 a a') (h2 : sameStage2 a a') (hi : a'.items = a.items)
    (hc : a'.canceler = none → a.canceler = none) : Inv P a' := by
  obtain ⟨e1, e2, e3, e4, e5⟩ := h1
  obtain ⟨e6, e7, e8⟩ := h2
  obtain ⟨mh, mc, mu, cd, cs, items', next', canc', prog', q1', r1', closed', seen', q2', r2',
    pool', hashed', q3', q4', stats', isPush'⟩ := a'
  simp only at e1 e2 e3 e4 e5 e6 e7 e8 hi hc
  subst e1 e2 e3 e4 e5 e6 e7 e8 hi
  exact
    { path_eq := hI.path_eq, chan1_lt := hI.chan1_lt, chan1_nodup := hI.chan1_nodup,
      recv1_le := hI.recv1_le, chan2_sub := hI.chan2_sub, chan2_nodup := hI.chan2_nodup,
      recv2_le := hI.recv2_le, seen_sound := hI.seen_sound, linked_sound := hI.linked_sound,
      fresh := hI.fresh, mirrored := hI.mirrored, work_nodup := hI.work_nodup,
      work_sub := hI.work_sub,
      forwarded := fun h => hI.forwarded (hc h), seen_first := fun h => hI.seen_first (hc h),
      placed := fun h => hI.placed (hc h), work_all := fun h => hI.work_all (hc h),
      hashed_digest := fun h => hI.hashed_digest (hc h) }

theorem Inv_alloc {P : Nat → String} {a a' : archiver} (hI : Inv P a)
    (hP' : ∀ i, i < a'.nextItem → (a'.items i).path = P i)
    (h2 : sameStage2 a a') (hc : a'.canceler = a.canceler)
    (hn : a'.nextItem = a.nextItem + 1)
    (hi : ∀ j, j ≠ a.nextItem → a'.items j = a.items j)
    (hl : (a'.items a.nextItem).linked = [])
    (hq : a'.stage1DedupeChan = a.stage1DedupeChan ∨
      (a'.stage1DedupeChan = a.stage1DedupeChan ++ [a.nextItem] ∧
        (a'.items a.nextItem).err = none ∧ (a'.items a.nextItem).wgHashed = 1 ∧
        (a'.items a.nextItem).digestItem.Digest = "" ∧ (a'.items a.nextItem).state = none ∧
        ((a'.items a.nextItem).path ≠ "" → (a'.items a.nextItem).src = none)))
    (hr : a'.stage1Recv = a.stage1Recv) (hs : a'.seen = a.seen)
    (hq2 : a'.stage2HashChan = a.stage2HashChan) : Inv P a' := by
  obtain ⟨e6, e7, e8⟩ := h2
  obtain ⟨mh, mc, mu, cd, cs, items', next', canc', prog', q1', r1', closed', seen', q2', r2',
    pool', hashed', q3', q4', stats', isPush'⟩ := a'
  simp only at e6 e7 e8 hc hn hi hl hq hr hs hq2 hP'
  subst e6 e7 e8 hc hn hr hs hq2
  have hnp : a.nextItem ∉ processed a := fun h => Nat.lt_irrefl _ (hI.processed_lt h)
  have hproc : List.take a.stage1Recv q1' = processed a := by
    rcases hq with rfl | ⟨rfl, _⟩
    · rfl
    · exact List.take_append_of_le_length hI.recv1_le
  have hitem : ∀ i, i ∈ processed a → items' i = a.items i :=
    fun i hi' => hi i (Nat.ne_of_lt (hI.processed_lt hi'))
  have hlinked : ∀ r, (items' r).linked = (a.items r).linked := by
    intro r
    by_cases hrn : r = a.nextItem
    · subst hrn; rw [hl, hI.unlinked hnp]
    · rw [hi r hrn]
  have hnq : a.nextItem ∉ a.stage1DedupeChan := fun h => Nat.lt_irrefl _ (hI.chan1_lt _ h)
  exact
    { path_eq := hP'
      chan1_lt := by
        intro i hi'
        simp only
        rcases hq with rfl | ⟨rfl, _⟩
        · exact Nat.lt_succ_of_lt (hI.chan1_lt i hi')
        · rcases List.mem_append.mp hi' with h | h
          · exact Nat.lt_succ_of_lt (hI.chan1_lt i h)
          · rw [List.mem_singleton.mp h]; exact Nat.lt_succ_self _
      chan1_nodup := by
        simp only
        rcases hq with rfl | ⟨rfl, _⟩
        · exact hI.chan1_nodup
        · exact List.Nodup.append hI.chan1_nodup (List.nodup_singleton _)
            (by
              intro x hx hx'
              rw [List.mem_singleton.mp hx'] at hx
              exact hnq hx)
      recv1_le := by
        simp only
        rcases hq with rfl | ⟨rfl, _⟩
        · exact hI.recv1_le
        · rw [List.length_append]; exact Nat.le_trans hI.recv1_le (Nat.le_add_right _ _)
      chan2_sub := by
        intro i hi'
        simp only [processed, hproc]
        exact hI.chan2_sub i hi'
      chan2_nodup := hI.chan2_nodup
      recv2_le := hI.recv2_le
      seen_sound := hI.seen_sound
      linked_sound := by
        intro r c hcl
        simp only [processed, hproc]
        simp only [hlinked] at hcl
        exact hI.linked_sound r c hcl
      fresh := by
        intro i hi'
        simp only at hi' ⊢
        rcases hq with rfl | ⟨rfl, hf⟩
        · rw [hi i (Nat.ne_of_lt (hI.chan1_lt i (List.mem_of_mem_drop hi')))]
          exact hI.fresh i hi'
        · rw [List.drop_append_of_le_length hI.recv1_le] at hi'
          rcases List.mem_append.mp hi' with h | h
          · rw [hi i (Nat.ne_of_lt (hI.chan1_lt i (List.mem_of_mem_drop h)))]
            exact hI.fresh i h
          · rw [List.mem_singleton.mp h]; exact hf
      mirrored := by
        intro r c hcl
        simp only [hlinked] at hcl
        simp only [Error]
        rw [hitem c (hI.linked_sound r c hcl).1,
          hitem r (hI.chan2_sub r (hI.rep_in_chan2 hcl))]
        exact hI.mirrored r c hcl
      work_nodup := hI.work_nodup
      work_sub := hI.work_sub
      forwarded := by
        intro h
        simp only [processed, hproc]
        exact hI.forwarded h
      seen_first := by
        intro h
        simp only [processed, hproc]
        exact hI.seen_first h
      placed := by
        intro h i hi'
        simp only [processed, hproc] at hi'
        simp only [hlinked]
        exact hI.placed h i hi'
      work_all := hI.work_all
      hashed_digest := by
        intro h r hr c hcl
        have hrc : r ∈ a.stage2HashChan := hI.work_sub r (List.mem_append_left _ hr)
        have hrp := hI.chan2_sub r hrc
        simp only [hlinked] at hcl
        simp only
        rw [hitem r hrp, hitem c (hI.linked_sound r c hcl).1]
        exact hI.hashed_digest h r hr c hcl }

theorem hashWork_move {hashed pool rest : List Nat} {x : Nat} (hx : x ∈ pool) :
    List.Perm ((hashed ++ [x]) ++ (pool.erase x ++ rest)) (hashed ++ (pool ++ rest)) := by
  rw [List.append_assoc]
  apply List.Perm.append_left
  rw [List.singleton_append, ← List.cons_append]
  exact List.Perm.append_right _ (List.perm_cons_erase hx).symm

theorem Inv_reject {P : Nat → String} {a a' : archiver} (hI : Inv P a)
    (hP' : ∀ i, i < a'.nextItem → (a'.items i).path = P i)
    (x : Nat) (e : String) (h2 : sameStage2 a a')
    (hg : a.stage1DedupeChan.get? a.stage1Recv = some x)
    (hc' : a'.canceler = some e)
    (hn : a'.nextItem = a.nextItem) (hq : a'.stage1DedupeChan = a.stage1DedupeChan)
    (hr : a'.stage1Recv = a.stage1Recv + 1) (hs : a'.seen = a.seen)
    (hq2 : a'.stage2HashChan = a.stage2HashChan)
    (hshape : keepsShape a.items a'.items) (htouch : touchesOnly a.items a'.items x) :
    Inv P a' := by
  obtain ⟨e6, e7, e8⟩ := h2
  obtain ⟨mh, mc, mu, cd, cs, items', next', canc', prog', q1', r1', closed', seen', q2', r2',
    pool', hashed', q3', q4', stats', isPush'⟩ := a'
  simp only at e6 e7 e8 hc' hn hq hr hs hq2 hP' hshape htouch
  subst e6 e7 e8 hc' hn hq hr hs hq2
  obtain ⟨hxp, hxn, hxl, _, _, _, hxk, _⟩ := hI.next_fresh hg
  have hproc : List.take (a.stage1Recv + 1) a.stage1DedupeChan = processed a ++ [x] :=
    processed_succ hg
  have hitem : ∀ j, j ≠ x → items' j = a.items j := fun j hj => htouch j hj (by simp [hxl])
  have hdrop := drop_succ_of_get? hg
  have hnd : (x :: a.stage1DedupeChan.drop (a.stage1Recv + 1)).Nodup := by
    rw [← hdrop]; exact List.Nodup.sublist (List.drop_sublist _ _) hI.chan1_nodup
  exact
    { path_eq := hP', chan1_lt := hI.chan1_lt, chan1_nodup := hI.chan1_nodup
      recv1_le := lt_length_of_get? hg
      chan2_sub := by
        intro i hi'
        simp only [processed, hproc]
        exact List.mem_append_left _ (hI.chan2_sub i hi')
      chan2_nodup := hI.chan2_nodup, recv2_le := hI.recv2_le, seen_sound := hI.seen_sound
      linked_sound := by
        intro r c hcl
        simp only [processed, hproc]
        simp only [(hshape r).1] at hcl
        obtain ⟨x1, x2, x3, x4⟩ := hI.linked_sound r c hcl
        exact ⟨List.mem_append_left _ x1, x2, x3, x4⟩
      fresh := by
        intro i hi'
        simp only at hi' ⊢
        have hix : i ≠ x := fun h => (List.nodup_cons.mp hnd).1 (h ▸ hi')
        rw [hitem i hix]
        exact hI.fresh i (by rw [hdrop]; exact List.mem_cons_of_mem _ hi')
      mirrored := by
        intro r c hcl
        simp only [(hshape r).1] at hcl
        have hrx : r ≠ x := by
          rintro rfl
          rw [hxl] at hcl
          cases hcl
        have hcx : c ≠ x := fun h => hxk r (h ▸ hcl)
        simp only [Error]
        rw [hitem c hcx, hitem r hrx]
        exact hI.mirrored r c hcl
      work_nodup := hI.work_nodup, work_sub := hI.work_sub
      forwarded := fun h => by simp at h
      seen_first := fun h => by simp at h
      placed := fun h => by simp at h
      work_all := fun h => by simp at h
      hashed_digest := fun h => by simp at h }

theorem Inv_hashAbort {P : Nat → String} {a a' : archiver} (hI : Inv P a)
    (hP' : ∀ i, i < a'.nextItem → (a'.items i).path = P i)
    (x : Nat) (h1 : sameStage1 a a') (hx : x ∈ a.hashPool)
    (hc' : a'.canceler ≠ none)
    (hr : a'.stage2Recv = a.stage2Recv) (hp : a'.hashPool = a.hashPool.erase x)
    (hd : a'.hashed = a.hashed ∨ a'.hashed = a.hashed ++ [x])
    (hshape : keepsShape a.items a'.items) (htouch : touchesOnly a.items a'.items x)
    (hmir : errMirrored a.items x → errMirrored a'.items x) :
    Inv P a' := by
  obtain ⟨e1, e2, e3, e4, e5⟩ := h1
  obtain ⟨mh, mc, mu, cd, cs, items', next', canc', prog', q1', r1', closed', seen', q2', r2',
    pool', hashed', q3', q4', stats', isPush'⟩ := a'
  simp only at e1 e2 e3 e4 e5 hc' hr hp hd hP' hshape htouch hmir
  subst e1 e2 e3 e4 e5 hr hp
  have hxw : x ∈ hashWork a := List.mem_append_right _ (List.mem_append_left _ hx)
  have hxq : x ∈ a.stage2HashChan := hI.work_sub x hxw
  have hxp : x ∈ processed a := hI.chan2_sub x hxq
  have hsub : ∀ i, i ∈ hashed' ++ (a.hashPool.erase x ++ a.stage2HashChan.drop a.stage2Recv) →
      i ∈ hashWork a := by
    intro i hi'
    rcases hd with rfl | rfl
    · rcases List.mem_append.mp hi' with h | h
      · exact List.mem_append_left _ h
      · rcases List.mem_append.mp h with h | h
        · exact List.mem_append_right _ (List.mem_append_left _ (List.mem_of_mem_erase h))
        · exact List.mem_append_right _ (List.mem_append_right _ h)
    · exact (hashWork_move hx).subset hi'
  exact
    { path_eq := hP', chan1_lt := hI.chan1_lt, chan1_nodup := hI.chan1_nodup
      recv1_le := hI.recv1_le, chan2_sub := hI.chan2_sub
      chan2_nodup := hI.chan2_nodup, recv2_le := hI.recv2_le, seen_sound := hI.seen_sound
      linked_sound := by
        intro r c hcl
        simp only [(hshape r).1] at hcl
        exact hI.linked_sound r c hcl
      fresh := by
        intro i hi'
        simp only at hi' ⊢
        have hip : i ∉ processed a := not_mem_take_of_mem_drop hI.chan1_nodup hi'
        rw [htouch i (fun h => hip (h ▸ hxp)) (fun h => hip (hI.linked_sound x i h).1)]
        exact hI.fresh i hi'
      mirrored := by
        intro r c hcl
        by_cases hrx : r = x
        · subst hrx
          exact hmir (hI.mirrored r) c hcl
        · simp only [(hshape r).1] at hcl
          have hrq : r ∈ a.stage2HashChan := hI.rep_in_chan2 hcl
          obtain ⟨_, x2, _, x4⟩ := hI.linked_sound r c hcl
          have hrl : r ∉ (a.items x).linked := fun hl => (hI.linked_sound x r hl).2.1 hrq
          have hcx : c ≠ x := fun hh => x2 (hh ▸ hxq)
          have hcl' : c ∉ (a.items x).linked := by
            intro hl
            have := (hI.linked_sound x c hl).2.2.2
            rw [x4] at this
            exact hrx (Option.some.inj this)
          simp only [Error]
          rw [htouch c hcx hcl', htouch r hrx hrl]
          exact hI.mirrored r c hcl
      work_nodup := by
        simp only [hashWork]
        rcases hd with rfl | rfl
        · exact List.Nodup.sublist (List.Sublist.append_left
            (List.Sublist.append_right (List.erase_sublist _ _) _) _) hI.work_nodup
        · exact (hashWork_move hx).nodup_iff.mpr hI.work_nodup
      work_sub := fun i hi' => hI.work_sub i (hsub i hi')
      forwarded := fun h => absurd h hc'
      seen_first := fun h => absurd h hc'
      placed := fun h => absurd h hc'
      work_all := fun h => absurd h hc'
      hashed_digest := fun h => absurd h hc' }

theorem Inv_sched {P : Nat → String} {a a' : archiver} (hI : Inv P a)
    (hP' : ∀ i, i < a'.nextItem → (a'.items i).path = P i)
    (x : Nat) (h1 : sameStage1 a a') (hi : a'.items = a.items)
    (hc : a'.canceler = a.canceler)
    (hg : a.stage2HashChan.get? a.stage2Recv = some x)
    (hr : a'.stage2Recv = a.stage2Recv + 1) (hp : a'.hashPool = a.hashPool ++ [x])
    (hd : a'.hashed = a.hashed) : Inv P a' := by
  obtain ⟨e1, e2, e3, e4, e5⟩ := h1
  obtain ⟨mh, mc, mu, cd, cs, items', next', canc', prog', q1', r1', closed', seen', q2', r2',
    pool', hashed', q3', q4', stats', isPush'⟩ := a'
  simp only at e1 e2 e3 e4 e5 hi hc hr hp hd hP'
  subst e1 e2 e3 e4 e5 hi hc hr hp hd
  have hw : a.hashed ++ ((a.hashPool ++ [x]) ++ a.stage2HashChan.drop (a.stage2Recv + 1)) =
      hashWork a := by
    simp only [hashWork, drop_succ_of_get? hg, List.append_assoc, List.singleton_append]
  exact
    { path_eq := hP', chan1_lt := hI.chan1_lt, chan1_nodup := hI.chan1_nodup
      recv1_le := hI.recv1_le, chan2_sub := hI.chan2_sub
      chan2_nodup := hI.chan2_nodup, recv2_le := lt_length_of_get? hg
      seen_sound := hI.seen_sound, linked_sound := hI.linked_sound, fresh := hI.fresh
      mirrored := hI.mirrored
      work_nodup := by simp only [hashWork, hw]; exact hI.work_nodup
      work_sub := by simp only [hashWork, hw]; exact hI.work_sub
      forwarded := hI.forwarded, seen_first := hI.seen_first, placed := hI.placed
      work_all := by simp only [hashWork, hw]; exact hI.work_all
      hashed_digest := hI.hashed_digest }

theorem Inv_forward {P : Nat → String} {a a' : archiver} (hI : Inv P a)
    (hP' : ∀ i, i < a'.nextItem → (a'.items i).path = P i)
    (x : Nat) (h2 : sameStage2 a a')
    (hg : a.stage1DedupeChan.get? a.stage1Recv = some x)
    (hc : a.canceler = none) (hc' : a'.canceler = none)
    (hn : a'.nextItem = a.nextItem) (hq : a'.stage1DedupeChan = a.stage1DedupeChan)
    (hr : a'.stage1Recv = a.stage1Recv + 1)
    (hp : (a.items x).path = "" ∨ a.seen (a.items x).path = none)
    (hs : a'.seen = Function.update a.seen (a.items x).path (some x))
    (hq2 : a'.stage2HashChan = a.stage2HashChan ++ [x])
    (hi : a'.items = a.items) : Inv P a' := by
  obtain ⟨hxp, hxn, hxl, _, _, hxq, hxk, _⟩ := hI.next_fresh hg
  have hpx : (a.items x).path = P x := hI.path_eq x hxn
  rw [hpx] at hp hs
  obtain ⟨e6, e7, e8⟩ := h2
  obtain ⟨mh, mc, mu, cd, cs, items', next', canc', prog', q1', r1', closed', seen', q2', r2',
    pool', hashed', q3', q4', stats', isPush'⟩ := a'
  simp only at e6 e7 e8 hc' hn hq hr hs hq2 hP' hi
  subst e6 e7 e8 hc' hn hq hr hs hq2 hi
  have hproc : List.take (a.stage1Recv + 1) a.stage1DedupeChan = processed a ++ [x] :=
    processed_succ hg
  have hdrop := drop_succ_of_get? hg
  have hnd : (x :: a.stage1DedupeChan.drop (a.stage1Recv + 1)).Nodup := by
    rw [← hdrop]; exact List.Nodup.sublist (List.drop_sublist _ _) hI.chan1_nodup
  have hfirst : P x = "" ∨ firstWithPath P (processed a) (P x) = none := by
    rcases hp with h | h
    · exact Or.inl h
    · by_cases he : P x = ""
      · exact Or.inl he
      · exact Or.inr (by rw [← hI.seen_first hc (P x) he]; exact h)
  have hw : a.hashed ++ (a.hashPool ++ (a.stage2HashChan ++ [x]).drop a.stage2Recv) =
      hashWork a ++ [x] := by
    simp only [hashWork, List.drop_append_of_le_length hI.recv2_le, List.append_assoc]
  have hxw : x ∉ hashWork a := fun h => hxq (hI.work_sub x h)
  exact
    { path_eq := hP', chan1_lt := hI.chan1_lt, chan1_nodup := hI.chan1_nodup
      recv1_le := lt_length_of_get? hg
      chan2_sub := by
        intro i hi'
        simp only [processed]; rw [hproc]
        rcases List.mem_append.mp hi' with h | h
        · exact List.mem_append_left _ (hI.chan2_sub i h)
        · exact List.mem_append_right _ h
      chan2_nodup := List.Nodup.append hI.chan2_nodup (List.nodup_singleton _)
        (by
          intro y hy hy'
          rw [List.mem_singleton.mp hy'] at hy
          exact hxq hy)
      recv2_le := by
        simp only [List.length_append]
        exact Nat.le_trans hI.recv2_le (Nat.le_add_right _ _)
      seen_sound := by
        intro p r hsr
        simp only at hsr ⊢
        by_cases hpp : p = P x
        · subst hpp
          simp only [Function.update_same, Option.some.injEq] at hsr
          subst hsr
          exact ⟨List.mem_append_right _ (List.mem_singleton_self _), rfl⟩
        · rw [Function.update_noteq hpp] at hsr
          exact ⟨List.mem_append_left _ (hI.seen_sound p r hsr).1, (hI.seen_sound p r hsr).2⟩
      linked_sound := by
        intro r c hcl
        simp only [processed]; rw [hproc]
        obtain ⟨x1, x2, x3, x4⟩ := hI.linked_sound r c hcl
        refine ⟨List.mem_append_left _ x1, ?_, x3, ?_⟩
        · intro h
          rcases List.mem_append.mp h with h | h
          · exact x2 h
          · exact hxp (List.mem_singleton.mp h ▸ x1)
        · have hne : P c ≠ P x := by
            intro heq
            rcases hp with h | h
            · exact x3 (heq.trans h)
            · rw [heq, h] at x4; cases x4
          rw [Function.update_noteq hne]
          exact x4
      fresh := by
        intro i hi'
        simp only at hi' ⊢
        exact hI.fresh i (by rw [hdrop]; exact List.mem_cons_of_mem _ hi')
      mirrored := hI.mirrored
      work_nodup := by
        simp only [hashWork, hw]
        exact List.Nodup.append hI.work_nodup (List.nodup_singleton _)
          (by
            intro y hy hy'
            rw [List.mem_singleton.mp hy'] at hy
            exact hxw hy)
      work_sub := by
        intro i hi'
        simp only [hashWork, hw] at hi'
        rcases List.mem_append.mp hi' with h | h
        · exact List.mem_append_left _ (hI.work_sub i h)
        · exact List.mem_append_right _ h
      forwarded := by
        intro _
        simp only [processed]; rw [hproc]
        rw [expectedForwarded_snoc P _ x hxp, if_pos hfirst, ← hI.forwarded hc]
      seen_first := by
        intro _ p hp0
        simp only [processed]; rw [hproc]
        rw [firstWithPath_snoc]
        by_cases hpp : p = P x
        · subst hpp
          rcases hfirst with h | h
          · exact absurd h hp0
          · simp [h]
        · rw [Function.update_noteq hpp, hI.seen_first hc p hp0]
          simp [Ne.symm hpp]
      placed := by
        intro _ i hi'
        simp only [processed] at hi'; rw [hproc] at hi'
        rcases List.mem_append.mp hi' with h | h
        · rcases hI.placed hc i h with h' | h'
          · exact Or.inl (List.mem_append_left _ h')
          · exact Or.inr h'
        · exact Or.inl (List.mem_append_right _ h)
      work_all := by
        intro _ i hi'
        simp only [hashWork, hw]
        rcases List.mem_append.mp hi' with h | h
        · exact List.mem_append_left _ (hI.work_all hc i h)
        · exact List.mem_append_right _ h
      hashed_digest := fun _ => hI.hashed_digest hc }

theorem Inv_linkTo {P : Nat → String} {a a' : archiver} (hI : Inv P a)
    (hP' : ∀ i, i < a'.nextItem → (a'.items i).path = P i)
    (x prev : Nat) (h2 : sameStage2 a a')
    (hg : a.stage1DedupeChan.get? a.stage1Recv = some x)
    (hc : a.canceler = none) (hc' : a'.canceler = none)
    (hn : a'.nextItem = a.nextItem) (hq : a'.stage1DedupeChan = a.stage1DedupeChan)
    (hr : a'.stage1Recv = a.stage1Recv + 1) (hs : a'.seen = a.seen)
    (hq2 : a'.stage2HashChan = a.stage2HashChan)
    (hp : (a.items x).path ≠ "") (hseen : a.seen (a.items x).path = some prev)
    (hprev : a'.items prev = { a.items prev with linked := (a.items prev).linked ++ [x] })
    (hrest : ∀ j, j ≠ prev → j ≠ x → a'.items j = a.items j)
    (hx : (a'.items x).linked = (a.items x).linked ∧ (a'.items x).path = (a.items x).path)
    (hxl : (a.items x).linked = []) (hne : x ≠ prev)
    (hdig : (a.items prev).digestItem.Digest ≠ "" →
      (a'.items x).digestItem = (a.items prev).digestItem)
    (hdig0 : (a.items prev).digestItem.Digest = "" →
      (a'.items x).digestItem = (a.items x).digestItem)
    (herr : (a'.items x).err = (a.items prev).err) : Inv P a' := by
  obtain ⟨e6, e7, e8⟩ := h2
  obtain ⟨mh, mc, mu, cd, cs, items', next', canc', prog', q1', r1', closed', seen', q2', r2',
    pool', hashed', q3', q4', stats', isPush'⟩ := a'
  simp only at e6 e7 e8 hc' hn hq hr hs hq2 hP' hprev hrest hx hdig hdig0 herr
  subst e6 e7 e8 hc' hn hq hr hs hq2
  obtain ⟨hxp, hxn, _, _, _, hxq, hxk, hxd⟩ := hI.next_fresh hg
  have hpx : (a.items x).path = P x := hI.path_eq x hxn
  rw [hpx] at hp hseen
  have hproc : List.take (a.stage1Recv + 1) a.stage1DedupeChan = processed a ++ [x] :=
    processed_succ hg
  have hdrop := drop_succ_of_get? hg
  have hnd : (x :: a.stage1DedupeChan.drop (a.stage1Recv + 1)).Nodup := by
    rw [← hdrop]; exact List.Nodup.sublist (List.drop_sublist _ _) hI.chan1_nodup
  have hprevq : prev ∈ a.stage2HashChan := (hI.seen_sound _ _ hseen).1
  have hprevp : prev ∈ processed a := hI.chan2_sub prev hprevq
  have hfirst : firstWithPath P (processed a) (P x) = some prev := by
    rw [← hI.seen_first hc (P x) hp]; exact hseen
  have hlinked : ∀ r, r ≠ prev → (items' r).linked = (a.items r).linked := by
    intro r hr
    by_cases hrx : r = x
    · subst hrx; exact hx.1
    · rw [hrest r hr hrx]
  have hmono : ∀ r c, c ∈ (a.items r).linked → c ∈ (items' r).linked := by
    intro r c hcl
    by_cases hr : r = prev
    · subst hr; rw [hprev]; exact List.mem_append_left _ hcl
    · rw [hlinked r hr]; exact hcl
  have holditem : ∀ c, c ∈ processed a → c ∉ a.stage2HashChan → items' c = a.items c :=
    fun c hcp hcq => hrest c (fun h => hcq (h ▸ hprevq)) (fun h => hxp (h ▸ hcp))
  exact
    { path_eq := hP', chan1_lt := hI.chan1_lt, chan1_nodup := hI.chan1_nodup
      recv1_le := lt_length_of_get? hg
      chan2_sub := by
        intro i hi'
        simp only [processed]; rw [hproc]
        exact List.mem_append_left _ (hI.chan2_sub i hi')
      chan2_nodup := hI.chan2_nodup, recv2_le := hI.recv2_le, seen_sound := hI.seen_sound
      linked_sound := by
        intro r c hcl
        simp only [processed]; rw [hproc]
        simp only at hcl
        by_cases hr : r = prev
        · subst hr
          rw [hprev] at hcl
          rcases List.mem_append.mp hcl with h | h
          · obtain ⟨x1, x2, x3, x4⟩ := hI.linked_sound r c h
            exact ⟨List.mem_append_left _ x1, x2, x3, x4⟩
          · rw [List.mem_singleton.mp h]
            exact ⟨List.mem_append_right _ (List.mem_singleton_self _), hxq, hp, hseen⟩
        · rw [hlinked r hr] at hcl
          obtain ⟨x1, x2, x3, x4⟩ := hI.linked_sound r c hcl
          exact ⟨List.mem_append_left _ x1, x2, x3, x4⟩
      fresh := by
        intro i hi'
        simp only at hi' ⊢
        have hid : i ∈ a.stage1DedupeChan.drop a.stage1Recv := by
          rw [hdrop]; exact List.mem_cons_of_mem _ hi'
        have hip : i ∉ processed a := not_mem_take_of_mem_drop hI.chan1_nodup hid
        have hix : i ≠ x := fun h => (List.nodup_cons.mp hnd).1 (h ▸ hi')
        rw [hrest i (fun h => hip (h ▸ hprevp)) hix]
        exact hI.fresh i hid
      mirrored := by
        intro r c hcl
        simp only [Error]
        simp only at hcl
        by_cases hrp : r = prev
        · subst hrp
          have hre : (items' r).err = (a.items r).err := by rw [hprev]
          rw [hprev] at hcl
          rw [hre]
          rcases List.mem_append.mp hcl with h | h
          · obtain ⟨x1, x2, _, _⟩ := hI.linked_sound r c h
            rw [holditem c x1 x2]
            exact hI.mirrored r c h
          · rw [List.mem_singleton.mp h]
            exact herr
        · rw [hlinked r hrp] at hcl
          have hrx : r ≠ x := by
            rintro rfl
            rw [hxl] at hcl
            cases hcl
          obtain ⟨x1, x2, _, _⟩ := hI.linked_sound r c hcl
          rw [hrest r hrp hrx, holditem c x1 x2]
          exact hI.mirrored r c hcl
      work_nodup := hI.work_nodup, work_sub := hI.work_sub
      forwarded := by
        intro _
        simp only [processed]; rw [hproc]
        rw [expectedForwarded_snoc P _ x hxp, if_neg (by simp [hp, hfirst]), List.append_nil]
        exact hI.forwarded hc
      seen_first := by
        intro _ p hp0
        simp only [processed]; rw [hproc]
        rw [firstWithPath_snoc, hI.seen_first hc p hp0]
        cases hf : firstWithPath P (processed a) p with
        | some r => rfl
        | none =>
          have hpp : P x ≠ p := by
            intro heq
            rw [heq, hf] at hfirst
            cases hfirst
          simp [hpp]
      placed := by
        intro _ i hi'
        simp only [processed] at hi'; rw [hproc] at hi'
        rcases List.mem_append.mp hi' with h | h
        · rcases hI.placed hc i h with h' | ⟨r, h'⟩
          · exact Or.inl h'
          · exact Or.inr ⟨r, hmono r i h'⟩
        · right
          refine ⟨prev, ?_⟩
          simp only
          rw [hprev, List.mem_singleton.mp h]
          exact List.mem_append_right _ (List.mem_singleton_self _)
      work_all := fun _ => hI.work_all hc
      hashed_digest := by
        intro _ r hr c hcl
        simp only at hcl ⊢
        have hrq : r ∈ a.stage2HashChan := hI.work_sub r (List.mem_append_left _ hr)
        have d2 := hI.hashed_digest hc r hr
        by_cases hrp : r = prev
        · subst hrp
          rw [hprev] at hcl ⊢
          rcases List.mem_append.mp hcl with h | h
          · obtain ⟨x1, x2, _, _⟩ := hI.linked_sound r c h
            rw [holditem c x1 x2]
            exact d2 c h
          · rw [List.mem_singleton.mp h]
            by_cases hd0 : (a.items r).digestItem.Digest = ""
            · rw [hdig0 hd0, hxd]; exact hd0.symm
            · rw [hdig hd0]
        · have hrx : r ≠ x := fun h => hxq (h ▸ hrq)
          rw [hrest r hrp hrx] at hcl ⊢
          obtain ⟨x1, x2, _, _⟩ := hI.linked_sound r c hcl
          rw [holditem c x1 x2]
          exact d2 c hcl }

theorem Inv_hashOk {P : Nat → String}
    {a a' : archiver} (hI : Inv P a)
    (hP' : ∀ i, i < a'.nextItem → (a'.items i).path = P i)
    (x : Nat) (h1 : sameStage1 a a') (hx : x ∈ a.hashPool)
    (hc : a.canceler = none) (hc' : a'.canceler = none)
    (hr : a'.stage2Recv = a.stage2Recv) (hp : a'.hashPool = a.hashPool.erase x)
    (hd : a'.hashed = a.hashed ++ [x])
    (hshape : keepsShape a.items a'.items) (htouch : touchesOnly a.items a'.items x)
    (hkids : ∀ c ∈ (a.items x).linked, (a'.items c).digestItem = (a'.items x).digestItem)
    (herr : ∀ j, (a'.items j).err = (a.items j).err) :
    Inv P a' := by
  obtain ⟨e1, e2, e3, e4, e5⟩ := h1
  obtain ⟨mh, mc, mu, cd, cs, items', next', canc', prog', q1', r1', closed', seen', q2', r2',
    pool', hashed', q3', q4', stats', isPush'⟩ := a'
  simp only at e1 e2 e3 e4 e5 hc' hr hp hd hP' hshape htouch hkids herr
  subst e1 e2 e3 e4 e5 hr hp hd hc'
  have hxw : x ∈ hashWork a := List.mem_append_right _ (List.mem_append_left _ hx)
  have hxq : x ∈ a.stage2HashChan := hI.work_sub x hxw
  have hxp : x ∈ processed a := hI.chan2_sub x hxq
  have hperm : List.Perm ((a.hashed ++ [x]) ++
      (a.hashPool.erase x ++ a.stage2HashChan.drop a.stage2Recv)) (hashWork a) :=
    hashWork_move hx
  exact
    { path_eq := hP', chan1_lt := hI.chan1_lt, chan1_nodup := hI.chan1_nodup
      recv1_le := hI.recv1_le, chan2_sub := hI.chan2_sub
      chan2_nodup := hI.chan2_nodup, recv2_le := hI.recv2_le, seen_sound := hI.seen_sound
      linked_sound := by
        intro r c hcl
        simp only [(hshape r).1] at hcl
        exact hI.linked_sound r c hcl
      fresh := by
        intro i hi'
        simp only at hi' ⊢
        have hip : i ∉ processed a := not_mem_take_of_mem_drop hI.chan1_nodup hi'
        rw [htouch i (fun h => hip (h ▸ hxp)) (fun h => hip (hI.linked_sound x i h).1)]
        exact hI.fresh i hi'
      mirrored := by
        intro r c hcl
        simp only [(hshape r).1] at hcl
        simp only [Error, herr]
        exact hI.mirrored r c hcl
      work_nodup := hperm.nodup_iff.mpr hI.work_nodup
      work_sub := fun i hi' => hI.work_sub i (hperm.subset hi')
      forwarded := fun _ => hI.forwarded hc
      seen_first := fun _ => hI.seen_first hc
      placed := by
        intro _ i hi'
        simp only [(hshape _).1]
        exact hI.placed hc i hi'
      work_all := fun _ i hi' => hperm.symm.subset (hI.work_all hc i hi')
      hashed_digest := by
        intro _ r hr c hcl
        simp only at hr hcl ⊢
        simp only [(hshape r).1] at hcl
        rcases List.mem_append.mp hr with h | h
        · have hrq : r ∈ a.stage2HashChan := hI.work_sub r (List.mem_append_left _ h)
          have hrx : r ≠ x := by
            rintro rfl
            have := (List.nodup_append.mp hI.work_nodup).2.2 h (List.mem_append_left _ hx)
            exact this
          have hrl : r ∉ (a.items x).linked := fun hl => (hI.linked_sound x r hl).2.1 hrq
          rw [htouch r hrx hrl]
          obtain ⟨_, x2, _, x4⟩ := hI.linked_sound r c hcl
          have hcx : c ≠ x := fun hh => x2 (hh ▸ hxq)
          have hcl' : c ∉ (a.items x).linked := by
            intro hl
            have := (hI.linked_sound x c hl).2.2.2
            rw [x4] at this
            exact hrx (Option.some.inj this)
          rw [htouch c hcx hcl']
          exact hI.hashed_digest hc r h c hcl
        · have hrx : r = x := List.mem_singleton.mp h
          subst hrx
          rw [hkids c hcl] }

theorem Move_Inv {HashFile : String → Except String DigestItem} {P : Nat → String}
    {a a' : archiver} (hm : Move HashFile a a') (hI : Inv P a)
    (hP' : ∀ i, i < a'.nextItem → (a'.items i).path = P i) : Inv P a' := by
  cases hm with
  | idle h1 h2 hi hc =>
    refine Inv_congr hI h1 h2 hi (fun h => ?_)
    cases hca : a.canceler with
    | none => rfl
    | some e => rw [hc e hca] at h; cases h
  | alloc h2 hc hn hi hl hq hr hs hq2 => exact Inv_alloc hI hP' h2 hc hn hi hl hq hr hs hq2
  | reject x e h2 hg hc hc' hn hq hr hs hq2 hshape htouch herr hwg =>
    exact Inv_reject hI hP' x e h2 hg hc' hn hq hr hs hq2 hshape htouch
  | linkTo x prev h2 hg hc hc' hn hq hr hs hq2 hp hseen hprev hrest hx hxl hne hdig hdig0 herr =>
    exact Inv_linkTo hI hP' x prev h2 hg hc hc' hn hq hr hs hq2 hp hseen hprev hrest hx hxl hne
      hdig hdig0 herr
  | forward x h2 hg hc hc' hn hq hr hp hs hq2 hi =>
    exact Inv_forward hI hP' x h2 hg hc hc' hn hq hr hp hs hq2 hi
  | sched x h1 hi hc hg hr hp hd => exact Inv_sched hI hP' x h1 hi hc hg hr hp hd
  | hashOk x h1 hx hc hc' hr hp hd hshape htouch hkids herr =>
    exact Inv_hashOk hI hP' x h1 hx hc hc' hr hp hd hshape htouch hkids herr
  | hashAbort x h1 hx hc hc' hr hp hd hshape htouch hmir =>
    exact Inv_hashAbort hI hP' x h1 hx hc' hr hp hd hshape htouch hmir

theorem Inv_New (P : Nat → String) : Inv P New :=
  { path_eq := fun i hi => absurd hi (Nat.not_lt_zero i)
    chan1_lt := fun i hi => by simp [New] at hi
    chan1_nodup := List.nodup_nil
    recv1_le := Nat.le_refl _
    chan2_sub := fun i hi => by simp [New] at hi
    chan2_nodup := List.nodup_nil
    recv2_le := Nat.le_refl _
    seen_sound := fun p r h => by simp [New] at h
    linked_sound := fun r c h => by simp [New, zeroItem] at h
    fresh := fun i hi => by simp [New] at hi
    mirrored := fun r c h => by simp [New, zeroItem] at h
    work_nodup := by simp [hashWork, New]
    work_sub := fun i hi => by simp [hashWork, New] at hi
    forwarded := fun _ => by simp [New, processed, expectedForwarded]
    seen_first := fun _ p _ => by simp [New, processed, firstWithPath]
    placed := fun _ i hi => by simp [New, processed] at hi
    work_all := fun _ i hi => by simp [New] at hi
    hashed_digest := fun _ r hr => by simp [New] at hr }

theorem run_Inv {HashFile : String → Except String DigestItem} {P : Nat → String} :
    ∀ (evs : List Event) (a a' : archiver), run HashFile a evs = .ok a' → Inv P a →
      (∀ i, i < a'.nextItem → (a'.items i).path = P i) → Inv P a' := by
  intro evs
  induction evs with
  | nil => intro a a' hr hI _; cases hr; exact hI
  | cons e evs ih =>
    intro a a' hr hI hP
    simp only [run] at hr
    cases hs : step HashFile a e with
    | error f => simp [hs] at hr
    | ok a1 =>
      simp only [hs] at hr
      obtain ⟨n2, p2, _⟩ := run_paths evs a1 a' hr
      exact ih a1 a' hr (Move_Inv (step_move hs) hI
        (fun i hi => by rw [← p2 i hi]; exact hP i (Nat.lt_of_lt_of_le hi n2))) hP

/-- Every state reached from `New` satisfies the invariant, for the paths
of its own items. -/
theorem reachable_Inv {HashFile : String → Except String DigestItem} {evs : List Event}
    {a : archiver} (hr : run HashFile New evs = .ok a) : Inv (fun i => (a.items i).path) a :=
  run_Inv evs New a hr (Inv_New _) (fun _ _ => rfl)

/-! ## Reachable states -/

theorem filter_length_le_one {l : List Nat} (hnd : l.Nodup) (q : Nat → Bool)
    (huniq : ∀ x ∈ l, ∀ y ∈ l, q x = true → q y = true → x = y) : (l.filter q).length ≤ 1 := by
  have hnd' : (l.filter q).Nodup := List.Nodup.sublist (List.filter_sublist l) hnd
  cases hf : l.filter q with
  | nil => simp
  | cons x t =>
    cases t with
    | nil => simp
    | cons y t =>
      exfalso
      rw [hf] at hnd'
      have hx : x ∈ l.filter q := by rw [hf]; exact List.mem_cons_self _ _
      have hy : y ∈ l.filter q := by
        rw [hf]; exact List.mem_cons_of_mem _ (List.mem_cons_self _ _)
      have hxy : x = y := huniq x (List.mem_filter.mp hx).1 y (List.mem_filter.mp hy).1
        (List.mem_filter.mp hx).2 (List.mem_filter.mp hy).2
      exact (List.nodup_cons.mp hnd').1 (hxy ▸ List.mem_cons_self _ _)

theorem Inv.processed_nodup {P : Nat → String} {a : archiver} (hI : Inv P a) :
    (processed a).Nodup :=
  List.Nodup.sublist (List.take_sublist _ _) hI.chan1_nodup

/-- In a state that is not cancelled, an item in the hash channel is the first
processed item with its path, unless its path is empty. -/
theorem Inv.chan2_first {P : Nat → String} {a : archiver} (hI : Inv P a)
    (hcan : a.canceler = none) {r : Nat} (hr : r ∈ a.stage2HashChan) (hp : P r ≠ "") :
    firstWithPath P (processed a) (P r) = some r := by
  rw [hI.forwarded hcan] at hr
  have := (List.mem_filter.mp hr).2
  simpa [entersHash, hp] using this

/-- In a state that is not cancelled, a processed item that was not forwarded
is linked to the first processed item with its path, which was forwarded. -/
theorem Inv.linked_to_first {P : Nat → String} {a : archiver} (hI : Inv P a)
    (hcan : a.canceler = none) {i : Nat} (hi : i ∈ processed a) (hq : i ∉ a.stage2HashChan) :
    ∃ r, firstWithPath P (processed a) (P i) = some r ∧ r ∈ a.stage2HashChan ∧
      i ∈ (a.items r).linked ∧ P i ≠ "" := by
  rcases hI.placed hcan i hi with h | ⟨r, h⟩
  · exact absurd h hq
  · obtain ⟨_, _, x3, x4⟩ := hI.linked_sound r i h
    exact ⟨r, by rw [← hI.seen_first hcan _ x3]; exact x4, (hI.seen_sound _ _ x4).1, h, x3⟩

/-- What a step does to the sequence of processed items: nothing, or one
more item; in a cancelled state the new item is rejected. -/
theorem Move_processed {HashFile : String → Except String DigestItem} {P : Nat → String}
    {a a' : archiver} (hm : Move HashFile a a') (hI : Inv P a) :
    (processed a' = processed a ∧ a'.stage1Recv = a.stage1Recv) ∨
    (∃ x, processed a' = processed a ++ [x] ∧ a'.stage1Recv = a.stage1Recv + 1 ∧
      (∀ e, a.canceler = some e → (a'.items x).err = some e ∧ (a'.items x).wgHashed = 0 ∧
        x ∉ a'.stage2HashChan ∧ (∀ r, x ∉ (a'.items r).linked) ∧ (a'.items x).linked = [])) := by
  cases hm with
  | idle h1 h2 hi hc => exact Or.inl ⟨by simp only [processed, h1.chan1, h1.recv1], h1.recv1⟩
  | alloc h2 hc hn hi hl hq hr hs hq2 =>
    refine Or.inl ⟨?_, hr⟩
    simp only [processed, hr]
    rcases hq with h | ⟨h, _⟩
    · rw [h]
    · rw [h]; exact List.take_append_of_le_length hI.recv1_le
  | reject x e h2 hg hc hc' hn hq hr hs hq2 hshape htouch herr hwg =>
    refine Or.inr ⟨x, ?_, hr, fun e' he' => ?_⟩
    · simp only [processed, hq, hr]; exact processed_succ hg
    · obtain ⟨_, _, hxl, hxe, hxw, hxq, hxk, _⟩ := hI.next_fresh hg
      rw [hc] at he'
      cases he'
      refine ⟨herr hxe, by rw [hwg.2, hxw], by rw [hq2]; exact hxq, fun r => ?_, ?_⟩
      · rw [(hshape r).1]; exact hxk r
      · rw [(hshape x).1]; exact hxl
  | linkTo x prev h2 hg hc hc' hn hq hr hs hq2 hp hseen hprev hrest hx hxl hne hdig hdig0 herr =>
    refine Or.inr ⟨x, ?_, hr, fun e' he' => ?_⟩
    · simp only [processed, hq, hr]; exact processed_succ hg
    · rw [hc] at he'; cases he'
  | forward x h2 hg hc hc' hn hq hr hp hs hq2 hi =>
    refine Or.inr ⟨x, ?_, hr, fun e' he' => ?_⟩
    · simp only [processed, hq, hr]; exact processed_succ hg
    · rw [hc] at he'; cases he'
  | sched x h1 hi hc hg hr hp hd =>
    exact Or.inl ⟨by simp only [processed, h1.chan1, h1.recv1], h1.recv1⟩
  | hashOk x h1 hx hc hc' hr hp hd hshape htouch hkids herr =>
    exact Or.inl ⟨by simp only [processed, h1.chan1, h1.recv1], h1.recv1⟩
  | hashAbort x h1 hx hc hc' hr hp hd hshape htouch hmir =>
    exact Or.inl ⟨by simp only [processed, h1.chan1, h1.recv1], h1.recv1⟩

/-- Once rejected, an item stays as it is: no later step touches it. -/
theorem Rejected_Move {HashFile : String → Except String DigestItem} {P : Nat → String}
    {a a' : archiver} {e : String} {i : Nat} (hm : Move HashFile a a') (hI : Inv P a)
    (hR : Rejected e a i) : Rejected e a' i := by
  obtain ⟨r1, r2, r3, r4, r5, r6⟩ := hR
  have hproc : i ∈ processed a' := by
    rcases Move_processed hm hI with ⟨h, _⟩ | ⟨x, h, _⟩
    · rw [h]; exact r1
    · rw [h]; exact List.mem_append_left _ r1
  cases hm with
  | idle h1 h2 hi hc =>
    exact ⟨hproc, by rw [hi]; exact r2, by rw [hi]; exact r3, by rw [h1.chan2]; exact r4,
      fun r => by rw [hi]; exact r5 r, by rw [hi]; exact r6⟩
  | alloc h2 hc hn hi hl hq hr hs hq2 =>
    have hin : i ≠ a.nextItem := Nat.ne_of_lt (hI.processed_lt r1)
    refine ⟨hproc, by rw [hi i hin]; exact r2, by rw [hi i hin]; exact r3,
      by rw [hq2]; exact r4, fun r => ?_, by rw [hi i hin]; exact r6⟩
    by_cases hrn : r = a.nextItem
    · subst hrn; rw [hl]; exact List.not_mem_nil _
    · rw [hi r hrn]; exact r5 r
  | reject x e0 h2 hg hc hc' hn hq hr hs hq2 hshape htouch herr hwg =>
    obtain ⟨hxp, _, hxl, _, _, _, _, _⟩ := hI.next_fresh hg
    have hix : i ≠ x := fun h => hxp (h ▸ r1)
    have hit : a'.items i = a.items i := htouch i hix (by rw [hxl]; exact List.not_mem_nil _)
    exact ⟨hproc, by rw [hit]; exact r2, by rw [hit]; exact r3, by rw [hq2]; exact r4,
      fun r => by rw [(hshape r).1]; exact r5 r, by rw [hit]; exact r6⟩
  | linkTo x prev h2 hg hc hc' hn hq hr hs hq2 hp hseen hprev hrest hx hxl hne hdig hdig0 herr =>
    obtain ⟨hxp, _, _, _, _, _, _, _⟩ := hI.next_fresh hg
    have hix : i ≠ x := fun h => hxp (h ▸ r1)
    have hip : i ≠ prev := fun h => r4 (h ▸ (hI.seen_sound _ _ hseen).1)
    have hit : a'.items i = a.items i := hrest i hip hix
    refine ⟨hproc, by rw [hit]; exact r2, by rw [hit]; exact r3, by rw [hq2]; exact r4,
      fun r => ?_, by rw [hit]; exact r6⟩
    by_cases hrp : r = prev
    · subst hrp
      rw [hprev]
      intro h
      rcases List.mem_append.mp h with h | h
      · exact r5 r h
      · exact hix (List.mem_singleton.mp h)
    · by_cases hrx : r = x
      · subst hrx; rw [hx.1]; exact r5 r
      · rw [hrest r hrp hrx]; exact r5 r
  | forward x h2 hg hc hc' hn hq hr hp hs hq2 hi =>
    obtain ⟨hxp, _, _, _, _, _, _, _⟩ := hI.next_fresh hg
    have hix : i ≠ x := fun h => hxp (h ▸ r1)
    refine ⟨hproc, by rw [hi]; exact r2, by rw [hi]; exact r3, ?_,
      fun r => by rw [hi]; exact r5 r, by rw [hi]; exact r6⟩
    rw [hq2]
    intro h
    rcases List.mem_append.mp h with h | h
    · exact r4 h
    · exact hix (List.mem_singleton.mp h)
  | sched x h1 hi hc hg hr hp hd =>
    exact ⟨hproc, by rw [hi]; exact r2, by rw [hi]; exact r3, by rw [h1.chan2]; exact r4,
      fun r => by rw [hi]; exact r5 r, by rw [hi]; exact r6⟩
  | hashOk x h1 hx hc hc' hr hp hd hshape htouch hkids herr =>
    have hxq : x ∈ a.stage2HashChan :=
      hI.work_sub x (List.mem_append_right _ (List.mem_append_left _ hx))
    have hit : a'.items i = a.items i := htouch i (fun h => r4 (h ▸ hxq)) (r5 x)
    exact ⟨hproc, by rw [hit]; exact r2, by rw [hit]; exact r3, by rw [h1.chan2]; exact r4,
      fun r => by rw [(hshape r).1]; exact r5 r, by rw [hit]; exact r6⟩
  | hashAbort x h1 hx hc hc' hr hp hd hshape htouch hmir =>
    have hxq : x ∈ a.stage2HashChan :=
      hI.work_sub x (List.mem_append_right _ (List.mem_append_left _ hx))
    have hit : a'.items i = a.items i := htouch i (fun h => r4 (h ▸ hxq)) (r5 x)
    exact ⟨hproc, by rw [hit]; exact r2, by rw [hit]; exact r3, by rw [h1.chan2]; exact r4,
      fun r => by rw [(hshape r).1]; exact r5 r, by rw [hit]; exact r6⟩

theorem Inv.processed_length {P : Nat → String} {a : archiver} (hI : Inv P a) :
    (processed a).length = a.stage1Recv := by
  simp only [processed, List.length_take]
  exact Nat.min_eq_left hI.recv1_le

/-- Along a run from a cancelled state, every item the dedupe loop processes
ends up rejected with the Canceler's reason; the items processed earlier are a
prefix of those processed at the end. -/
theorem run_rejects {HashFile : String → Except String DigestItem} {P : Nat → String}
    {e : String} :
    ∀ (evs : List Event) (a a' : archiver), run HashFile a evs = .ok a' → Inv P a →
      (∀ i, i < a'.nextItem → (a'.items i).path = P i) → a.canceler = some e →
      (∀ i, Rejected e a i → Rejected e a' i) ∧
      (∃ t, processed a' = processed a ++ t ∧ ∀ i ∈ t, Rejected e a' i) := by
  intro evs
  induction evs with
  | nil =>
    intro a a' hr hI _ _
    cases hr
    exact ⟨fun _ h => h, [], by simp, by simp⟩
  | cons ev evs ih =>
    intro a a' hr hI hP hcan
    simp only [run] at hr
    cases hs : step HashFile a ev with
    | error f => simp [hs] at hr
    | ok a1 =>
      simp only [hs] at hr
      obtain ⟨n2, p2, _⟩ := run_paths evs a1 a' hr
      have hm := step_move hs
      have hI1 : Inv P a1 := Move_Inv hm hI
        (fun i hi => by rw [← p2 i hi]; exact hP i (Nat.lt_of_lt_of_le hi n2))
      have hcan1 : a1.canceler = some e := Move_sticky hm e hcan
      obtain ⟨hstab, t, ht, htR⟩ := ih a1 a' hr hI1 hP hcan1
      refine ⟨fun i hR => hstab i (Rejected_Move hm hI hR), ?_⟩
      rcases Move_processed hm hI with ⟨h, _⟩ | ⟨x, h, _, hx⟩
      · exact ⟨t, by rw [ht, h], htR⟩
      · refine ⟨x :: t, by rw [ht, h, List.append_assoc, List.singleton_append], ?_⟩
        intro i hi
        rcases List.mem_cons.mp hi with rfl | hi
        · obtain ⟨x1, x2, x3, x4, x5⟩ := hx e hcan
          exact hstab i ⟨by rw [h]; exact List.mem_append_right _ (List.mem_singleton_self _),
            x1, x2, x3, x4, x5⟩
        · exact htR i hi

theorem link_total (h : Heap) (r c : Nat) (hc : linkable h c) (hcr : c ≠ r) :
    ∃ h', link h r c = .ok h' := by
  obtain ⟨h1, h2, h3, h4, h5⟩ := hc
  simp only [link, h1, h2, h3, h4, hcr]
  by_cases hd : (h r).digestItem.Digest = ""
  · by_cases he : (h r).err = none
    · simp [hd, he]
    · simp [hd, he, wgDone, Function.update_noteq hcr, h5]
  · simp [hd, wgDone, Function.update_noteq hcr, h5]

/-- A sequence of `link` and `setErr` calls on `r` returns when the children
linked are distinct items other than `r`, not linked to `r` yet, each passing
the check of `link` with its completion signal pending. -/
theorem applyCalls_total (r : Nat) : ∀ (cs : List ItemCall) (h : Heap),
    r ∉ (h r).linked → (linkTargets cs).Nodup →
    (∀ c ∈ linkTargets cs, c ≠ r ∧ c ∉ (h r).linked ∧ linkable h c) →
    ∃ h', applyCalls r h cs = .ok h' := by
  intro cs
  induction cs with
  | nil => intro h _ _ _; exact ⟨h, rfl⟩
  | cons c cs ih =>
    intro h hself hnd hpre
    cases c with
    | link c =>
      simp only [linkTargets, List.nodup_cons] at hnd
      obtain ⟨hcr, hcl, hcp⟩ := hpre c (by simp [linkTargets])
      obtain ⟨h1, hl⟩ := link_total h r c hcp hcr
      obtain ⟨_, _, hr, hrest, _⟩ := link_ok hl
      have hlk : (h1 r).linked = (h r).linked ++ [c] := by rw [hr]
      obtain ⟨h', hrun⟩ := ih h1
        (by rw [hlk]; simp [hself, Ne.symm hcr])
        hnd.2
        (fun c' hc' => by
          obtain ⟨x1, x2, x3⟩ := hpre c' (by simp [linkTargets, hc'])
          have hne : c' ≠ c := fun hh => hnd.1 (hh ▸ hc')
          refine ⟨x1, by rw [hlk]; simp [x2, hne], ?_⟩
          unfold linkable
          rw [hrest c' x1 hne]
          exact x3)
      exact ⟨h', by simp only [applyCalls, applyCall, hl]; exact hrun⟩
    | setErr e =>
      simp only [linkTargets] at hnd hpre
      obtain ⟨h1, hs⟩ := setErr_total h r e hself
      have hlk : (h1 r).linked = (h r).linked := (setErr_shape hs r).1
      obtain ⟨h', hrun⟩ := ih h1 (by rw [hlk]; exact hself) hnd
        (fun c' hc' => by
          obtain ⟨x1, x2, x3⟩ := hpre c' hc'
          refine ⟨x1, by rw [hlk]; exact x2, ?_⟩
          unfold linkable
          rw [setErr_untouched hs c' x1 x2]
          exact x3)
      exact ⟨h', by simp only [applyCalls, applyCall, hs]; exact hrun⟩

/-- In a state that satisfies the invariant the dedupe loop's next step
returns: the item it receives is pristine, so neither `setErr`, `Done` nor
`link` faults on it. -/
theorem Inv.stage1_total (HashFile : String → Except String DigestItem) {P : Nat → String}
    {a : archiver} (hI : Inv P a) : ∃ a', step HashFile a .stage1Dedupe = .ok a' := by
  simp only [step]
  cases hg : a.stage1DedupeChan.get? a.stage1Recv with
  | none => exact ⟨a, rfl⟩
  | some x =>
    obtain ⟨hxp, _, hxl, hxe, hxw, hxq, _, _⟩ := hI.next_fresh hg
    obtain ⟨_, _, _, hst, hsrc⟩ := hI.fresh x (mem_drop_of_get? hg)
    simp only [stage1DedupeBody, CancelationReason]
    cases hc : a.canceler with
    | some e =>
      simp [setErr, hxe, hxl, setErrChildren, Done, wgDone, hxw]
    | none =>
      simp only [ne_eq, not_true_eq_false, if_false]
      by_cases hp : (a.items x).path = ""
      · simp [hp]
      · simp only [hp, not_false_eq_true, if_true]
        cases hs : a.seen (a.items x).path with
        | none => simp
        | some prev =>
          have hprev : prev ∈ a.stage2HashChan := (hI.seen_sound _ _ hs).1
          have hne : x ≠ prev := fun h => hxq (h ▸ hprev)
          simp only [link, hsrc hp, hst, hxl, hxe, hne]
          by_cases hd : (a.items prev).digestItem.Digest = ""
          · by_cases he : (a.items prev).err = none
            · simp [hd, he]
            · simp [hd, he, wgDone, Function.update_noteq hne, hxw]
          · simp [hd, wgDone, Function.update_noteq hne, hxw]

theorem run_append (HashFile : String → Except String DigestItem) (es1 es2 : List Event) :
    ∀ a a1, run HashFile a es1 = .ok a1 → run HashFile a (es1 ++ es2) = run HashFile a1 es2 := by
  induction es1 with
  | nil => intro a a1 h; cases h; rfl
  | cons e es ih =>
    intro a a1 h
    simp only [run, List.cons_append] at h ⊢
    cases hs : step HashFile a e with
    | error f => simp [hs] at h
    | ok a2 =>
      simp only [hs] at h ⊢
      exact ih a2 a1 h

/-- From a state reached from `New` the dedupe loop can take any number of
steps: each of them returns. -/
theorem dedupe_total (HashFile : String → Except String DigestItem) (m : Nat) :
    ∀ (evs : List Event) (a : archiver), run HashFile New evs = .ok a →
      ∃ a', run HashFile a (List.replicate m .stage1Dedupe) = .ok a' := by
  induction m with
  | zero => intro _ a _; exact ⟨a, rfl⟩
  | succ m ih =>
    intro evs a hr
    obtain ⟨a1, h1⟩ := (reachable_Inv hr).stage1_total HashFile
    have hr1 : run HashFile New (evs ++ [.stage1Dedupe]) = .ok a1 := by
      rw [run_append HashFile evs [.stage1Dedupe] New a hr]
      simp only [run, h1]
    obtain ⟨a', h'⟩ := ih _ a1 hr1
    refine ⟨a', ?_⟩
    simp only [List.replicate_succ, run, h1]
    exact h'

/-- In every state reached from `New` by the front half of the pipeline, every
item carries the error of the item it is linked to. -/
theorem reachable_mirrorsRep {HashFile : String → Except String DigestItem} {evs : List Event}
    {a : archiver} (hr : run HashFile New evs = .ok a) (j : Nat) : mirrorsRep a.items j :=
  fun r h => (reachable_Inv hr).mirrored r j h

/-! ## Claims -/

/-- C5: `setErr(e1)` followed by `setErr(e2)` (both non-nil) on an item
returns both times.  When the item had no error, `Error()` is then `e1` on the
item and on each of its linked duplicates; when it had one, that earlier error
stays.  Either way the first error assigned is the one reported, and the
second call changes no item's error. -/
theorem setErr_first_error_sticks (h : Heap) (i : Nat) (e1 e2 : String)
    (hself : i ∉ (h i).linked) :
    ∃ h1 h2, setErr h i (some e1) = .ok h1 ∧ setErr h1 i (some e2) = .ok h2 ∧
      Error h2 i = some ((Error h i).getD e1) ∧ (h2 i).linked = (h i).linked ∧
      (Error h i = none → ∀ c ∈ (h i).linked, Error h2 c = some e1) ∧
      (∀ j, Error h2 j = Error h1 j) := by
  have hlast : ∀ (h1 : Heap) (j : Nat),
      Error (Function.update h1 i { h1 i with src := none }) j = Error h1 j := by
    intro h1 j
    by_cases hj : j = i
    · subst hj; simp [Error]
    · simp [Error, Function.update_noteq hj]
  by_cases hnil : (h i).err = none
  · have hne : (setErrFresh h i e1 i).err ≠ none := by simp [setErrFresh]
    refine ⟨_, _, setErr_fresh h i e1 hnil hself, setErr_stale _ i e2 hne, ?_, ?_, ?_, hlast _⟩
    · simp [Error, setErrFresh, hnil]
    · simp [setErrFresh]
    · intro _ c hc
      have hci : c ≠ i := fun x => hself (x ▸ hc)
      simp [Error, setErrFresh, Function.update_noteq hci, hci, hc]
  · have hne : ((Function.update h i { h i with src := none }) i).err ≠ none := by
      simpa using hnil
    refine ⟨_, _, setErr_stale h i e1 hnil, setErr_stale _ i e2 hne, ?_, ?_, ?_, hlast _⟩
    · obtain ⟨e0, he0⟩ := Option.ne_none_iff_exists'.mp hnil
      simp [Error, he0]
    · simp
    · intro h0; exact absurd h0 hnil

/-- Witness of C5: item 0 with the linked duplicate 1, neither with an error. -/
theorem setErr_first_error_sticks_witness :
    (Error exHeap 0 = none ∧ (exHeap 0).linked = [1]) ∧
    ∃ h1 h2, setErr exHeap 0 (some "first") = .ok h1 ∧ setErr h1 0 (some "second") = .ok h2 ∧
      Error h2 0 = some ((Error exHeap 0).getD "first") ∧ (h2 0).linked = (exHeap 0).linked ∧
      (Error exHeap 0 = none → ∀ c ∈ (exHeap 0).linked, Error h2 c = some "first") ∧
      (∀ j, Error h2 j = Error h1 j) :=
  ⟨⟨by decide, by decide⟩, setErr_first_error_sticks exHeap 0 "first" "second" (by decide)⟩

/-- C6: let the items linked to the representative `r` mirror its error.
After each call of any sequence of `link` and `setErr` calls on `r` that
returns, every item in the linked list of `r` has the error of `r`.  And the
sequence does return, whatever the interleaving, when the children linked are
distinct items other than `r`, not linked to it yet, each passing the check of
`link` (no stream, no state, nothing linked, no error) with its completion
signal pending. -/
theorem link_setErr_keep_errors_mirrored (h : Heap) (r : Nat) (hm : errMirrored h r) :
    (∀ cs ds h', applyCalls r h (cs ++ ds) = .ok h' →
      ∃ h1, applyCalls r h cs = .ok h1 ∧ errMirrored h1 r) ∧
    (∀ cs, r ∉ (h r).linked → (linkTargets cs).Nodup →
      (∀ c ∈ linkTargets cs, c ≠ r ∧ c ∉ (h r).linked ∧ linkable h c) →
      ∀ n, ∃ h1, applyCalls r h (cs.take n) = .ok h1 ∧ errMirrored h1 r) := by
  have key : ∀ cs ds h', applyCalls r h (cs ++ ds) = .ok h' →
      ∃ h1, applyCalls r h cs = .ok h1 ∧ errMirrored h1 r := by
    intro cs ds h' hrun
    obtain ⟨h1, hcs, _⟩ := applyCalls_append hrun
    exact ⟨h1, hcs, applyCalls_errMirrored hcs hm⟩
  refine ⟨key, fun cs hself hnd hpre n => ?_⟩
  obtain ⟨h', hrun⟩ := applyCalls_total r cs h hself hnd hpre
  rw [← List.take_append_drop n cs] at hrun
  exact key _ _ h' hrun

/-- Witness of C6: on item 0 of the example heap, to which item 1 is linked,
the calls `link(2)`, `setErr("e")`, `link(3)`; the state after the first two. -/
theorem link_setErr_keep_errors_mirrored_witness :
    (errMirrored exHeap 0 ∧ linkTargets [.link 2, .setErr "e", .link 3] = [2, 3]) ∧
    ∃ h1, applyCalls 0 exHeap [.link 2, .setErr "e"] = .ok h1 ∧ errMirrored h1 0 :=
  ⟨⟨by decide, rfl⟩,
    (link_setErr_keep_errors_mirrored exHeap 0 (by decide)).2 [.link 2, .setErr "e", .link 3]
      (by decide) (by decide) (by decide) 2⟩

/-- C1 (the code does not do this): `PushFile("a", "/a")` and
`PushFile("b", "/a")` are deduplicated, item 1 being linked to item 0 before
item 0 is hashed.  When `HashFile` fails, `calcDigest` releases item 0 and
gives item 1 the error, but the completion signal of item 1 is still pending;
the same happens when the pool runs the on-cancel closure of item 0. -/
theorem failed_hash_leaves_duplicate_waiting :
    (∃ a, run (fun _ => .error "boom") New
        [.PushFile "a" "/a", .PushFile "b" "/a", .stage1Dedupe, .stage1Dedupe, .stage2Hash,
         .hashJob 0] = .ok a ∧
      (a.items 0).linked = [1] ∧ hashedReleased a.items 0 ∧ Error a.items 1 = some "boom" ∧
      (a.items 1).wgHashed = 1 ∧ ¬ hashedReleased a.items 1) ∧
    (∃ a, run (fun _ => .error "boom") New
        [.PushFile "a" "/a", .PushFile "b" "/a", .stage1Dedupe, .stage1Dedupe, .stage2Hash,
         .Cancel "stop", .hashCanceled 0] = .ok a ∧
      (a.items 0).linked = [1] ∧ hashedReleased a.items 0 ∧ Error a.items 1 = some "stop" ∧
      (a.items 1).wgHashed = 1 ∧ ¬ hashedReleased a.items 1) :=
  ⟨⟨_, rfl, by decide, by decide, by decide, by decide, by decide⟩,
   ⟨_, rfl, by decide, by decide, by decide, by decide, by decide⟩⟩

/-- C8: for a batch of `n` distinct items and a successful `Contains` reply
with one result per item, `doContains` returns; it appends to the hit list
exactly the sizes of the items whose result is nil, in batch order, and sends
to the upload channel exactly the items whose result is non-nil, in batch
order, each with that result stored as its state; no item is both a hit and
forwarded, and hits plus forwarded items equals `n`. -/
theorem doContains_hits_and_misses (a : archiver) (items : List Nat)
    (states : List (Option PushState)) (hnd : items.Nodup)
    (hlen : states.length = items.length) :
    ∃ a', doContains a items (.ok states) = .ok a' ∧
      a'.stats.Hits = a.stats.Hits ++ lookupHits a.items (items.zip states) ∧
      a'.stage4UploadChan = a.stage4UploadChan ++ lookupMisses (items.zip states) ∧
      (∀ p ∈ items.zip states, p.2 ≠ none → (a'.items p.1).state = p.2) ∧
      (∀ i ∈ lookupHitItems (items.zip states), i ∉ lookupMisses (items.zip states)) ∧
      (lookupHits a.items (items.zip states)).length +
        (lookupMisses (items.zip states)).length = items.length := by
  obtain ⟨a', hrun, hh, _, hc, _, _, _, hst, _⟩ :=
    doContainsStates_spec items hnd states 0 items
      (progressUpdate a groupLookup groupLookupDone items.length) rfl hlen.symm
  refine ⟨a', hrun, hh, hc, hst, ?_, ?_⟩
  · intro i hi hm
    simp only [lookupHitItems, lookupMisses, List.mem_map, List.mem_filter] at hi hm
    obtain ⟨p, ⟨hp, hpn⟩, rfl⟩ := hi
    obtain ⟨q, ⟨hq, hqs⟩, hqp⟩ := hm
    have hq' : (p.1, q.2) ∈ items.zip states := by rw [← hqp]; exact hq
    have := zip_snd_unique items states p.1 p.2 q.2 hnd hp hq'
    rw [this] at hpn
    cases hq2 : q.2 with
    | none => simp [hq2] at hqs
    | some s => simp [hq2] at hpn
  · simp only [lookupHits, lookupMisses, List.length_map]
    rw [filter_isNone_isSome_length, List.length_zip, hlen, Nat.min_self]

/-- Witness of C8: the batch of items 0 and 1 of the example archiver, the
first present on the server, the second missing. -/
theorem doContains_hits_and_misses_witness :
    ∃ a', doContains exHashed [0, 1] (.ok [none, some { token := 7 }]) = .ok a' ∧
      a'.stats.Hits = exHashed.stats.Hits ++
        lookupHits exHashed.items ([0, 1].zip [none, some { token := 7 }]) ∧
      a'.stage4UploadChan = exHashed.stage4UploadChan ++
        lookupMisses ([0, 1].zip [none, some { token := 7 }]) ∧
      (∀ p ∈ [0, 1].zip [none, some ({ token := 7 } : PushState)], p.2 ≠ none →
        (a'.items p.1).state = p.2) ∧
      (∀ i ∈ lookupHitItems ([0, 1].zip [none, some ({ token := 7 } : PushState)]),
        i ∉ lookupMisses ([0, 1].zip [none, some ({ token := 7 } : PushState)])) ∧
      (lookupHits exHashed.items ([0, 1].zip [none, some { token := 7 }])).length +
        (lookupMisses ([0, 1].zip [none, some ({ token := 7 } : PushState)])).length
          = [0, 1].length :=
  doContains_hits_and_misses exHashed [0, 1] [none, some { token := 7 }] (by decide) rfl

/-- C10: when `Contains` returns an error for a batch of `n` items (none of
them linked to itself), `doContains` returns; the Canceler was given the
wrapped error "contains(n) failed: ..." (it keeps an earlier reason if it had
one), every item of the batch that had no error has that wrapped error, the
hit list and the upload records are unchanged and nothing was sent to the
upload channel. -/
theorem doContains_failure_fails_batch (a : archiver) (items : List Nat) (err : String)
    (hself : ∀ i ∈ items, i ∉ (a.items i).linked) :
    ∃ a', doContains a items (.error err) = .ok a' ∧
      a'.canceler = (Cancel a (containsErr items.length err)).canceler ∧
      a'.canceler = some (a.canceler.getD (containsErr items.length err)) ∧
      (∀ i ∈ items, Error a.items i = none →
        Error a'.items i = some (containsErr items.length err)) ∧
      a'.stats = a.stats ∧ a'.stage4UploadChan = a.stage4UploadChan := by
  have hitems : (Cancel a (containsErr items.length err)).items = a.items := by
    unfold Cancel; split <;> rfl
  obtain ⟨h', hs⟩ := setErrAll_total (containsErr items.length err) items a.items hself
  obtain ⟨ho, hne⟩ := setErrAll_errOnly _ _ _ _ hs
  refine ⟨{ (Cancel a (containsErr items.length err)) with items := h' }, ?_, rfl, ?_, ?_, ?_, ?_⟩
  · simp only [doContains, hitems, hs]
  · simp only [Cancel]
    cases hc : a.canceler <;> simp [hc]
  · intro i hi hnil
    have h1 := (ho i).2.1
    simp only [Error] at hnil ⊢
    rcases h1 with h1 | h1
    · exact absurd (h1.trans hnil) (hne i hi)
    · exact h1
  · simp only [Cancel]; split <;> rfl
  · simp only [Cancel]; split <;> rfl

/-- Witness of C10: the batch of items 0 and 1 of the example archiver. -/
theorem doContains_failure_fails_batch_witness :
    ∃ a', doContains exHashed [0, 1] (.error "down") = .ok a' ∧
      a'.canceler = (Cancel exHashed (containsErr [0, 1].length "down")).canceler ∧
      a'.canceler = some (exHashed.canceler.getD (containsErr [0, 1].length "down")) ∧
      (∀ i ∈ [0, 1], Error exHashed.items i = none →
        Error a'.items i = some (containsErr [0, 1].length "down")) ∧
      a'.stats = exHashed.stats ∧ a'.stage4UploadChan = exHashed.stage4UploadChan :=
  doContains_failure_fails_batch exHashed [0, 1] "down" (by decide)

/-- C9 (amended): `doUpload` on an item that is not linked to itself returns.
When the item has a stream, or `os.Open` of its path succeeds, exactly one
`Push` call is made, with the item's state and that source, and exactly one
upload record with the elapsed time, the item's size and its display name is
appended, whether `Push` succeeds or fails.  When the item has no stream and
`os.Open` fails, no `Push` call is made and no upload record is appended; the
Canceler is given the error of `os.Open`, and so is the item if it had none.
The hit list is never changed. -/
theorem doUpload_push_and_record (a : archiver) (item : Nat) (openErr pushErr : error)
    (elapsed : Nat) (hself : item ∉ (a.items item).linked) :
    ∃ a', doUpload a item openErr pushErr elapsed = .ok a' ∧ a'.stats.Hits = a.stats.Hits ∧
      (if (a.items item).src = none ∧ openErr ≠ none then
        a'.isPush = a.isPush ∧ a'.stats.Pushed = a.stats.Pushed ∧
        a'.canceler = some (a.canceler.getD (fmtErr openErr)) ∧
        (Error a.items item = none → Error a'.items item = openErr)
      else
        a'.isPush = a.isPush ++ [{ state := (a.items item).state, src := uploadSrc (a.items item) }] ∧
        a'.stats.Pushed = a.stats.Pushed ++
          [{ Duration := elapsed, Size := (a.items item).digestItem.Size,
             Name := (a.items item).displayName }]) := by
  have hcan : ∀ (b : archiver) (e : String), (Cancel b e).items = b.items ∧
      (Cancel b e).stats = b.stats ∧ (Cancel b e).isPush = b.isPush ∧
      (Cancel b e).canceler = some (b.canceler.getD e) := by
    intro b e
    unfold Cancel
    cases hc : b.canceler <;> simp [hc]
  unfold doUpload
  cases hsrc : (a.items item).src with
  | none =>
    cases hopen : openErr with
    | some err =>
      obtain ⟨h', hs⟩ := setErr_total (Cancel a err).items item err (by rw [(hcan a err).1]; exact hself)
      refine ⟨{ (Cancel a err) with items := h' }, by simp only [hs], ?_, ?_⟩
      · simp [(hcan a err).2.1]
      · simp only [(hcan a err).2.1, (hcan a err).2.2.1, (hcan a err).2.2.2, fmtErr, ne_eq,
          reduceCtorEq, not_false_eq_true, and_self, if_true, true_and]
        intro hnil
        rw [(hcan a err).1] at hs
        have h1 := ((setErr_errOnly hs).1 item).2.1
        simp only [Error] at hnil ⊢
        rcases h1 with h1 | h1
        · exact absurd (h1.trans hnil) (setErr_errOnly hs).2
        · exact h1
    | none =>
      cases hpush : pushErr with
      | some err =>
        simp only [uploadSrc, hsrc]
        obtain ⟨h', hs⟩ := setErr_total a.items item
          ("push(" ++ (a.items item).path ++ ") failed: " ++ err ++ "\n") hself
        have hd := ((setErr_errOnly hs).1 item).1
        simp only [(hcan _ _).1, hs]
        refine ⟨_, rfl, ?_, ?_⟩
        · simp [(hcan _ _).2.1]
        · simp only [(hcan _ _).2.1, (hcan _ _).2.2.1, DisplayName]
          rw [hd]
          simp
      | none =>
        simp only [uploadSrc, hsrc]
        refine ⟨_, rfl, ?_, ?_⟩
        · simp [progressUpdate]
        · simp [progressUpdate, DisplayName]
  | some r =>
    have hself' : item ∉ ((Function.update a.items item
        { a.items item with src := none }) item).linked := by simpa using hself
    cases hpush : pushErr with
    | some err =>
      simp only [uploadSrc, hsrc]
      obtain ⟨h', hs⟩ := setErr_total _ item
        ("push(" ++ (a.items item).path ++ ") failed: " ++ err ++ "\n") hself'
      have hd := ((setErr_errOnly hs).1 item).1
      simp only [(hcan _ _).1, Function.update_same, hs]
      refine ⟨_, rfl, ?_, ?_⟩
      · simp [(hcan _ _).2.1]
      · simp only [(hcan _ _).2.1, (hcan _ _).2.2.1, DisplayName]
        rw [hd]
        simp
    | none =>
      simp only [uploadSrc, hsrc]
      refine ⟨_, rfl, ?_, ?_⟩
      · simp [progressUpdate]
      · simp [progressUpdate, DisplayName]

/-- Witness of C9 (amended): item 1 of the example archiver after lookup, with
a `Push` that fails. -/
theorem doUpload_push_and_record_witness :
    ∃ a', doUpload exLooked 1 none (some "refused") 5 = .ok a' ∧
      a'.stats.Hits = exLooked.stats.Hits ∧
      (if (exLooked.items 1).src = none ∧ (none : error) ≠ none then
        a'.isPush = exLooked.isPush ∧ a'.stats.Pushed = exLooked.stats.Pushed ∧
        a'.canceler = some (exLooked.canceler.getD (fmtErr none)) ∧
        (Error exLooked.items 1 = none → Error a'.items 1 = none)
      else
        a'.isPush = exLooked.isPush ++
          [{ state := (exLooked.items 1).state, src := uploadSrc (exLooked.items 1) }] ∧
        a'.stats.Pushed = exLooked.stats.Pushed ++
          [{ Duration := 5, Size := (exLooked.items 1).digestItem.Size,
             Name := (exLooked.items 1).displayName }]) :=
  doUpload_push_and_record exLooked 1 none (some "refused") 5 (by decide)

/-- C9 as stated fails: item 1 of the example archiver reached the upload
stage with the token 7, but its file cannot be opened; `doUpload` returns
having made no `Push` call and appended no upload record. -/
theorem doUpload_open_failure_no_push_no_record :
    exLooked.stage4UploadChan = [1] ∧ (exLooked.items 1).state = some { token := 7 } ∧
    ∃ a', doUpload exLooked 1 (some "open /b: no such file") none 5 = .ok a' ∧
      a'.isPush = [] ∧ a'.stats.Pushed = [] ∧ Error a'.items 1 = some "open /b: no such file" :=
  ⟨by decide, by decide, _, rfl, by decide, by decide, by decide⟩

/-- C2 (amended): let item `j` be allocated and released (`WaitForHashed`
returns), and carry the error of every item it is linked to (what `link` and
`setErr` maintain).  Then no step of the pipeline that returns (an event of the front
half, a `setErr`, a `doContains` task whatever the reply, a `doUpload` task
whatever the results) changes `Digest()` of `j`, and none changes `Error()` of
`j` once it is non-nil. -/
theorem released_digest_stable_error_sticky (HashFile : String → Except String DigestItem)
    (a a' : archiver) (s : PipelineStep) (j : Nat) (hj : j < a.nextItem)
    (hrel : hashedReleased a.items j) (hm : mirrorsRep a.items j)
    (hstep : pipelineStep HashFile a s = .ok a') :
    Digest a'.items j = Digest a.items j ∧
      (Error a.items j ≠ none → Error a'.items j = Error a.items j) := by
  have key : (a'.items j).digestItem = (a.items j).digestItem ∧
      ((a.items j).err ≠ none → (a'.items j).err = (a.items j).err) := by
    cases s with
    | event e => exact step_released hstep j hj hrel hm
    | setErr i err =>
      simp only [pipelineStep] at hstep
      cases hs : setErr a.items i (some err) with
      | error f => simp [hs] at hstep
      | ok h1 =>
        simp only [hs, Except.ok.injEq] at hstep
        subst hstep
        obtain ⟨x, _, z⟩ := setErr_stable hs j hm
        exact ⟨x, z⟩
    | doContains items reply => exact doContains_stable hstep j hm
    | doUpload item openErr pushErr elapsed => exact doUpload_stable hstep j hm
  exact ⟨by simp only [Digest]; rw [key.1], key.2⟩

/-- Witness of C2 (amended): item 0 of the example archiver after a failed
lookup, and a later `setErr` on it. -/
theorem released_digest_stable_error_sticky_witness :
    (0 < exFailed.nextItem ∧ hashedReleased exFailed.items 0 ∧ Error exFailed.items 0 ≠ none) ∧
    ∃ a', pipelineStep (fun _ => .error "boom") exFailed (.setErr 0 "later") = .ok a' ∧
      Digest a'.items 0 = Digest exFailed.items 0 ∧
      (Error exFailed.items 0 ≠ none → Error a'.items 0 = Error exFailed.items 0) :=
  ⟨⟨by decide, by decide, by decide⟩, _, rfl,
    released_digest_stable_error_sticky (fun _ => .error "boom") exFailed _ (.setErr 0 "later") 0
      (by decide) (by decide)
      (fun r hr => by
        have hl : (exFailed.items r).linked = [] := by
          simp only [exFailed, exHashed, newArchiverItem, zeroItem]
          split <;> split <;> (try split) <;> rfl
        rw [hl] at hr
        cases hr)
      rfl⟩

/-- C2 as stated fails: item 0 of the example archiver is hashed and released
with no error; a later lookup failure in `doContains` changes its `Error()`. -/
theorem lookup_failure_changes_error_after_release :
    hashedReleased exHashed.items 0 ∧ Error exHashed.items 0 = none ∧
    ∃ a', doContains exHashed [0, 1] (.error "down") = .ok a' ∧
      Error a'.items 0 = some "contains(2) failed: down" ∧
      Error a'.items 0 ≠ Error exHashed.items 0 :=
  ⟨by decide, by decide, _, rfl, by decide, by decide⟩

/-- C3: in every state reached from `New` in which the Canceler is not
tripped (it never was, since it keeps its reason), the items sent to the hash
channel are, in submission order, exactly the processed items that are the
first with their path or have the empty path; their number is the number of
distinct non-empty paths plus the number of empty-path items; every other
processed item is in the linked list of the first item with its path, which
was forwarded; and from there the dedupe loop can take any number of further
steps, each of which returns. -/
theorem dedupe_forwards_first_of_each_path (HashFile : String → Except String DigestItem)
    (evs : List Event) (a : archiver) (hrun : run HashFile New evs = .ok a)
    (hcan : a.canceler = none) :
    a.stage2HashChan = expectedForwarded (fun i => (a.items i).path) (processed a) ∧
    a.stage2HashChan.length = distinctPaths (fun i => (a.items i).path) (processed a) +
      ((processed a).filter (fun i => decide ((a.items i).path = ""))).length ∧
    (∀ i ∈ processed a, i ∉ a.stage2HashChan →
      ∃ r, firstWithPath (fun i => (a.items i).path) (processed a) (a.items i).path = some r ∧
        r ∈ a.stage2HashChan ∧ i ∈ (a.items r).linked) ∧
    ∀ m, ∃ a', run HashFile a (List.replicate m .stage1Dedupe) = .ok a' := by
  have hI := reachable_Inv hrun
  refine ⟨hI.forwarded hcan, ?_, fun i hi hq => ?_, fun m => dedupe_total HashFile m evs a hrun⟩
  · rw [hI.forwarded hcan]
    exact expectedForwarded_length _ _ hI.processed_nodup
  · obtain ⟨r, h1, h2, h3, _⟩ := hI.linked_to_first hcan hi hq
    exact ⟨r, h1, h2, h3⟩

/-- C4: in every state reached from `New` in which the Canceler is not
tripped (so every `calcDigest` so far returned nil), `calcDigest` was called
at most once per item, only on forwarded items, and on at most one item per
non-empty path; once the hash stage has drained, on exactly one item for each
non-empty path of a processed item; and every processed item with a non-empty
path whose representative (the first item with that path) was hashed reports
the representative's `Digest()`, in whatever order linking and hashing came. -/
theorem one_hash_per_path_same_digest (HashFile : String → Except String DigestItem)
    (evs : List Event) (a : archiver) (hrun : run HashFile New evs = .ok a)
    (hcan : a.canceler = none) :
    a.hashed.Nodup ∧ (∀ r ∈ a.hashed, r ∈ a.stage2HashChan) ∧
    (∀ p, p ≠ "" → (a.hashed.filter (fun r => decide ((a.items r).path = p))).length ≤ 1) ∧
    (a.stage2Recv = a.stage2HashChan.length → a.hashPool = [] →
      ∀ i ∈ processed a, (a.items i).path ≠ "" →
        (a.hashed.filter (fun r => decide ((a.items r).path = (a.items i).path))).length = 1) ∧
    (∀ i ∈ processed a, (a.items i).path ≠ "" →
      ∀ r, firstWithPath (fun i => (a.items i).path) (processed a) (a.items i).path = some r →
        r ∈ a.hashed → Digest a.items i = Digest a.items r) := by
  have hI := reachable_Inv hrun
  have hnd : a.hashed.Nodup := (List.nodup_append.mp hI.work_nodup).1
  have hsub : ∀ r ∈ a.hashed, r ∈ a.stage2HashChan :=
    fun r hr => hI.work_sub r (List.mem_append_left _ hr)
  have hle : ∀ p, p ≠ "" →
      (a.hashed.filter (fun r => decide ((a.items r).path = p))).length ≤ 1 := by
    intro p hp
    apply filter_length_le_one hnd
    intro x hx y hy hpx hpy
    simp only [decide_eq_true_eq] at hpx hpy
    have h1 := hI.chan2_first hcan (hsub x hx) (by show (a.items x).path ≠ ""; rw [hpx]; exact hp)
    have h2 := hI.chan2_first hcan (hsub y hy) (by show (a.items y).path ≠ ""; rw [hpy]; exact hp)
    have h1' : firstWithPath (fun i => (a.items i).path) (processed a) p = some x := by
      rw [← hpx]; exact h1
    have h2' : firstWithPath (fun i => (a.items i).path) (processed a) p = some y := by
      rw [← hpy]; exact h2
    rw [h1'] at h2'
    have h2 := h2'
    exact Option.some.inj h2
  refine ⟨hnd, hsub, hle, ?_, ?_⟩
  · intro hdr hpool i hi hp
    apply Nat.le_antisymm (hle _ hp)
    cases hf : firstWithPath (fun i => (a.items i).path) (processed a) (a.items i).path with
    | none => exact absurd rfl (firstWithPath_eq_none.mp hf i hi)
    | some r =>
      obtain ⟨hrp, hrpath⟩ := firstWithPath_mem hf
      have hrpath : (a.items r).path = (a.items i).path := hrpath
      have hrq : r ∈ a.stage2HashChan := by
        rw [hI.forwarded hcan]
        refine List.mem_filter.mpr ⟨hrp, ?_⟩
        simp only [entersHash, hrpath, hf, decide_True, Bool.or_true]
      have hrh : r ∈ a.hashed := by
        have := hI.work_all hcan r hrq
        simp only [hashWork, hpool, hdr, List.drop_length, List.append_nil] at this
        exact this
      have hmem : r ∈ a.hashed.filter (fun r => decide ((a.items r).path = (a.items i).path)) :=
        List.mem_filter.mpr ⟨hrh, by simp [hrpath]⟩
      exact List.length_pos_of_mem hmem
  · intro i hi hp r hf hr
    by_cases hq : i ∈ a.stage2HashChan
    · have := hI.chan2_first hcan hq hp
      have this : firstWithPath (fun i => (a.items i).path) (processed a) (a.items i).path =
          some i := this
      rw [hf] at this
      rw [Option.some.inj this]
    · obtain ⟨r', h1, _, h3, _⟩ := hI.linked_to_first hcan hi hq
      have h1 : firstWithPath (fun i => (a.items i).path) (processed a) (a.items i).path =
          some r' := h1
      rw [hf] at h1
      cases h1
      exact hI.hashed_digest hcan r hr i h3

/-- C7: let the Canceler hold the reason `e` in a state `a1` reached from
`New`, and let the pipeline run on to `a2`.  Every item the dedupe loop
processed in between has `Error()` equal to `e` and its completion signal
released (its counter, 1 while it was queued, is 0; a second `Done` would
panic); it was not sent to the hash channel, is not the representative of any
path, and is linked to no item.  From `a2` the dedupe loop can take any number
of further steps, each of which returns. -/
theorem cancelled_dedupe_fails_every_item (HashFile : String → Except String DigestItem)
    (evs1 evs2 : List Event) (a1 a2 : archiver) (e : String)
    (h1 : run HashFile New evs1 = .ok a1) (hcan : CancelationReason a1 = some e)
    (h2 : run HashFile a1 evs2 = .ok a2) :
    (processed a2).take a1.stage1Recv = processed a1 ∧
    (∀ i ∈ (processed a2).drop a1.stage1Recv,
      Error a2.items i = some e ∧ hashedReleased a2.items i ∧ i ∉ a2.stage2HashChan ∧
      (∀ p, a2.seen p ≠ some i) ∧ (∀ r, i ∉ (a2.items r).linked) ∧
      (i ∈ a1.stage1DedupeChan → Error a1.items i = none ∧ (a1.items i).wgHashed = 1)) ∧
    ∀ m, ∃ a3, run HashFile a2 (List.replicate m .stage1Dedupe) = .ok a3 := by
  have h12 : run HashFile New (evs1 ++ evs2) = .ok a2 := by
    rw [run_append HashFile evs1 evs2 New a1 h1]; exact h2
  obtain ⟨n2, p2, _⟩ := run_paths evs2 a1 a2 h2
  have hI1 : Inv (fun i => (a2.items i).path) a1 :=
    run_Inv evs1 New a1 h1 (Inv_New _) (fun i hi => (p2 i hi).symm)
  have hI2 : Inv (fun i => (a2.items i).path) a2 := run_Inv evs2 a1 a2 h2 hI1 (fun _ _ => rfl)
  obtain ⟨_, t, ht, htR⟩ := run_rejects evs2 a1 a2 h2 hI1 (fun _ _ => rfl) hcan
  have hlen := hI1.processed_length
  have hdrop : (processed a2).drop a1.stage1Recv = t := by
    rw [ht, ← hlen]; exact List.drop_left' rfl
  refine ⟨by rw [ht, ← hlen]; exact List.take_left' rfl, fun i hi => ?_,
    fun m => dedupe_total HashFile m _ a2 h12⟩
  rw [hdrop] at hi
  obtain ⟨r1, r2, r3, r4, r5, _⟩ := htR i hi
  refine ⟨r2, r3, r4, fun p hp => r4 (hI2.seen_sound p i hp).1, r5, fun hq => ?_⟩
  have hnd := hI2.processed_nodup
  rw [ht] at hnd
  have hnp : i ∉ processed a1 := fun h => (List.nodup_append.mp hnd).2.2 h hi
  rcases mem_take_or_drop a1.stage1Recv hq with h | h
  · exact absurd h hnp
  · exact ⟨(hI1.fresh i h).1, (hI1.fresh i h).2.1⟩

/-- Witness of C3: the example schedule; items 0, 2 and 3 are forwarded,
items 1 and 4 are linked to item 0. -/
theorem dedupe_forwards_first_of_each_path_witness :
    ∃ a, run exHashFile New exSchedule = .ok a ∧ a.canceler = none ∧
      a.stage2HashChan = [0, 2, 3] ∧ (a.items 0).linked = [1, 4] ∧
      (a.stage2HashChan = expectedForwarded (fun i => (a.items i).path) (processed a) ∧
      a.stage2HashChan.length = distinctPaths (fun i => (a.items i).path) (processed a) +
        ((processed a).filter (fun i => decide ((a.items i).path = ""))).length ∧
      (∀ i ∈ processed a, i ∉ a.stage2HashChan →
        ∃ r, firstWithPath (fun i => (a.items i).path) (processed a) (a.items i).path = some r ∧
          r ∈ a.stage2HashChan ∧ i ∈ (a.items r).linked) ∧
      ∀ m, ∃ a', run exHashFile a (List.replicate m .stage1Dedupe) = .ok a') :=
  ⟨_, rfl, rfl, by decide, by decide,
    dedupe_forwards_first_of_each_path exHashFile exSchedule _ rfl rfl⟩

/-- Witness of C4: the example schedule; item 1 was linked to item 0 before
item 0 was hashed, item 4 after, and both report its digest. -/
theorem one_hash_per_path_same_digest_witness :
    ∃ a, run exHashFile New exSchedule = .ok a ∧ a.canceler = none ∧
      a.hashed = [0, 2, 3] ∧ Digest a.items 0 = "h:/a" ∧ Digest a.items 1 = "h:/a" ∧
      Digest a.items 4 = "h:/a" ∧
      (a.hashed.Nodup ∧ (∀ r ∈ a.hashed, r ∈ a.stage2HashChan) ∧
      (∀ p, p ≠ "" → (a.hashed.filter (fun r => decide ((a.items r).path = p))).length ≤ 1) ∧
      (a.stage2Recv = a.stage2HashChan.length → a.hashPool = [] →
        ∀ i ∈ processed a, (a.items i).path ≠ "" →
          (a.hashed.filter (fun r => decide ((a.items r).path = (a.items i).path))).length = 1) ∧
      (∀ i ∈ processed a, (a.items i).path ≠ "" →
        ∀ r, firstWithPath (fun i => (a.items i).path) (processed a) (a.items i).path = some r →
          r ∈ a.hashed → Digest a.items i = Digest a.items r)) :=
  ⟨_, rfl, rfl, by decide, by decide, by decide, by decide,
    one_hash_per_path_same_digest exHashFile exSchedule _ rfl rfl⟩

/-- Witness of C7: two items of path "/a" are queued when `Cancel("stop")` is
called; the dedupe loop then processes both. -/
theorem cancelled_dedupe_fails_every_item_witness :
    ∃ a1 a2, run exHashFile New [.PushFile "a" "/a", .PushFile "b" "/a", .Cancel "stop"] = .ok a1 ∧
      CancelationReason a1 = some "stop" ∧
      run exHashFile a1 [.stage1Dedupe, .stage1Dedupe] = .ok a2 ∧
      (processed a2).drop a1.stage1Recv = [0, 1] ∧
      ((processed a2).take a1.stage1Recv = processed a1 ∧
      (∀ i ∈ (processed a2).drop a1.stage1Recv,
        Error a2.items i = some "stop" ∧ hashedReleased a2.items i ∧ i ∉ a2.stage2HashChan ∧
        (∀ p, a2.seen p ≠ some i) ∧ (∀ r, i ∉ (a2.items r).linked) ∧
        (i ∈ a1.stage1DedupeChan → Error a1.items i = none ∧ (a1.items i).wgHashed = 1)) ∧
      ∀ m, ∃ a3, run exHashFile a2 (List.replicate m .stage1Dedupe) = .ok a3) :=
  ⟨_, _, rfl, rfl, rfl, by decide,
    cancelled_dedupe_fails_every_item exHashFile
      [.PushFile "a" "/a", .PushFile "b" "/a", .Cancel "stop"] [.stage1Dedupe, .stage1Dedupe]
      _ _ "stop" rfl rfl rfl⟩

/-! ## Claims on cancellation, batching, statistics and the public calls -/

theorem setErr_Done_sets (h : Heap) (i : Nat) (e : String) (hnil : (h i).err = none)
    (hself : i ∉ (h i).linked) (hwg : (h i).wgHashed ≠ 0) :
    ∃ h1 h2, setErr h i (some e) = .ok h1 ∧ Done h1 i = .ok h2 ∧ (h2 i).err = some e := by
  refine ⟨setErrFresh h i e, Function.update (setErrFresh h i e) i
    { setErrFresh h i e i with wgHashed := (setErrFresh h i e i).wgHashed - 1 },
    setErr_fresh h i e hnil hself, ?_, ?_⟩
  · simp only [Done, wgDone, setErrFresh, if_true, hwg, if_false]
  · simp [setErrFresh]

theorem Cancel_tripped (a : archiver) (e : String) (hc : a.canceler ≠ none) : Cancel a e = a := by
  unfold Cancel
  split
  · rfl
  · rename_i h; exact absurd h hc

/-- After `setErr(e)` on every item of a batch, an item of the batch that had
no error has the error `e`. -/
theorem setErrAll_sets (e : String) (items : List Nat) (h h' : Heap)
    (hs : setErrAll (some e) items h = .ok h') (i : Nat) (hi : i ∈ items)
    (hnil : (h i).err = none) : (h' i).err = some e := by
  obtain ⟨ho, hne⟩ := setErrAll_errOnly e items h h' hs
  rcases (ho i).2.1 with h1 | h1
  · exact absurd (h1.trans hnil) (hne i hi)
  · exact h1

/-- C11 (amended): let the Canceler hold `e0` and let `item` have no error
(and not be linked to itself).  The dedupe loop and the on-cancel closure of
the hash pool fail it with `e0`.  A failing `calcDigest` fails it with the
error of `HashFile` or of reading the stream, a failing lookup with the wrapped
error "contains(n) failed: ...", a failing upload with the error of `os.Open`
or the wrapped error "push(path) failed: ...": each stage's own error, not
`e0`.  The Canceler keeps `e0` throughout. -/
theorem failed_item_error_after_cancel (HashFile : String → Except String DigestItem)
    (a : archiver) (item : Nat) (e0 : String) (hc : CancelationReason a = some e0)
    (hnil : Error a.items item = none) (hself : item ∉ (a.items item).linked) :
    ((a.items item).wgHashed ≠ 0 →
      (∃ a', stage1DedupeBody a item = .ok a' ∧ Error a'.items item = some e0 ∧
        CancelationReason a' = some e0) ∧
      (∃ a', stage2HashCanceled a item = .ok a' ∧ Error a'.items item = some e0 ∧
        CancelationReason a' = some e0) ∧
      (∀ err, (a.items item).path ≠ "" → HashFile (a.items item).path = .error err →
        ∃ a', stage2HashJob HashFile a item = .ok a' ∧ Error a'.items item = some err ∧
          CancelationReason a' = some e0) ∧
      (∀ src err, (a.items item).path = "" → (a.items item).src = some src →
        src.copyErr = some err →
        ∃ a', stage2HashJob HashFile a item = .ok a' ∧ Error a'.items item = some err ∧
          CancelationReason a' = some e0)) ∧
    (∀ items err, item ∈ items → (∀ i ∈ items, i ∉ (a.items i).linked) →
      ∃ a', doContains a items (.error err) = .ok a' ∧
        Error a'.items item = some (containsErr items.length err) ∧
        CancelationReason a' = some e0) ∧
    (∀ err pushErr elapsed, (a.items item).src = none →
      ∃ a', doUpload a item (some err) pushErr elapsed = .ok a' ∧
        Error a'.items item = some err ∧ CancelationReason a' = some e0) ∧
    (∀ openErr err elapsed, ((a.items item).src ≠ none ∨ openErr = none) →
      ∃ a', doUpload a item openErr (some err) elapsed = .ok a' ∧
        Error a'.items item = some ("push(" ++ (a.items item).path ++ ") failed: " ++ err ++ "\n") ∧
        CancelationReason a' = some e0) := by
  have hc' : a.canceler = some e0 := hc
  have hnil' : (a.items item).err = none := hnil
  have hct : ∀ (b : archiver) (e : String), b.canceler = a.canceler → Cancel b e = b :=
    fun b e hb => Cancel_tripped b e (by rw [hb, hc']; simp)
  refine ⟨fun hwg => ⟨?_, ?_, ?_, ?_⟩, ?_, ?_, ?_⟩
  · obtain ⟨h1, h2, e1, e2, e3⟩ := setErr_Done_sets a.items item e0 hnil' hself hwg
    refine ⟨{ a with items := h2 }, ?_, e3, hc⟩
    simp only [stage1DedupeBody, CancelationReason, hc', ne_eq, reduceCtorEq, not_false_eq_true,
      if_true, e1, e2]
  · obtain ⟨h1, h2, e1, e2, e3⟩ := setErr_Done_sets a.items item e0 hnil' hself hwg
    refine ⟨{ a with items := h2 }, ?_, e3, hc⟩
    simp only [stage2HashCanceled, CancelationReason, hc', e1, e2]
  · intro err hp hf
    obtain ⟨h1, h2, e1, e2, e3⟩ := setErr_Done_sets a.items item err hnil' hself hwg
    refine ⟨{ a with items := h2 }, ?_, e3, hc⟩
    simp only [stage2HashJob, calcDigest, hp, ne_eq, not_false_eq_true, if_true, hf,
      calcDigestFail, e1, e2]
    exact congrArg Except.ok (hct _ _ rfl)
  · intro src err hp hsrc hcopy
    obtain ⟨h1, h2, e1, e2, e3⟩ := setErr_Done_sets a.items item err hnil' hself hwg
    refine ⟨{ a with items := h2 }, ?_, e3, hc⟩
    simp only [stage2HashJob, calcDigest, hp, ne_eq, not_true_eq_false, if_false, hsrc, hcopy,
      calcDigestFail, e1, e2]
    exact congrArg Except.ok (hct _ _ rfl)
  · intro items err hi hselfs
    obtain ⟨h', hs⟩ := setErrAll_total (containsErr items.length err) items a.items hselfs
    refine ⟨{ a with items := h' }, ?_, setErrAll_sets _ items a.items h' hs item hi hnil', hc⟩
    simp only [doContains, hct a _ rfl, hs]
  · intro err pushErr elapsed hsrc
    refine ⟨{ a with items := setErrFresh a.items item err }, ?_, by simp [Error, setErrFresh], hc⟩
    simp only [doUpload, hsrc, hct a _ rfl, setErr_fresh a.items item err hnil' hself]
  · intro openErr err elapsed hor
    cases hsrc : (a.items item).src with
    | none =>
      have hopen : openErr = none := by
        rcases hor with h | h
        · exact absurd hsrc h
        · exact h
      subst hopen
      have hs := setErr_fresh a.items item
        ("push(" ++ (a.items item).path ++ ") failed: " ++ err ++ "\n") hnil' hself
      simp only [doUpload, hsrc, Cancel_tripped, hc', ne_eq, reduceCtorEq, not_false_eq_true, hs]
      exact ⟨_, rfl, by simp [Error, setErrFresh], rfl⟩
    | some r =>
      have hnil2 : ((Function.update a.items item { a.items item with src := none }) item).err
          = none := by simpa using hnil'
      have hself2 : item ∉ ((Function.update a.items item
          { a.items item with src := none }) item).linked := by simpa using hself
      have hs := setErr_fresh _ item
        ("push(" ++ (a.items item).path ++ ") failed: " ++ err ++ "\n") hnil2 hself2
      simp only [Function.update_same] at hs
      simp only [doUpload, hsrc, Cancel_tripped, hc', ne_eq, reduceCtorEq, not_false_eq_true,
        Function.update_same, hs]
      exact ⟨_, rfl, by simp [Error, setErrFresh], rfl⟩

/-- Witness of C11 (amended): item 1 of the example archiver after
`Cancel("stop")`, whose file cannot be opened for the upload. -/
theorem failed_item_error_after_cancel_witness :
    (CancelationReason exCanceled = some "stop" ∧ Error exCanceled.items 1 = none ∧
      1 ∉ (exCanceled.items 1).linked ∧ (exCanceled.items 1).src = none) ∧
    ∃ a', doUpload exCanceled 1 (some "open /b: no such file") none 5 = .ok a' ∧
      Error a'.items 1 = some "open /b: no such file" ∧ CancelationReason a' = some "stop" :=
  ⟨⟨rfl, by decide, by decide, by decide⟩,
    (failed_item_error_after_cancel exHashFile exCanceled 1 "stop" rfl (by decide)
      (by decide)).2.2.1 "open /b: no such file" none 5 (by decide)⟩

/-- C11 as stated fails: the Canceler of the example archiver holds "stop"
when the lookup of items 0 and 1 fails; `doContains` gives both items the
wrapped lookup error, not "stop". -/
theorem lookup_failure_after_cancel_sets_own_error :
    CancelationReason exCanceled = some "stop" ∧ Error exCanceled.items 0 = none ∧
    ∃ a', doContains exCanceled [0, 1] (.error "down") = .ok a' ∧
      CancelationReason a' = some "stop" ∧
      Error a'.items 0 = some "contains(2) failed: down" ∧
      Error a'.items 1 = some "contains(2) failed: down" ∧
      Error a'.items 0 ≠ CancelationReason a' :=
  ⟨rfl, by decide, _, rfl, rfl, by decide, by decide, by decide⟩

/-- The lookup and upload loops schedule their tasks with a nil on-cancel
callback.  So when the Canceler is tripped by the time the pool gets to such a
task, the task is dropped and the state stays as it is: no item's `Error()`
changes, nothing is recorded, forwarded or pushed.  When it is not tripped the
task runs `doContains` or `doUpload`.  Only the task of the hash loop has an
on-cancel closure, which runs `setErr` and `Done` on its item. -/
theorem canceled_lookup_upload_tasks_dropped (HashFile : String → Except String DigestItem)
    (a : archiver) :
    (CancelationReason a ≠ none →
      (∀ batch reply, stage3LookupLoop_task a batch reply = .ok a) ∧
      (∀ item openErr pushErr elapsed,
        stage4UploadLoop_task a item openErr pushErr elapsed = .ok a) ∧
      (∀ item, stage2HashLoop_task HashFile a item = stage2HashCanceled a item)) ∧
    (CancelationReason a = none →
      (∀ batch reply, stage3LookupLoop_task a batch reply = doContains a batch reply) ∧
      (∀ item openErr pushErr elapsed,
        stage4UploadLoop_task a item openErr pushErr elapsed =
          doUpload a item openErr pushErr elapsed) ∧
      (∀ item, stage2HashLoop_task HashFile a item = stage2HashJob HashFile a item)) := by
  constructor
  · intro hc
    refine ⟨fun batch reply => ?_, fun item openErr pushErr elapsed => ?_, fun item => ?_⟩
    · simp only [stage3LookupLoop_task, Schedule, hc, if_false]
    · simp only [stage4UploadLoop_task, Schedule, hc, if_false]
    · simp only [stage2HashLoop_task, Schedule, hc, if_false]
  · intro hc
    refine ⟨fun batch reply => ?_, fun item openErr pushErr elapsed => ?_, fun item => ?_⟩
    · simp only [stage3LookupLoop_task, Schedule, hc, if_true]
    · simp only [stage4UploadLoop_task, Schedule, hc, if_true]
    · simp only [stage2HashLoop_task, Schedule, hc, if_true]

/-- C12 (the code does not do this): the items 0 and 1 of the example
archiver wait for their lookup when `Cancel("stop")` is called.  The lookup
task of their batch, scheduled with a nil on-cancel callback, is dropped:
their `Error()` is still nil afterwards, not the cancellation error, and so it
is for item 1 when its upload task is dropped.  The task of the hash loop,
had item 1 still been in the hash pool, gives it the cancellation error. -/
theorem canceled_lookup_batch_keeps_nil_error :
    exCanceled.stage3LookupChan = [0, 1] ∧ CancelationReason exCanceled = some "stop" ∧
    (∃ a', stage3LookupLoop_task exCanceled [0, 1] (.ok [none, none]) = .ok a' ∧
      Error a'.items 0 = none ∧ Error a'.items 1 = none ∧
      Error a'.items 0 ≠ CancelationReason a' ∧ a'.stats.Hits = []) ∧
    (∃ a', stage4UploadLoop_task exCanceled 1 none none 5 = .ok a' ∧
      Error a'.items 1 = none ∧ a'.isPush = [] ∧ a'.stats.Pushed = []) ∧
    (∃ a', stage2HashLoop_task exHashFile exCanceledHashing 1 = .ok a' ∧
      Error a'.items 1 = some "stop") :=
  ⟨by decide, rfl, ⟨_, rfl, by decide, by decide, by decide, by decide⟩,
    ⟨_, rfl, by decide, by decide, by decide⟩, ⟨_, rfl, by decide⟩⟩

theorem stage3LookupLoop_for_append (a : archiver) (es1 es2 : List LookupEvent) :
    ∀ s, stage3LookupLoop_for a s (es1 ++ es2) =
      stage3LookupLoop_for a (stage3LookupLoop_for a s es1) es2 := by
  induction es1 with
  | nil => intro s; rfl
  | cons e es ih =>
    intro s
    simp only [List.cons_append, stage3LookupLoop_for]
    by_cases hl : s.loop = true
    · simp only [hl, if_true]; exact ih _
    · simp only [hl, Bool.false_eq_true, if_false]
      cases es2 with
      | nil => rfl
      | cons e2 es2 => simp [stage3LookupLoop_for, hl]

/-- While fewer than `containsBatchSize` items are pending, received items
only accumulate, and the timer is armed from the first one on. -/
theorem stage3LookupLoop_for_recv (a : archiver) (xs : List Nat) :
    ∀ s : LookupLoop, s.loop = true → s.items.length + xs.length < a.containsBatchSize →
      stage3LookupLoop_for a s (xs.map .recv) =
        { s with items := s.items ++ xs, timer := s.timer || !xs.isEmpty } := by
  induction xs with
  | nil => intro s _ _; simp [stage3LookupLoop_for]
  | cons x xs ih =>
    intro s hl hlen
    obtain ⟨items, timer, loop, batches⟩ := s
    simp only at hl hlen
    subst hl
    simp only [List.length_cons] at hlen
    have hne : (items ++ [x]).length ≠ a.containsBatchSize := by
      simp only [List.length_append, List.length_singleton]; omega
    have hlen' : (items ++ [x]).length + xs.length < a.containsBatchSize := by
      simp only [List.length_append, List.length_singleton]; omega
    cases timer with
    | false =>
      simp only [List.map_cons, stage3LookupLoop_for, if_true, stage3LookupLoop_select, hne,
        if_false]
      rw [ih { items := items ++ [x], timer := true, loop := true, batches := batches } rfl hlen']
      simp
    | true =>
      simp only [List.map_cons, stage3LookupLoop_for, if_true, stage3LookupLoop_select, hne,
        if_false, Bool.true_eq_false]
      rw [ih { items := items ++ [x], timer := true, loop := true, batches := batches } rfl hlen']
      simp

/-- C13: with `containsBatchSize = N >= 1`.  Fed exactly `N` items and no
timer event, the lookup loop has scheduled exactly one batch, those `N` items
in order; nothing is pending and the timer is not armed, so a timer event
changes nothing and closing the channel schedules nothing more.  Fed `m` items
with `0 < m < N`, it has scheduled nothing and the timer is armed; the timer
event then schedules exactly one batch, those `m` items, and closing the
channel schedules nothing more. -/
theorem lookup_batches_by_size_and_timer (a : archiver) (xs : List Nat) :
    (1 ≤ a.containsBatchSize → xs.length = a.containsBatchSize →
      stage3LookupLoop_for a LookupLoop.start (xs.map .recv) =
        { items := [], timer := false, loop := true, batches := [xs] } ∧
      stage3LookupLoop_for a LookupLoop.start (xs.map .recv ++ [.timer]) =
        { items := [], timer := false, loop := true, batches := [xs] } ∧
      (stage3LookupLoop a (xs.map .recv)).batches = [xs]) ∧
    (0 < xs.length → xs.length < a.containsBatchSize →
      stage3LookupLoop_for a LookupLoop.start (xs.map .recv) =
        { items := xs, timer := true, loop := true, batches := [] } ∧
      stage3LookupLoop_for a LookupLoop.start (xs.map .recv ++ [.timer]) =
        { items := [], timer := false, loop := true, batches := [xs] } ∧
      (stage3LookupLoop a (xs.map .recv ++ [.timer])).batches = [xs]) := by
  constructor
  · intro hN hlen
    have h1 : stage3LookupLoop_for a LookupLoop.start (xs.map .recv) =
        { items := [], timer := false, loop := true, batches := [xs] } := by
      obtain ⟨ys, z, rfl⟩ : ∃ ys z, xs = ys ++ [z] := by
        cases h : xs.reverse with
        | nil =>
          have : xs = [] := by simpa using h
          subst this
          simp at hlen
          omega
        | cons z zs =>
          refine ⟨zs.reverse, z, ?_⟩
          have := congrArg List.reverse h
          simpa using this
      simp only [List.length_append, List.length_singleton] at hlen
      rw [List.map_append, stage3LookupLoop_for_append,
        stage3LookupLoop_for_recv a ys LookupLoop.start rfl (by simp [LookupLoop.start]; omega)]
      simp [stage3LookupLoop_for, stage3LookupLoop_select, LookupLoop.start, hlen]
    refine ⟨h1, ?_, ?_⟩
    · rw [stage3LookupLoop_for_append, h1]
      simp [stage3LookupLoop_for, stage3LookupLoop_select]
    · simp only [stage3LookupLoop]
      rw [stage3LookupLoop_for_append, h1]
      simp [stage3LookupLoop_for, stage3LookupLoop_select, stage3LookupLoop_flush]
  · intro hpos hlt
    have hne : xs ≠ [] := by
      intro h; subst h; simp at hpos
    have h1 : stage3LookupLoop_for a LookupLoop.start (xs.map .recv) =
        { items := xs, timer := true, loop := true, batches := [] } := by
      rw [stage3LookupLoop_for_recv a xs LookupLoop.start rfl (by simp [LookupLoop.start]; omega)]
      simp [LookupLoop.start, hne]
    have h2 : stage3LookupLoop_for a LookupLoop.start (xs.map .recv ++ [.timer]) =
        { items := [], timer := false, loop := true, batches := [xs] } := by
      rw [stage3LookupLoop_for_append, h1]
      simp [stage3LookupLoop_for, stage3LookupLoop_select]
    refine ⟨h1, h2, ?_⟩
    simp only [stage3LookupLoop]
    rw [stage3LookupLoop_for_append, h2]
    simp [stage3LookupLoop_for, stage3LookupLoop_select, stage3LookupLoop_flush]

/-- Witness of C13: the archiver of `New` (batch size 50) fed the items 0 to
49, and fed the items 0, 1, 2 followed by a timer event. -/
theorem lookup_batches_by_size_and_timer_witness :
    (1 ≤ New.containsBatchSize ∧ (List.range 50).length = New.containsBatchSize ∧
      (stage3LookupLoop New ((List.range 50).map .recv)).batches = [List.range 50]) ∧
    (0 < [0, 1, 2].length ∧ [0, 1, 2].length < New.containsBatchSize ∧
      (stage3LookupLoop New ([0, 1, 2].map .recv ++ [.timer])).batches = [[0, 1, 2]]) :=
  ⟨⟨by decide, by decide,
      ((lookup_batches_by_size_and_timer New (List.range 50)).1 (by decide) (by decide)).2.2⟩,
    ⟨by decide, by decide,
      ((lookup_batches_by_size_and_timer New [0, 1, 2]).2 (by decide) (by decide)).2.2⟩⟩

theorem addInt64_eq (x y : Int) : addInt64 x y = wrapInt64 (x + y) := rfl

theorem wrapInt64_add_wrap (x y : Int) : wrapInt64 (wrapInt64 x + y) = wrapInt64 (x + y) := by
  unfold wrapInt64
  omega

theorem wrapInt64_of_range {x : Int} (h1 : -9223372036854775808 ≤ x)
    (h2 : x < 9223372036854775808) : wrapInt64 x = x := by
  unfold wrapInt64
  omega

theorem foldl_addInt64 (l : List Int) (x : Int) :
    l.foldl addInt64 (wrapInt64 x) = wrapInt64 (x + l.sum) := by
  induction l generalizing x with
  | nil => simp
  | cons y l ih =>
    simp only [List.foldl_cons, List.sum_cons, addInt64_eq, wrapInt64_add_wrap]
    rw [ih, add_assoc]

theorem foldl_addInt64_map {α : Type} (f : α → Int) (l : List α) (x : Int) :
    l.foldl (fun out i => addInt64 out (f i)) x = (l.map f).foldl addInt64 x := by
  induction l generalizing x with
  | nil => rfl
  | cons y l ih => simp only [List.foldl_cons, List.map_cons, ih]

theorem wrapInt64_zero : wrapInt64 0 = 0 := by decide

theorem TotalBytesHits_eq (s : Stats) : s.TotalBytesHits = wrapInt64 s.Hits.sum := by
  unfold Stats.TotalBytesHits
  have := foldl_addInt64 s.Hits 0
  rw [wrapInt64_zero, zero_add] at this
  exact this

theorem TotalBytesPushed_eq (s : Stats) :
    s.TotalBytesPushed = wrapInt64 (s.Pushed.map (fun u => u.Size)).sum := by
  unfold Stats.TotalBytesPushed
  rw [foldl_addInt64_map]
  have := foldl_addInt64 (s.Pushed.map (fun u => u.Size)) 0
  rw [wrapInt64_zero, zero_add] at this
  exact this

/-- C14 (amended): for every `Stats` value, `TotalHits` is the number of recorded hits
and `TotalMisses` the number of upload records; `TotalBytesHits` and
`TotalBytesPushed` are the sums of the recorded hit sizes and of the upload
records' sizes, in the `int64` arithmetic of `common.Size` (so they are the
integer sums whenever those fit in an `int64`).  Recording one hit of size `x`
raises `TotalHits` by 1 and `TotalBytesHits` by `x` and leaves the two upload
totals unchanged; recording one upload record `u` raises `TotalMisses` by 1
and `TotalBytesPushed` by the size of `u` and leaves the two hit totals
unchanged. -/
theorem stats_totals_count_and_sum (s : Stats) :
    (s.TotalHits = s.Hits.length ∧ s.TotalBytesHits = wrapInt64 s.Hits.sum ∧
      s.TotalMisses = s.Pushed.length ∧
      s.TotalBytesPushed = wrapInt64 (s.Pushed.map (fun u => u.Size)).sum) ∧
    (-9223372036854775808 ≤ s.Hits.sum → s.Hits.sum < 9223372036854775808 →
      s.TotalBytesHits = s.Hits.sum) ∧
    (-9223372036854775808 ≤ (s.Pushed.map (fun u => u.Size)).sum →
      (s.Pushed.map (fun u => u.Size)).sum < 9223372036854775808 →
      s.TotalBytesPushed = (s.Pushed.map (fun u => u.Size)).sum) ∧
    (∀ x, (s.addHit x).TotalHits = s.TotalHits + 1 ∧
      (s.addHit x).TotalBytesHits = addInt64 s.TotalBytesHits x ∧
      (s.addHit x).TotalMisses = s.TotalMisses ∧
      (s.addHit x).TotalBytesPushed = s.TotalBytesPushed) ∧
    (∀ u, (s.addPushed u).TotalMisses = s.TotalMisses + 1 ∧
      (s.addPushed u).TotalBytesPushed = addInt64 s.TotalBytesPushed u.Size ∧
      (s.addPushed u).TotalHits = s.TotalHits ∧
      (s.addPushed u).TotalBytesHits = s.TotalBytesHits) := by
  refine ⟨⟨rfl, TotalBytesHits_eq s, rfl, TotalBytesPushed_eq s⟩, ?_, ?_, ?_, ?_⟩
  · intro h1 h2
    rw [TotalBytesHits_eq, wrapInt64_of_range h1 h2]
  · intro h1 h2
    rw [TotalBytesPushed_eq, wrapInt64_of_range h1 h2]
  · intro x
    refine ⟨?_, ?_, rfl, rfl⟩
    · simp [Stats.TotalHits, Stats.addHit]
    · simp [Stats.TotalBytesHits, Stats.addHit, List.foldl_append]
  · intro u
    refine ⟨?_, ?_, rfl, rfl⟩
    · simp [Stats.TotalMisses, Stats.addPushed]
    · simp [Stats.TotalBytesPushed, Stats.addPushed, List.foldl_append]

/-- Witness of C14: the statistics of the example archiver after the lookup,
with one hit of size 3; a second hit of size 4 is recorded. -/
theorem stats_totals_count_and_sum_witness :
    exLooked.stats.TotalHits = 1 ∧ exLooked.stats.TotalBytesHits = 3 ∧
    (exLooked.stats.addHit 4).TotalHits = 2 ∧ (exLooked.stats.addHit 4).TotalBytesHits = 7 ∧
    (-9223372036854775808 ≤ exLooked.stats.Hits.sum ∧
      exLooked.stats.Hits.sum < 9223372036854775808 ∧
      exLooked.stats.TotalBytesHits = exLooked.stats.Hits.sum) :=
  ⟨by decide, by decide, by decide, by decide, by decide, by decide,
    (stats_totals_count_and_sum exLooked.stats).2.1 (by decide) (by decide)⟩

/-- C14 as stated fails: with the two hits of sizes 2^63 - 1 and 1 recorded,
the sum of the recorded hit sizes is 2^63, while `TotalBytesHits` is -2^63,
and recording the second hit lowered `TotalBytesHits` instead of raising it
by 1. -/
theorem stats_total_bytes_hits_wraps :
    exBigStats.Hits.sum = 9223372036854775808 ∧
    exBigStats.TotalBytesHits = -9223372036854775808 ∧
    exBigStats.TotalBytesHits ≠ exBigStats.Hits.sum ∧
    exBigStats = ({ Hits := [9223372036854775807], Pushed := [] } : Stats).addHit 1 ∧
    ({ Hits := [9223372036854775807], Pushed := [] } : Stats).TotalBytesHits =
      9223372036854775807 :=
  ⟨by decide, by decide, by decide, by decide, by decide⟩

theorem elems_update_other {α : Type} (m : Arrays α) (t : Slice) (k n : Nat) (x : α)
    (h : t.array = k → t.len ≤ n) :
    t.elems { m with cells := Function.update m.cells k (Function.update (m.cells k) n x) } =
      t.elems m := by
  unfold Slice.elems
  apply List.map_congr_left
  intro j hj
  have hj' : j < t.len := List.mem_range.mp hj
  by_cases hk : t.array = k
  · have hjn : j ≠ n := by have := h hk; omega
    simp [hk, Function.update_noteq hjn]
  · simp [Function.update_noteq hk]

theorem elems_append_last {α : Type} (cells : Nat → Nat → α) (nx : Nat) (k k' n c : Nat) (x : α) :
    Slice.elems { cells := Function.update cells k' (Function.update (cells k) n x), next := nx }
      { array := k', len := n + 1, cap := c } =
    Slice.elems { cells := cells, next := nx } { array := k, len := n, cap := c } ++ [x] := by
  unfold Slice.elems
  simp only [List.range_succ, List.map_append, List.map_cons, List.map_nil, Function.update_same]
  congr 1
  apply List.map_congr_left
  intro j hj
  have hj' : j < n := List.mem_range.mp hj
  simp [Function.update_noteq (Nat.ne_of_lt hj')]

/-- What `append` does to the appended slice and to any older copy `t` of it:
the result shows the old elements and the new one, and the copy shows what it
showed. -/
theorem goAppend_spec {α : Type} (grow : Nat → Nat) (m : Arrays α) (s t : Slice) (x : α)
    (hs : s.valid m) (ht : t.len = 0 ∨ t.array < m.next) (hst : t.array = s.array → t.len ≤ s.len) :
    (goAppend grow m s x).2.elems (goAppend grow m s x).1 = s.elems m ++ [x] ∧
    t.elems (goAppend grow m s x).1 = t.elems m ∧
    (goAppend grow m s x).2.valid (goAppend grow m s x).1 ∧
    (t.len = 0 ∨ t.array < (goAppend grow m s x).1.next) ∧
    (t.array = (goAppend grow m s x).2.array → t.len ≤ (goAppend grow m s x).2.len) := by
  obtain ⟨hlen, hal⟩ := hs
  obtain ⟨cells, nx⟩ := m
  obtain ⟨k, n, c⟩ := s
  simp only at hlen hal hst ht
  unfold goAppend
  by_cases hc : n < c
  · simp only [hc, if_true]
    refine ⟨elems_append_last cells nx k k n c x, ?_, ?_, ht, ?_⟩
    · exact elems_update_other { cells := cells, next := nx } t k n x hst
    · refine ⟨Nat.succ_le_of_lt hc, ?_⟩
      rcases hal with h | h
      · omega
      · exact Or.inr h
    · intro h; have := hst h; omega
  · simp only [hc, if_false]
    refine ⟨elems_append_last cells nx k nx n _ x, ?_, ?_, ?_, ?_⟩
    · have := elems_update_other { cells := cells, next := nx } t nx n
        ((Function.update (cells k) n x) n) (by
          intro h
          rcases ht with h0 | h0
          · omega
          · omega)
      unfold Slice.elems at this ⊢
      simp only at this ⊢
      rw [← this]
      apply List.map_congr_left
      intro j hj
      have hj' : j < t.len := List.mem_range.mp hj
      by_cases hk : t.array = nx
      · rcases ht with h0 | h0
        · omega
        · omega
      · simp [Function.update_noteq hk]
    · exact ⟨le_max_right _ _, Or.inr (Nat.lt_succ_self nx)⟩
    · rcases ht with h | h
      · exact Or.inl h
      · exact Or.inr (Nat.lt_succ_of_lt h)
    · intro h
      rcases ht with h0 | h0
      · omega
      · omega

theorem StatsRef.append_spec (grow : Nat → Nat) (m : StatsMem) (acc snap : StatsRef)
    (op : StatsAppend) (h : StatsRef.Snap m acc snap) :
    StatsRef.Snap (StatsRef.append grow m acc op).1 (StatsRef.append grow m acc op).2 snap ∧
    snap.read (StatsRef.append grow m acc op).1 = snap.read m ∧
    (StatsRef.append grow m acc op).2.read (StatsRef.append grow m acc op).1 =
      (acc.read m).record op := by
  cases op with
  | hit size =>
    obtain ⟨e1, e2, e3, e4, e5⟩ :=
      goAppend_spec grow m.sizes acc.Hits snap.Hits size h.hitsValid h.hitsAlloc h.hitsShort
    refine ⟨⟨e3, e4, e5, h.pushedValid, h.pushedAlloc, h.pushedShort⟩, ?_, ?_⟩
    · simp only [StatsRef.read, StatsRef.append, e2]
    · simp only [StatsRef.read, StatsRef.append, e1, Stats.record, Stats.addHit]
  | pushed u =>
    obtain ⟨e1, e2, e3, e4, e5⟩ :=
      goAppend_spec grow m.uploads acc.Pushed snap.Pushed u h.pushedValid h.pushedAlloc
        h.pushedShort
    refine ⟨⟨h.hitsValid, h.hitsAlloc, h.hitsShort, e3, e4, e5⟩, ?_, ?_⟩
    · simp only [StatsRef.read, StatsRef.append, e2]
    · simp only [StatsRef.read, StatsRef.append, e1, Stats.record, Stats.addPushed]

theorem StatsRef.appends_spec (grow : Nat → Nat) (snap : StatsRef) (ops : List StatsAppend) :
    ∀ (m : StatsMem) (acc : StatsRef), StatsRef.Snap m acc snap →
      StatsRef.Snap (StatsRef.appends grow m acc ops).1 (StatsRef.appends grow m acc ops).2 snap ∧
      snap.read (StatsRef.appends grow m acc ops).1 = snap.read m ∧
      (StatsRef.appends grow m acc ops).2.read (StatsRef.appends grow m acc ops).1 =
        ops.foldl Stats.record (acc.read m) := by
  induction ops with
  | nil => intro m acc h; exact ⟨h, rfl, rfl⟩
  | cons op ops ih =>
    intro m acc h
    obtain ⟨e1, e2, e3⟩ := StatsRef.append_spec grow m acc snap op h
    obtain ⟨f1, f2, f3⟩ := ih _ _ e1
    simp only [StatsRef.appends, List.foldl_cons]
    exact ⟨f1, f2.trans e2, by rw [f3, e3]⟩

/-- Right after `deepCopy` the copy is an older copy of the accumulator. -/
theorem StatsRef.Snap_deepCopy {m : StatsMem} {acc snap : StatsRef}
    (h : StatsRef.Snap m acc snap) : StatsRef.Snap m acc acc.deepCopy := by
  obtain ⟨a1, a2⟩ := h.hitsValid
  obtain ⟨b1, b2⟩ := h.pushedValid
  refine ⟨h.hitsValid, ?_, fun _ => le_refl _, h.pushedValid, ?_, fun _ => le_refl _⟩
  · rcases a2 with h0 | h0
    · exact Or.inl (by simp only [StatsRef.deepCopy]; omega)
    · exact Or.inr h0
  · rcases b2 with h0 | h0
    · exact Or.inl (by simp only [StatsRef.deepCopy]; omega)
    · exact Or.inr h0

theorem StatsRef.Snap_zero : StatsRef.Snap StatsMem.empty StatsRef.zero StatsRef.zero :=
  ⟨⟨le_refl _, Or.inl rfl⟩, Or.inl rfl, fun _ => le_refl _,
   ⟨le_refl _, Or.inl rfl⟩, Or.inl rfl, fun _ => le_refl _⟩

/-- C15: let the accumulator of the statistics be built from the zero
`Stats` by any appends, and let `Stats()` copy it (`deepCopy` copies the two
slice values, which go on sharing their backing arrays with the accumulator).
Whatever hits and upload records the pipeline appends to the accumulator
afterwards, the copy shows the same hit and upload entries as when it was
taken, so its four totals are unchanged, while the accumulator shows the old
entries followed by the new ones. -/
theorem stats_snapshot_unchanged_by_appends (grow : Nat → Nat) (before later : List StatsAppend)
    (m m' : StatsMem) (acc acc' : StatsRef)
    (h1 : StatsRef.appends grow StatsMem.empty StatsRef.zero before = (m, acc))
    (h2 : StatsRef.appends grow m acc later = (m', acc')) :
    acc.deepCopy.read m = before.foldl Stats.record { Hits := [], Pushed := [] } ∧
    acc.deepCopy.read m' = acc.deepCopy.read m ∧
    (acc.deepCopy.read m').TotalHits = (acc.deepCopy.read m).TotalHits ∧
    (acc.deepCopy.read m').TotalBytesHits = (acc.deepCopy.read m).TotalBytesHits ∧
    (acc.deepCopy.read m').TotalMisses = (acc.deepCopy.read m).TotalMisses ∧
    (acc.deepCopy.read m').TotalBytesPushed = (acc.deepCopy.read m).TotalBytesPushed ∧
    acc'.read m' = later.foldl Stats.record (acc.deepCopy.read m) := by
  obtain ⟨e1, _, e3⟩ := StatsRef.appends_spec grow StatsRef.zero before StatsMem.empty
    StatsRef.zero StatsRef.Snap_zero
  rw [h1] at e1 e3
  simp only at e1 e3
  obtain ⟨_, f2, f3⟩ := StatsRef.appends_spec grow acc.deepCopy later m acc
    (StatsRef.Snap_deepCopy e1)
  rw [h2] at f2 f3
  simp only at f2 f3
  have hread : acc.deepCopy.read m = acc.read m := rfl
  refine ⟨?_, f2, ?_, ?_, ?_, ?_, ?_⟩
  · rw [hread, e3]; rfl
  · rw [f2]
  · rw [f2]
  · rw [f2]
  · rw [f2]
  · rw [f3, hread]

/-- Witness of C15: one hit of size 3 is recorded, the snapshot is taken, then
a hit of size 4 is recorded, which is written into the backing array the
snapshot shares with the accumulator; the snapshot still shows one hit. -/
theorem stats_snapshot_unchanged_by_appends_witness :
    ∃ m m' acc acc', StatsRef.appends exGrow StatsMem.empty StatsRef.zero [.hit 3] = (m, acc) ∧
      StatsRef.appends exGrow m acc [.hit 4] = (m', acc') ∧
      acc'.Hits.array = acc.deepCopy.Hits.array ∧ acc'.read m' = { Hits := [3, 4], Pushed := [] } ∧
      acc.deepCopy.read m' = { Hits := [3], Pushed := [] } ∧
      acc.deepCopy.read m' = acc.deepCopy.read m :=
  ⟨_, _, _, _, rfl, rfl, by decide, by decide, by decide,
    (stats_snapshot_unchanged_by_appends exGrow [.hit 3] [.hit 4] _ _ _ _ rfl rfl).2.1⟩

/-- C16 (amended): the item that `PushFile(displayName, path)` creates has
the path `path` and no stream, so it has exactly one content source when
`path` is not empty and none when it is.  `Push(displayName, src)` with a nil
reader panics.  With a reader, the item it creates has the empty path; it
keeps the stream, and so has exactly one content source, when the reader seeks
to 0 without error; otherwise `setErr` has cleared the stream and the item,
which is returned, has no content source.  No item has both. -/
theorem pushed_item_content_source (a : archiver) (displayName : String) :
    (∀ path, ((PushFile a displayName path).1.items a.nextItem).path = path ∧
      ((PushFile a displayName path).1.items a.nextItem).src = none ∧
      (hasOneSource ((PushFile a displayName path).1.items a.nextItem) ↔ path ≠ "")) ∧
    Push a displayName none = .error .panic ∧
    (∀ r, ∃ a' fut, Push a displayName (some r) = .ok (a', fut) ∧
      (a'.items a.nextItem).path = "" ∧
      (r.seekPos = 0 ∧ r.seekErr = none → (a'.items a.nextItem).src = some r) ∧
      (¬ (r.seekPos = 0 ∧ r.seekErr = none) →
        (a'.items a.nextItem).src = none ∧ fut = some a.nextItem) ∧
      (hasOneSource (a'.items a.nextItem) ↔ r.seekPos = 0 ∧ r.seekErr = none)) := by
  refine ⟨fun path => ?_, rfl, fun r => ?_⟩
  · have h1 : ((PushFile a displayName path).1.items a.nextItem) =
        newArchiverItem displayName path none := by
      simp only [PushFile, alloc, push]
      split <;> simp [progressUpdate]
    rw [h1]
    simp [hasOneSource, newArchiverItem]
  · by_cases hseek : r.seekPos = 0 ∧ r.seekErr = none
    · have h1 : ∃ a' fut, Push a displayName (some r) = .ok (a', fut) ∧
          a'.items a.nextItem = newArchiverItem displayName "" (some r) := by
        have hp : Push a displayName (some r) =
            .ok (push (alloc a displayName "" (some r)).1 a.nextItem) := by
          simp [Push, alloc, hseek.1, hseek.2]
        refine ⟨(push (alloc a displayName "" (some r)).1 a.nextItem).1,
          (push (alloc a displayName "" (some r)).1 a.nextItem).2, hp, ?_⟩
        simp only [push, alloc]
        split <;> simp [progressUpdate]
      obtain ⟨a', fut, hp, hi⟩ := h1
      refine ⟨a', fut, hp, ?_, ?_, fun hn => absurd hseek hn, ?_⟩
      · rw [hi]; rfl
      · intro _; rw [hi]; rfl
      · rw [hi]; simp [hasOneSource, newArchiverItem, hseek]
    · have hor : r.seekPos ≠ 0 ∨ r.seekErr ≠ none := by
        by_contra hcon
        simp only [not_or, not_not] at hcon
        exact hseek hcon
      have hs := setErr_fresh (Function.update a.items a.nextItem
          (newArchiverItem displayName "" (some r))) a.nextItem
        ("seek(" ++ DisplayName (Function.update a.items a.nextItem
          (newArchiverItem displayName "" (some r))) a.nextItem ++ ") failed: " ++
          fmtErr r.seekErr ++ "\n") (by simp [newArchiverItem, zeroItem])
          (by simp [newArchiverItem, zeroItem])
      have hd : ∀ msg, ∃ h2, Done (setErrFresh (Function.update a.items a.nextItem
          (newArchiverItem displayName "" (some r))) a.nextItem msg) a.nextItem = .ok h2 ∧
          (h2 a.nextItem).path = "" ∧ (h2 a.nextItem).src = none := by
        intro msg
        refine ⟨Function.update (setErrFresh (Function.update a.items a.nextItem
          (newArchiverItem displayName "" (some r))) a.nextItem msg) a.nextItem
          { setErrFresh (Function.update a.items a.nextItem
              (newArchiverItem displayName "" (some r))) a.nextItem msg a.nextItem with
            wgHashed := 0 }, ?_, ?_, ?_⟩
        · simp [Done, wgDone, setErrFresh, newArchiverItem, zeroItem]
        · simp [setErrFresh, newArchiverItem, zeroItem]
        · simp [setErrFresh, newArchiverItem, zeroItem]
      obtain ⟨h2, hd1, hd2, hd3⟩ := hd ("seek(" ++ DisplayName (Function.update a.items a.nextItem
          (newArchiverItem displayName "" (some r))) a.nextItem ++ ") failed: " ++
          fmtErr r.seekErr ++ "\n")
      refine ⟨{ (alloc a displayName "" (some r)).1 with items := h2 }, some a.nextItem, ?_, hd2,
        fun hy => absurd hy hseek, fun _ => ⟨hd3, rfl⟩, ?_⟩
      · simp only [Push, alloc, hor, if_true, hs, hd1]
      · simp only [hasOneSource, hd2, hd3]
        simp [hseek]

/-- C16 as stated fails: `PushFile("x", "")` on the archiver of `New` returns
an item that has neither a path nor a stream. -/
theorem pushFile_empty_path_has_no_source :
    (PushFile New "x" "").2 = some 0 ∧ ((PushFile New "x" "").1.items 0).path = "" ∧
    ((PushFile New "x" "").1.items 0).src = none ∧
    ¬ hasOneSource ((PushFile New "x" "").1.items 0) :=
  ⟨by decide, by decide, by decide, by decide⟩

/-- Exactly when `link` panics: the child fails the check at its top, or the
representative has a digest or an error to hand over and the child's
completion signal was released already. -/
theorem link_panic_iff (h : Heap) (i c : Nat) :
    link h i c = .error .panic ↔
      ((h c).src ≠ none ∨ (h c).state ≠ none ∨ (h c).linked ≠ [] ∨ (h c).err ≠ none) ∨
      (c ≠ i ∧ ((h i).digestItem.Digest ≠ "" ∨ (h i).err ≠ none) ∧ (h c).wgHashed = 0) := by
  unfold link
  by_cases hchk : (h c).src ≠ none ∨ (h c).state ≠ none ∨ (h c).linked ≠ [] ∨ (h c).err ≠ none
  · simp only [hchk, if_true, true_or]
  · simp only [hchk, if_false, false_or]
    by_cases hci : c = i
    · simp [hci]
    · simp only [hci, if_false, ne_eq, not_false_eq_true, true_and, Function.update_same,
        Function.update_noteq hci]
      by_cases hd : (h i).digestItem.Digest = ""
      · by_cases he : (h i).err = none
        · simp [hd, he]
        · by_cases hw : (h c).wgHashed = 0
          · simp [hd, he, hw, wgDone]
          · simp [hd, he, hw, wgDone]
      · by_cases hw : (h c).wgHashed = 0
        · simp [hd, hw, wgDone]
        · simp [hd, hw, wgDone]

/-- A child that passes the check is appended to the linked list of a
representative that has neither digest nor error, whatever lists it is in. -/
theorem link_appends (h : Heap) (i c : Nat) (hci : c ≠ i)
    (hchk : (h c).src = none ∧ (h c).state = none ∧ (h c).linked = [] ∧ (h c).err = none)
    (hd : (h i).digestItem.Digest = "") (he : (h i).err = none) :
    link h i c = .ok (Function.update h i { h i with linked := (h i).linked ++ [c] }) := by
  simp [link, hchk.1, hchk.2.1, hchk.2.2.1, hchk.2.2.2, hci, hd, he]

theorem Move_linked_nodup {HashFile : String → Except String DigestItem} {P : Nat → String}
    {a a' : archiver} (hm : Move HashFile a a') (hI : Inv P a)
    (hn : ∀ r, (a.items r).linked.Nodup) : ∀ r, (a'.items r).linked.Nodup := by
  intro r
  cases hm with
  | idle h1 h2 hi hc => rw [hi]; exact hn r
  | alloc h2 hc hn' hi hl hq hr hs hq2 =>
    by_cases hr' : r = a.nextItem
    · subst hr'; rw [hl]; exact List.nodup_nil
    · rw [hi r hr']; exact hn r
  | reject x e h2 hg hc hc' hn' hq hr hs hq2 hshape htouch herr hwg =>
    rw [(hshape r).1]; exact hn r
  | linkTo x prev h2 hg hc hc' hn' hq hr hs hq2 hp hseen hprev hrest hx hxl hne hdig hdig0 herr =>
    obtain ⟨_, _, _, _, _, _, hxk, _⟩ := hI.next_fresh hg
    by_cases hrp : r = prev
    · subst hrp
      rw [hprev]
      exact List.Nodup.append (hn r) (List.nodup_singleton x)
        (by
          intro y hy hy'
          rw [List.mem_singleton.mp hy'] at hy
          exact hxk r hy)
    · by_cases hrx : r = x
      · subst hrx; rw [hx.1]; exact hn r
      · rw [hrest r hrp hrx]; exact hn r
  | forward x h2 hg hc hc' hn' hq hr hp hs hq2 hi => rw [hi]; exact hn r
  | sched x h1 hi hc hg hr hp hd => rw [hi]; exact hn r
  | hashOk x h1 hx hc hc' hr hp hd hshape htouch hkids herr =>
    rw [(hshape r).1]; exact hn r
  | hashAbort x h1 hx hc hc' hr hp hd hshape htouch hmir =>
    rw [(hshape r).1]; exact hn r

theorem run_linked_nodup {HashFile : String → Except String DigestItem} {P : Nat → String} :
    ∀ (evs : List Event) (a a' : archiver), run HashFile a evs = .ok a' → Inv P a →
      (∀ i, i < a'.nextItem → (a'.items i).path = P i) →
      (∀ r, (a.items r).linked.Nodup) → ∀ r, (a'.items r).linked.Nodup := by
  intro evs
  induction evs with
  | nil => intro a a' hr _ _ hn; cases hr; exact hn
  | cons e evs ih =>
    intro a a' hr hI hP hn
    simp only [run] at hr
    cases hs : step HashFile a e with
    | error f => simp [hs] at hr
    | ok a1 =>
      simp only [hs] at hr
      obtain ⟨n2, p2, _⟩ := run_paths evs a1 a' hr
      have hI1 : Inv P a1 := Move_Inv (step_move hs) hI
        (fun i hi => by rw [← p2 i hi]; exact hP i (Nat.lt_of_lt_of_le hi n2))
      exact ih a1 a' hr hI1 hP (Move_linked_nodup (step_move hs) hI hn)

/-- C17 (amended): `link` panics exactly when the child has a stream, a
state, linked items of its own or an error, or when the representative hands
over a digest or an error and the child's completion signal was released
already.  Being in a linked list is not checked: a child that passes the check
is appended once more to the list of a representative that has neither digest
nor error.  In the pipeline no item appears twice in linked lists all the
same: in every state reached from `New` each linked list is free of
repetitions and no item is in the lists of two representatives. -/
theorem link_panics_only_on_check (HashFile : String → Except String DigestItem)
    (evs : List Event) (a : archiver) (hrun : run HashFile New evs = .ok a) :
    (∀ (h : Heap) (i c : Nat), link h i c = .error .panic ↔
      ((h c).src ≠ none ∨ (h c).state ≠ none ∨ (h c).linked ≠ [] ∨ (h c).err ≠ none) ∨
      (c ≠ i ∧ ((h i).digestItem.Digest ≠ "" ∨ (h i).err ≠ none) ∧ (h c).wgHashed = 0)) ∧
    (∀ (h : Heap) (i c : Nat), c ≠ i →
      (h c).src = none ∧ (h c).state = none ∧ (h c).linked = [] ∧ (h c).err = none →
      (h i).digestItem.Digest = "" → (h i).err = none →
      link h i c = .ok (Function.update h i { h i with linked := (h i).linked ++ [c] })) ∧
    (∀ r, (a.items r).linked.Nodup) ∧
    (∀ r r' c, c ∈ (a.items r).linked → c ∈ (a.items r').linked → r = r') := by
  have hI := reachable_Inv hrun
  refine ⟨link_panic_iff, link_appends, ?_, ?_⟩
  · exact run_linked_nodup evs New a hrun (Inv_New _) (fun _ _ => rfl)
      (fun r => by simp [New, zeroItem])
  · intro r r' c hc hc'
    have h1 := (hI.linked_sound r c hc).2.2.2
    have h2 := (hI.linked_sound r' c hc').2.2.2
    rw [h1] at h2
    exact Option.some.inj h2

/-- Witness of C17 (amended): the example schedule ends with the items 1 and
4 linked to item 0, each once. -/
theorem link_panics_only_on_check_witness :
    ∃ a, run exHashFile New exSchedule = .ok a ∧ (a.items 0).linked = [1, 4] ∧
      (∀ r, (a.items r).linked.Nodup) ∧
      (∀ r r' c, c ∈ (a.items r).linked → c ∈ (a.items r').linked → r = r') :=
  ⟨_, rfl, by decide,
    (link_panics_only_on_check exHashFile exSchedule _ rfl).2.2.1,
    (link_panics_only_on_check exHashFile exSchedule _ rfl).2.2.2⟩

/-- C17 as stated fails: item 1 of the example heap is linked to item 0
already; `link` does not panic when it is passed again, to the same
representative or to item 2, and item 1 then appears twice in linked lists. -/
theorem link_accepts_linked_child :
    (exHeap 0).linked = [1] ∧
    (∃ h', link exHeap 0 1 = .ok h' ∧ (h' 0).linked = [1, 1]) ∧
    (∃ h', link exHeap 2 1 = .ok h' ∧ (h' 0).linked = [1] ∧ (h' 2).linked = [1]) :=
  ⟨by decide, ⟨_, rfl, by decide⟩, ⟨_, rfl, by decide, by decide⟩⟩

/-- C18 (the code does not do this): the pool of the hash stage is created
with `a.maxConcurrentContains`, not `a.maxConcurrentHash`: for the archiver of
`New` its width is 64, not 5 (a hash job can start while 5, and up to 63, are
running), and changing `maxConcurrentHash` does not change it.  The lookup pool has width `maxConcurrentContains` = 64 and the upload pool
`maxConcurrentUpload` = 8. -/
theorem hash_pool_width_is_maxConcurrentContains :
    (∀ a, (stage2HashLoop_pool a).maxConcurrentJobs = a.maxConcurrentContains) ∧
    (∀ a n, stage2HashLoop_pool { a with maxConcurrentHash := n } = stage2HashLoop_pool a) ∧
    New.maxConcurrentHash = 5 ∧ (stage2HashLoop_pool New).maxConcurrentJobs = 64 ∧
    (stage2HashLoop_pool New).maxConcurrentJobs ≠ New.maxConcurrentHash ∧
    (stage2HashLoop_pool New).canStart New.maxConcurrentHash = true ∧
    (∀ running, (stage2HashLoop_pool New).canStart running = true ↔ running < 64) ∧
    (stage3LookupLoop_pool New).maxConcurrentJobs = 64 ∧
    (stage4UploadLoop_pool New).maxConcurrentJobs = 8 :=
  ⟨fun _ => rfl, fun _ _ => rfl, rfl, rfl, by decide, by decide,
    fun running => by simp [GoroutinePool.canStart, stage2HashLoop_pool, NewGoroutinePool, New],
    rfl, rfl⟩

/-- While nothing is left to receive and no task is in the hash pool, a step
of the pipeline's goroutines changes nothing. -/
theorem step_internal_idle (HashFile : String → Except String DigestItem) (a : archiver)
    (e : Event) (he : e.isInternal = true)
    (h1 : a.stage1DedupeChan.get? a.stage1Recv = none)
    (h2 : a.stage2HashChan.get? a.stage2Recv = none) (h3 : a.hashPool = []) :
    step HashFile a e = .ok a := by
  cases e with
  | PushFile displayName path => simp [Event.isInternal] at he
  | Push displayName src => simp [Event.isInternal] at he
  | Cancel reason => simp [Event.isInternal] at he
  | Close => simp [Event.isInternal] at he
  | stage1Dedupe => simp only [step, h1]
  | stage2Hash => simp only [step, h2]
  | hashJob item => simp [step, h3]
  | hashCanceled item => simp [step, h3]

theorem run_internal_idle (HashFile : String → Except String DigestItem) (a : archiver)
    (h1 : a.stage1DedupeChan.get? a.stage1Recv = none)
    (h2 : a.stage2HashChan.get? a.stage2Recv = none) (h3 : a.hashPool = []) :
    ∀ work : List Event, (∀ e ∈ work, e.isInternal = true) → run HashFile a work = .ok a := by
  intro work
  induction work with
  | nil => intro _; rfl
  | cons e es ih =>
    intro hw
    simp only [run, step_internal_idle HashFile a e (hw e (List.mem_cons_self _ _)) h1 h2 h3]
    exact ih (fun e' he' => hw e' (List.mem_cons_of_mem _ he'))

/-- C19: on the archiver of `New`, with nothing pushed and no `Cancel`, the
snapshot of `Stats()` has the four totals 0; `Close` returns nil whatever steps
the goroutines take before it returns, none of which changes the state, and
the snapshot taken afterwards has the four totals 0 as well.  The lookup loop,
finding its channel closed, schedules no batch. -/
theorem new_archiver_close_nil_stats_zero (HashFile : String → Except String DigestItem)
    (work : List Event) (hw : ∀ e ∈ work, e.isInternal = true) :
    (New.Stats.TotalHits = 0 ∧ New.Stats.TotalBytesHits = 0 ∧ New.Stats.TotalMisses = 0 ∧
      New.Stats.TotalBytesPushed = 0) ∧
    (∃ a', Close HashFile New work = .ok (a', none) ∧ a' = { New with closed := true } ∧
      a'.Stats.TotalHits = 0 ∧ a'.Stats.TotalBytesHits = 0 ∧ a'.Stats.TotalMisses = 0 ∧
      a'.Stats.TotalBytesPushed = 0) ∧
    (stage3LookupLoop New []).batches = [] := by
  refine ⟨⟨rfl, rfl, rfl, rfl⟩, ⟨{ New with closed := true }, ?_, rfl, rfl, rfl, rfl, rfl⟩, rfl⟩
  simp only [Close]
  rw [run_internal_idle HashFile { New with closed := true } rfl rfl rfl work hw]
  rfl

/-- Witness of C19: `Close` on the new archiver while the dedupe loop and the
hash loop each look at their channel once. -/
theorem new_archiver_close_nil_stats_zero_witness :
    (∀ e ∈ [Event.stage1Dedupe, Event.stage2Hash], e.isInternal = true) ∧
    ∃ a', Close exHashFile New [.stage1Dedupe, .stage2Hash] = .ok (a', none) ∧
      a'.Stats.TotalHits = 0 ∧ a'.Stats.TotalBytesPushed = 0 :=
  ⟨by decide,
    (new_archiver_close_nil_stats_zero exHashFile [.stage1Dedupe, .stage2Hash]
      (by decide)).2.1.elim (fun a' h => ⟨a', h.1, h.2.2.1, h.2.2.2.2.2⟩)⟩

theorem Cancel_closed (a : archiver) (e : String) : (Cancel a e).closed = a.closed := by
  unfold Cancel; split <;> rfl

theorem Push_closed {a : archiver} {displayName : String} {src : Option ReadSeeker}
    {r : archiver × Option Nat} (hp : Push a displayName src = .ok r) : r.1.closed = a.closed := by
  unfold Push at hp
  simp only [alloc] at hp
  cases src with
  | none => simp at hp
  | some rs =>
    simp only at hp
    split at hp
    · cases h1 : setErr (Function.update a.items a.nextItem (newArchiverItem displayName "" (some rs)))
          a.nextItem (some ("seek(" ++ DisplayName (Function.update a.items a.nextItem
            (newArchiverItem displayName "" (some rs))) a.nextItem ++ ") failed: " ++
            fmtErr rs.seekErr ++ "\n")) with
      | error f => simp [h1] at hp
      | ok h1' =>
        simp only [h1] at hp
        cases h2 : Done h1' a.nextItem with
        | error f => simp [h2] at hp
        | ok h2' =>
          simp only [h2, Except.ok.injEq] at hp
          subst hp
          rfl
    · simp only [push, Except.ok.injEq] at hp
      subst hp
      split <;> rfl

theorem stage1DedupeBody_closed {a a' : archiver} {item : Nat}
    (hs : stage1DedupeBody a item = .ok a') : a'.closed = a.closed := by
  unfold stage1DedupeBody at hs
  simp only [CancelationReason] at hs
  split at hs
  · cases h1 : setErr a.items item a.canceler with
    | error f => simp [h1] at hs
    | ok h1' =>
      simp only [h1] at hs
      cases h2 : Done h1' item with
      | error f => simp [h2] at hs
      | ok h2' =>
        simp only [h2, Except.ok.injEq] at hs
        subst hs
        rfl
  · split at hs
    · rename_i previous hprev
      cases h1 : link a.items previous item with
      | error f => simp [h1] at hs
      | ok h1' =>
        simp only [h1, Except.ok.injEq] at hs
        subst hs
        rfl
    · simp only [progressUpdate, Except.ok.injEq] at hs
      subst hs
      rfl

theorem stage2HashJob_closed {HashFile : String → Except String DigestItem} {a a' : archiver}
    {item : Nat} (hs : stage2HashJob HashFile a item = .ok a') : a'.closed = a.closed := by
  unfold stage2HashJob at hs
  cases hc : calcDigest HashFile a.items item with
  | error f => simp [hc] at hs
  | ok r =>
    obtain ⟨h1, r1⟩ := r
    cases r1 with
    | none =>
      simp only [hc, progressUpdate, Except.ok.injEq] at hs
      subst hs
      rfl
    | some err =>
      simp only [hc, Except.ok.injEq] at hs
      subst hs
      rw [Cancel_closed]

theorem stage2HashCanceled_closed {a a' : archiver} {item : Nat}
    (hs : stage2HashCanceled a item = .ok a') : a'.closed = a.closed := by
  unfold stage2HashCanceled at hs
  cases h1 : setErr a.items item (CancelationReason a) with
  | error f => simp [h1] at hs
  | ok h1' =>
    simp only [h1] at hs
    cases h2 : Done h1' item with
    | error f => simp [h2] at hs
    | ok h2' =>
      simp only [h2, Except.ok.injEq] at hs
      subst hs
      rfl

/-- No step of the front half reopens the dedupe channel. -/
theorem step_closed {HashFile : String → Except String DigestItem} {a a' : archiver} {e : Event}
    (hs : step HashFile a e = .ok a') (hc : a.closed = true) : a'.closed = true := by
  cases e with
  | PushFile displayName path =>
    simp only [step, PushFile, alloc, push, Except.ok.injEq] at hs
    subst hs
    split <;> exact hc
  | Push displayName src =>
    simp only [step] at hs
    cases hp : Push a displayName src with
    | error f => simp [hp] at hs
    | ok r =>
      simp only [hp, Except.ok.injEq] at hs
      subst hs
      rw [Push_closed hp]; exact hc
  | Cancel reason =>
    simp only [step, Except.ok.injEq] at hs
    subst hs; rw [Cancel_closed]; exact hc
  | Close =>
    simp only [step, Except.ok.injEq] at hs
    subst hs; rfl
  | stage1Dedupe =>
    simp only [step] at hs
    cases hg : a.stage1DedupeChan.get? a.stage1Recv with
    | none =>
      simp only [hg, Except.ok.injEq] at hs
      subst hs; exact hc
    | some item =>
      simp only [hg] at hs
      rw [stage1DedupeBody_closed hs]; exact hc
  | stage2Hash =>
    simp only [step] at hs
    cases hg : a.stage2HashChan.get? a.stage2Recv with
    | none =>
      simp only [hg, Except.ok.injEq] at hs
      subst hs; exact hc
    | some item =>
      simp only [hg, Except.ok.injEq] at hs
      subst hs; exact hc
  | hashJob item =>
    simp only [step] at hs
    split at hs
    · rw [stage2HashJob_closed hs]; exact hc
    · simp only [Except.ok.injEq] at hs
      subst hs; exact hc
  | hashCanceled item =>
    simp only [step] at hs
    split at hs
    · rw [stage2HashCanceled_closed hs]; exact hc
    · simp only [Except.ok.injEq] at hs
      subst hs; exact hc

theorem run_closed {HashFile : String → Except String DigestItem} (evs : List Event) :
    ∀ (a a' : archiver), run HashFile a evs = .ok a' → a.closed = true → a'.closed = true := by
  induction evs with
  | nil => intro a a' hr hc; cases hr; exact hc
  | cons e evs ih =>
    intro a a' hr hc
    simp only [run] at hr
    cases hs : step HashFile a e with
    | error f => simp [hs] at hr
    | ok a1 =>
      simp only [hs] at hr
      exact ih a1 a' hr (step_closed hs hc)

/-- C20: in every state reached after a call of `Close`, whatever happened in
between, `PushFile` returns a nil Future and sends nothing to the dedupe
channel, and so does `Push` with a reader that seeks to 0 without error;
neither panics.  (The item is still allocated; no counter of the progress is
changed.) -/
theorem push_after_close_returns_nil (HashFile : String → Except String DigestItem)
    (a0 a : archiver) (evs : List Event) (hrun : run HashFile a0 (.Close :: evs) = .ok a) :
    a.closed = true ∧
    (∀ displayName path, (PushFile a displayName path).2 = none ∧
      (PushFile a displayName path).1.stage1DedupeChan = a.stage1DedupeChan ∧
      (PushFile a displayName path).1.progress = a.progress ∧
      step HashFile a (.PushFile displayName path) = .ok (PushFile a displayName path).1) ∧
    (∀ displayName r, r.seekPos = 0 → r.seekErr = none →
      ∃ a', Push a displayName (some r) = .ok (a', none) ∧
        a'.stage1DedupeChan = a.stage1DedupeChan ∧ a'.progress = a.progress) := by
  have hc : a.closed = true := by
    simp only [run, step] at hrun
    exact run_closed evs _ a hrun rfl
  refine ⟨hc, fun displayName path => ?_, fun displayName r hp he => ?_⟩
  · simp [PushFile, alloc, push, hc, step]
  · simp [Push, alloc, push, hc, hp, he]

/-- Witness of C20: `Close` right after `New`, then `PushFile("a", "/a")`. -/
theorem push_after_close_returns_nil_witness :
    run exHashFile New [.Close] = .ok { New with closed := true } ∧
    (PushFile { New with closed := true } "a" "/a").2 = none ∧
    (PushFile { New with closed := true } "a" "/a").1.stage1DedupeChan = [] :=
  ⟨rfl,
    ((push_after_close_returns_nil exHashFile New { New with closed := true } [] rfl).2.1
      "a" "/a").1,
    ((push_after_close_returns_nil exHashFile New { New with closed := true } [] rfl).2.1
      "a" "/a").2.1⟩

/-! ## Claims on linking, hashing and the batches of the lookup loop -/

theorem link_ok_linkHeap {h h' : Heap} {i c : Nat} (hl : link h i c = .ok h') :
    linkHeap h i c = h' := by
  obtain ⟨⟨p1, p2, p3, p4⟩, hci, hi, hrest, hcase⟩ := link_ok hl
  have hic : i ≠ c := fun x => hci x.symm
  funext j
  simp only [linkHeap, p1, p2, p3, p4, hci, ne_eq, not_true_eq_false, or_self, if_false,
    Function.update_same, Function.update_noteq hci]
  rcases hcase with ⟨hd, _, hc⟩ | ⟨hd, he, _, hc⟩ | ⟨hd, he, hc⟩
  · simp only [hd, not_false_eq_true, if_true]
    by_cases hjc : j = c
    · subst hjc; simp [hc, p1, p2, p3]
    · by_cases hji : j = i
      · subst hji; simp [Function.update_noteq hjc, hi]
      · simp [Function.update_noteq hjc, Function.update_noteq hji, hrest j hji hjc]
  · simp only [hd, not_true_eq_false, if_false, he, not_false_eq_true, if_true]
    by_cases hjc : j = c
    · subst hjc; simp [hc, p1, p2, p3]
    · by_cases hji : j = i
      · subst hji; simp [Function.update_noteq hjc, hi]
      · simp [Function.update_noteq hjc, Function.update_noteq hji, hrest j hji hjc]
  · simp only [hd, not_true_eq_false, if_false, he]
    by_cases hji : j = i
    · subst hji; simp [hi, he]
    · by_cases hjc : j = c
      · subst hjc; simp [Function.update_noteq hji, hc]
      · simp [Function.update_noteq hji, hrest j hji hjc]

/-- C23 (amended): `link` panics at its check exactly when the child has a
stream, a push state, linked items of its own or an error, and then the heap
is left as it was.  Any other panic of `link` comes from
`child.wgHashed.Done()`: the child passed the check, its completion signal was
released already and the representative has a digest or an error; by then the
child is appended to the representative's linked list, while the
representative's digest and error are as before.  When `link` returns, the
heap left behind is the one it returns. -/
theorem link_check_panic_changes_nothing (h : Heap) (i c : Nat) :
    (((h c).src ≠ none ∨ (h c).state ≠ none ∨ (h c).linked ≠ [] ∨ (h c).err ≠ none) →
      link h i c = .error .panic ∧ linkHeap h i c = h) ∧
    (link h i c = .error .panic →
      ¬ ((h c).src ≠ none ∨ (h c).state ≠ none ∨ (h c).linked ≠ [] ∨ (h c).err ≠ none) →
      c ≠ i ∧ ((h i).digestItem.Digest ≠ "" ∨ (h i).err ≠ none) ∧ (h c).wgHashed = 0 ∧
      (linkHeap h i c i).linked = (h i).linked ++ [c] ∧
      (linkHeap h i c i).digestItem = (h i).digestItem ∧ (linkHeap h i c i).err = (h i).err) ∧
    (∀ h', link h i c = .ok h' → linkHeap h i c = h') := by
  refine ⟨fun hchk => ⟨(link_panic_iff h i c).mpr (Or.inl hchk), by simp only [linkHeap, hchk, if_true]⟩,
    fun hp hchk => ?_, fun h' hl => link_ok_linkHeap hl⟩
  rcases (link_panic_iff h i c).mp hp with h1 | ⟨hci, hde, hw⟩
  · exact absurd h1 hchk
  · have hic : i ≠ c := fun x => hci x.symm
    refine ⟨hci, hde, hw, ?_, ?_, ?_⟩
    all_goals
      simp only [linkHeap, hchk, hci, if_false, Function.update_same]
      split
      · simp [Function.update_noteq hic]
      · split
        · simp [Function.update_noteq hic]
        · simp

/-- Witness of C23 (amended): item 1 of the example heap, with an error set,
is passed to `link` on item 0. -/
theorem link_check_panic_changes_nothing_witness :
    (Function.update exHeap 1 { exHeap 1 with err := some "e" } 1).err ≠ none ∧
    link (Function.update exHeap 1 { exHeap 1 with err := some "e" }) 0 1 = .error .panic ∧
    linkHeap (Function.update exHeap 1 { exHeap 1 with err := some "e" }) 0 1 =
      Function.update exHeap 1 { exHeap 1 with err := some "e" } :=
  ⟨by decide,
    ((link_check_panic_changes_nothing (Function.update exHeap 1 { exHeap 1 with err := some "e" })
      0 1).1 (Or.inr (Or.inr (Or.inr (by decide))))).1,
    ((link_check_panic_changes_nothing (Function.update exHeap 1 { exHeap 1 with err := some "e" })
      0 1).1 (Or.inr (Or.inr (Or.inr (by decide))))).2⟩

/-- C23 as stated fails: item 1 of the example archiver was hashed and
released and has no stream, no push state, no linked items and no error; yet
`link` on the hashed item 0 panics when passed item 1, and by then item 1 is
in the linked list of item 0. -/
theorem link_panics_on_released_child :
    ((exHashed.items 1).src = none ∧ (exHashed.items 1).state = none ∧
      (exHashed.items 1).linked = [] ∧ (exHashed.items 1).err = none) ∧
    (exHashed.items 0).linked = [] ∧
    link exHashed.items 0 1 = .error .panic ∧
    (linkHeap exHashed.items 0 1 0).linked = [1] :=
  ⟨⟨by decide, by decide, by decide, by decide⟩, by decide,
    (link_panic_iff exHashed.items 0 1).mpr
      (Or.inr ⟨by decide, Or.inl (by decide), by decide⟩), by decide⟩

/-- C24: let the child `c` pass the check of `link`, be another item than the
representative `r`, and have its completion signal pending.  Then `r.link(c)`
returns; `r` is as before but for `c` appended at the end of its linked list
(so its digest and error are unchanged), and no third item is touched.  When
the digest of `r` is not empty, `c` gets the digest item and the error of `r`
and one `Done`; when it is empty and `r` has an error, `c` gets that error and
one `Done`; otherwise `c` is left as it was, its signal pending. -/
theorem link_appends_and_hands_over (h : Heap) (r c : Nat) (hpre : linkable h c)
    (hne : c ≠ r) :
    ∃ h', link h r c = .ok h' ∧ h' r = { h r with linked := (h r).linked ++ [c] } ∧
      (∀ j, j ≠ r → j ≠ c → h' j = h j) ∧
      ((h r).digestItem.Digest ≠ "" →
        h' c = { h c with digestItem := (h r).digestItem, err := (h r).err,
                          wgHashed := (h c).wgHashed - 1 }) ∧
      ((h r).digestItem.Digest = "" → (h r).err ≠ none →
        h' c = { h c with err := (h r).err, wgHashed := (h c).wgHashed - 1 }) ∧
      ((h r).digestItem.Digest = "" → (h r).err = none →
        h' c = h c ∧ Error h' c = none ∧ ¬ hashedReleased h' c) ∧
      ((h c).wgHashed = 1 → ((h r).digestItem.Digest ≠ "" ∨ (h r).err ≠ none) →
        hashedReleased h' c) := by
  obtain ⟨h', hl⟩ := link_total h r c hpre hne
  obtain ⟨⟨_, _, _, hce⟩, _, hr, hrest, hcase⟩ := link_ok hl
  obtain ⟨_, _, _, _, hw⟩ := hpre
  refine ⟨h', hl, hr, hrest, fun hd => ?_, fun hd he => ?_, fun hd he => ?_, fun h1 hor => ?_⟩
  · rcases hcase with ⟨_, _, hc⟩ | ⟨hd', _⟩ | ⟨hd', _⟩
    · exact hc
    · exact absurd hd' hd
    · exact absurd hd' hd
  · rcases hcase with ⟨hd', _⟩ | ⟨_, _, _, hc⟩ | ⟨_, he', _⟩
    · exact absurd hd hd'
    · exact hc
    · exact absurd he' he
  · rcases hcase with ⟨hd', _⟩ | ⟨_, he', _⟩ | ⟨_, _, hc⟩
    · exact absurd hd hd'
    · exact absurd he he'
    · exact ⟨hc, by simp only [Error, hc, hce], by simp only [hashedReleased, hc]; exact hw⟩
  · rcases hcase with ⟨_, _, hc⟩ | ⟨_, _, _, hc⟩ | ⟨hd', he', _⟩
    · simp only [hashedReleased, hc, h1]
    · simp only [hashedReleased, hc, h1]
    · rcases hor with h0 | h0
      · exact absurd hd' h0
      · exact absurd he' h0

/-- Witness of C24: item 2 of the example heap is linked to item 0, which has
neither digest nor error yet. -/
theorem link_appends_and_hands_over_witness :
    (linkable exHeap 2 ∧ (2 : Nat) ≠ 0) ∧
    ∃ h', link exHeap 0 2 = .ok h' ∧ (h' 0).linked = [1, 2] ∧ ¬ hashedReleased h' 2 :=
  ⟨⟨by decide, by decide⟩,
    (link_appends_and_hands_over exHeap 0 2 (by decide) (by decide)).elim
      (fun h' hh => ⟨h', hh.1, by rw [hh.2.1]; decide,
        (hh.2.2.2.2.2.1 (by decide) (by decide)).2.2⟩)⟩

theorem calcDigestChildren_total (d : DigestItem) : ∀ (cs : List Nat) (h : Heap),
    cs.Nodup → (∀ c ∈ cs, (h c).wgHashed ≠ 0) →
    calcDigestChildren d cs h = .ok (fun j =>
      if j ∈ cs then { h j with digestItem := d, wgHashed := (h j).wgHashed - 1 } else h j) := by
  intro cs
  induction cs with
  | nil => intro h _ _; simp [calcDigestChildren]
  | cons c cs ih =>
    intro h hnd hw
    obtain ⟨hc, hnd'⟩ := List.nodup_cons.mp hnd
    have hwc := hw c (List.mem_cons_self c cs)
    simp only [calcDigestChildren, wgDone, hwc, if_false]
    rw [ih _ hnd' (fun c' hc' => by
      have hne : c' ≠ c := fun x => hc (x ▸ hc')
      rw [Function.update_noteq hne]
      exact hw c' (List.mem_cons_of_mem c hc'))]
    congr 1
    funext j
    by_cases hjc : j = c
    · subst hjc
      simp [hc]
    · simp [hjc, Function.update_noteq hjc]

theorem calcDigestChildren_ok_nodup (d : DigestItem) : ∀ (cs : List Nat) (h h' : Heap),
    calcDigestChildren d cs h = .ok h' → (∀ j, (h j).wgHashed ≤ 1) →
    cs.Nodup ∧ ∀ c ∈ cs, (h c).wgHashed = 1 := by
  intro cs
  induction cs with
  | nil => intro h h' _ _; simp
  | cons c cs ih =>
    intro h h' hc hone
    simp only [calcDigestChildren] at hc
    cases hw : wgDone { h c with digestItem := d } with
    | error f => simp [hw] at hc
    | ok it =>
      simp only [hw] at hc
      obtain ⟨hne, rfl⟩ := wgDone_ok hw
      simp only at hne
      have hc1 : (h c).wgHashed = 1 := by have := hone c; omega
      have hone' : ∀ j, (Function.update h c
          { h c with digestItem := d, wgHashed := (h c).wgHashed - 1 } j).wgHashed ≤ 1 := by
        intro j
        by_cases hjc : j = c
        · subst hjc; simp [hc1]
        · rw [Function.update_noteq hjc]; exact hone j
      obtain ⟨hnd, hk⟩ := ih _ _ hc hone'
      have hcn : c ∉ cs := by
        intro hm
        have := hk c hm
        simp [hc1] at this
      refine ⟨List.nodup_cons.mpr ⟨hcn, hnd⟩, fun c' hc' => ?_⟩
      rcases List.mem_cons.mp hc' with x | x
      · rw [x]; exact hc1
      · have hne' : c' ≠ c := fun y => hcn (y ▸ x)
        have := hk c' x
        rwa [Function.update_noteq hne'] at this

theorem calcDigest_ok_none {HashFile : String → Except String DigestItem} {h h' : Heap} {i : Nat} :
    calcDigest HashFile h i = .ok (h', none) ↔
      ∃ d, calcDigestResult HashFile (h i) d ∧ calcDigestStore h i d = .ok (h', none) := by
  constructor
  · intro hc
    unfold calcDigest at hc
    split at hc
    · rename_i hp
      split at hc
      · have := (calcDigestFail_effect hc).1
        cases this
      · rename_i d hd
        exact ⟨d, Or.inl ⟨hp, hd⟩, hc⟩
    · rename_i hp
      have hp' : (h i).path = "" := by simpa using hp
      split at hc
      · cases hc
      · rename_i src hsrc
        split at hc
        · have := (calcDigestFail_effect hc).1
          cases this
        · rename_i hce
          split at hc
          · have := (calcDigestFail_effect hc).1
            cases this
          · rename_i hseek
            simp only [ne_eq, not_or, not_not] at hseek
            exact ⟨_, Or.inr ⟨hp', src, hsrc, hce, hseek.1, hseek.2, rfl⟩, hc⟩
  · rintro ⟨d, hres, hs⟩
    rcases hres with ⟨hp, hd⟩ | ⟨hp, src, hsrc, hce, hse, hsp, rfl⟩
    · unfold calcDigest
      rw [if_pos hp]
      simp only [hd]
      exact hs
    · unfold calcDigest
      rw [if_neg (by simp [hp])]
      simp only [hsrc, hce, hse, hsp, ne_eq, not_true_eq_false, or_self, if_false]
      exact hs

theorem exLinked_counters : ∀ j, (exLinked j).wgHashed ≤ 1 := by
  intro j
  unfold exLinked
  split_ifs <;> decide

/-- What a `calcDigest` that returns nil does, with every completion counter
at most 1: when it returns nil, and the heap `h1` between the loop over the
linked items and the deferred `i.wgHashed.Done()`. -/
theorem calcDigest_success_heaps (HashFile : String → Except String DigestItem)
    (h : Heap) (i : Nat) (hone : ∀ j, (h j).wgHashed ≤ 1) :
    ((∃ h', calcDigest HashFile h i = .ok (h', none)) ↔
      ((∃ d, calcDigestResult HashFile (h i) d) ∧ i ∉ (h i).linked ∧ (h i).linked.Nodup ∧
        (h i).wgHashed = 1 ∧ ∀ c ∈ (h i).linked, (h c).wgHashed = 1)) ∧
    (∀ h', calcDigest HashFile h i = .ok (h', none) →
      ∃ d h1, calcDigestResult HashFile (h i) d ∧
        calcDigestChildren d (h i).linked (Function.update h i { h i with digestItem := d })
          = .ok h1 ∧
        Done h1 i = .ok h' ∧
        ((h1 i).wgHashed = 1 ∧
          ∀ c ∈ (h i).linked, (h c).wgHashed = 1 ∧ (h1 c).wgHashed = 0 ∧ (h1 c).digestItem = d) ∧
        ((h i).wgHashed = 1 ∧ (h' i).wgHashed = 0 ∧ (h' i).digestItem = d) ∧
        (∀ c ∈ (h i).linked, (h' c).wgHashed = 0 ∧ (h' c).digestItem = d) ∧
        (∀ j, (h' j).err = (h j).err) ∧
        (∀ j, j ≠ i → j ∉ (h i).linked → h' j = h j)) := by
  have key : ∀ h' d, calcDigestStore h i d = .ok (h', none) →
      ∃ h1, calcDigestChildren d (h i).linked (Function.update h i { h i with digestItem := d })
          = .ok h1 ∧ Done h1 i = .ok h' ∧ i ∉ (h i).linked ∧ (h i).linked.Nodup ∧
        (∀ c ∈ (h i).linked, (h c).wgHashed = 1) ∧ (h1 i).wgHashed = 1 ∧
        (h i).wgHashed = 1 := by
    intro h' d hs
    unfold calcDigestStore at hs
    split at hs
    · cases hs
    rename_i hself
    cases h1 : calcDigestChildren d (h i).linked
        (Function.update h i { h i with digestItem := d }) with
    | error f => simp [h1] at hs
    | ok h1' =>
      simp only [h1] at hs
      cases h2 : Done h1' i with
      | error f => simp [h2] at hs
      | ok h2' =>
        simp only [h2, Except.ok.injEq, Prod.mk.injEq, and_true] at hs
        subst hs
        have hone' : ∀ j, (Function.update h i { h i with digestItem := d } j).wgHashed ≤ 1 := by
          intro j
          by_cases hji : j = i
          · subst hji; simp; exact hone j
          · rw [Function.update_noteq hji]; exact hone j
        obtain ⟨hnd, hk⟩ := calcDigestChildren_ok_nodup d _ _ _ h1 hone'
        have hk' : ∀ c ∈ (h i).linked, (h c).wgHashed = 1 := by
          intro c hc
          have hci : c ≠ i := fun x => hself (x ▸ hc)
          have := hk c hc
          rwa [Function.update_noteq hci] at this
        have h1i : h1' i = { h i with digestItem := d } := by
          rw [(calcDigestChildren_effect d _ _ _ h1).2.1 i hself]
          simp
        have hw := (Done_ok h2).1
        rw [h1i] at hw
        simp only at hw
        have hwi : (h i).wgHashed = 1 := by have := hone i; omega
        exact ⟨h1', rfl, h2, hself, hnd, hk', by rw [h1i]; exact hwi, hwi⟩
  refine ⟨⟨?_, ?_⟩, ?_⟩
  · rintro ⟨h', hc⟩
    obtain ⟨d, hres, hs⟩ := calcDigest_ok_none.mp hc
    obtain ⟨h1, _, _, hself, hnd, hk, _, hwi⟩ := key h' d hs
    exact ⟨⟨d, hres⟩, hself, hnd, hwi, hk⟩
  · rintro ⟨⟨d, hres⟩, hself, hnd, hwi, hk⟩
    have hkids : ∀ c ∈ (h i).linked,
        (Function.update h i { h i with digestItem := d } c).wgHashed ≠ 0 := by
      intro c hc
      have hci : c ≠ i := fun x => hself (x ▸ hc)
      rw [Function.update_noteq hci, hk c hc]
      decide
    have hch := calcDigestChildren_total d (h i).linked
      (Function.update h i { h i with digestItem := d }) hnd hkids
    have hst : ∃ h', calcDigestStore h i d = .ok (h', none) := by
      unfold calcDigestStore
      rw [if_neg hself, hch]
      simp [Done, wgDone, hself, hwi]
    obtain ⟨h', hs⟩ := hst
    exact ⟨h', calcDigest_ok_none.mpr ⟨d, hres, hs⟩⟩
  · intro h' hc
    obtain ⟨d, hres, hs⟩ := calcDigest_ok_none.mp hc
    obtain ⟨h1, hch, hd, hself, hnd, hk, h1i, hwi⟩ := key h' d hs
    have hkids : ∀ c ∈ (h i).linked,
        (Function.update h i { h i with digestItem := d } c).wgHashed ≠ 0 := by
      intro c hc
      have hci : c ≠ i := fun x => hself (x ▸ hc)
      rw [Function.update_noteq hci, hk c hc]
      decide
    have hch' := calcDigestChildren_total d (h i).linked
      (Function.update h i { h i with digestItem := d }) hnd hkids
    rw [hch] at hch'
    have h1eq := Except.ok.inj hch'
    obtain ⟨_, hh'⟩ := Done_ok hd
    have h1c : ∀ c ∈ (h i).linked, (h1 c).wgHashed = 0 ∧ (h1 c).digestItem = d := by
      intro c hc
      have hci : c ≠ i := fun x => hself (x ▸ hc)
      rw [h1eq]
      simp [hc, Function.update_noteq hci, hk c hc]
    have h1i' : h1 i = { h i with digestItem := d } := by
      rw [h1eq]; simp [hself]
    refine ⟨d, h1, hres, hch, hd, ⟨h1i, fun c hc => ⟨hk c hc, h1c c hc⟩⟩, ⟨hwi, ?_, ?_⟩,
      fun c hc => ?_, (calcDigest_errors hc).1 rfl, (calcDigest_effect hc).2.1⟩
    · rw [hh']; simp [h1i]
    · rw [hh']; simp [h1i']
    · have hci : c ≠ i := fun x => hself (x ▸ hc)
      rw [hh', Function.update_noteq hci]
      exact h1c c hc

theorem calcDigestChildrenLog_eq (d : DigestItem) : ∀ (cs : List Nat) (h : Heap) (log : List Nat),
    calcDigestChildrenLog d cs h log =
      (calcDigestChildren d cs h).map (fun h' => (h', log ++ cs)) := by
  intro cs
  induction cs with
  | nil => intro h log; simp [calcDigestChildrenLog, calcDigestChildren, Except.map]
  | cons c cs ih =>
    intro h log
    simp only [calcDigestChildrenLog, calcDigestChildren]
    cases hw : wgDone { h c with digestItem := d } with
    | error f => rfl
    | ok it =>
      simp only
      rw [ih]
      simp [List.append_assoc]

theorem calcDigestFailLog_eq (h : Heap) (i : Nat) (err ret : String) :
    calcDigestFailLog h i err ret =
      (calcDigestFail h i err ret).map (fun r => (r.1, r.2, [i])) := by
  unfold calcDigestFailLog calcDigestFail
  cases setErr h i (some err) with
  | error f => rfl
  | ok h1 =>
    simp only
    cases Done h1 i with
    | error f => rfl
    | ok h2 => rfl

theorem calcDigestStoreLog_eq (h : Heap) (i : Nat) (d : DigestItem) :
    calcDigestStoreLog h i d =
      (calcDigestStore h i d).map (fun r => (r.1, r.2, (h i).linked ++ [i])) := by
  unfold calcDigestStoreLog calcDigestStore
  split
  · rfl
  · rw [calcDigestChildrenLog_eq]
    cases calcDigestChildren d (h i).linked (Function.update h i { h i with digestItem := d }) with
    | error f => rfl
    | ok h1 =>
      simp only [Except.map, List.nil_append]
      cases Done h1 i with
      | error f => rfl
      | ok h2 => rfl

/-- Without its log, `calcDigestLog` is `calcDigest`. -/
theorem calcDigestLog_forget (HashFile : String → Except String DigestItem) (h : Heap) (i : Nat) :
    (calcDigestLog HashFile h i).map (fun r => (r.1, r.2.1)) = calcDigest HashFile h i := by
  have hf : ∀ err ret, (calcDigestFailLog h i err ret).map (fun r => (r.1, r.2.1)) =
      calcDigestFail h i err ret := by
    intro err ret
    rw [calcDigestFailLog_eq]
    cases calcDigestFail h i err ret with
    | error f => rfl
    | ok r => rfl
  have hs : ∀ d, (calcDigestStoreLog h i d).map (fun r => (r.1, r.2.1)) =
      calcDigestStore h i d := by
    intro d
    rw [calcDigestStoreLog_eq]
    cases calcDigestStore h i d with
    | error f => rfl
    | ok r => rfl
  unfold calcDigestLog calcDigest
  by_cases hp : (h i).path ≠ ""
  · rw [if_pos hp, if_pos hp]
    cases HashFile (h i).path with
    | error err => exact hf _ _
    | ok d => exact hs _
  · rw [if_neg hp, if_neg hp]
    cases (h i).src with
    | none => rfl
    | some src =>
      simp only
      cases src.copyErr with
      | some err => exact hf _ _
      | none =>
        simp only
        by_cases hk : src.seekErr ≠ none ∨ src.seekPos ≠ 0
        · rw [if_pos hk, if_pos hk]
          exact hf _ _
        · rw [if_neg hk, if_neg hk]
          exact hs _

theorem calcDigestLog_ok_none {HashFile : String → Except String DigestItem} {h h' : Heap}
    {i : Nat} (hc : calcDigest HashFile h i = .ok (h', none)) :
    calcDigestLog HashFile h i = .ok (h', none, (h i).linked ++ [i]) := by
  obtain ⟨d, hres, hs⟩ := calcDigest_ok_none.mp hc
  have hl : calcDigestStoreLog h i d = .ok (h', none, (h i).linked ++ [i]) := by
    rw [calcDigestStoreLog_eq, hs]
    rfl
  rcases hres with ⟨hp, hd⟩ | ⟨hp, src, hsrc, hce, hse, hsp, rfl⟩
  · unfold calcDigestLog
    rw [if_pos hp]
    simp only [hd]
    exact hl
  · unfold calcDigestLog
    rw [if_neg (by simp [hp])]
    simp only [hsrc, hce, hse, hsp, ne_eq, not_true_eq_false, or_self, if_false]
    exact hl

/-- C25: `calcDigestLog` is `calcDigest` with the log of the calls of
`wgHashed.Done()`.  Let every completion counter be at most 1, as
`newArchiverItem` leaves it.  Then `calcDigest` returns nil on item `i`
exactly when the hash (or the copy and seek of the stream) succeeds, `i` is
not linked to itself, its linked list has no item twice, and `i` and each
linked item still have their signal pending.  When it returns nil, the calls
of `Done` it made are, in order, those on the linked items, in the order of
the list, and then the one on `i`, which is the last; no item occurs twice
among them; each of these items had its signal pending before and has it
released afterwards, and holds the digest item computed; no error has changed
and no other item is touched. -/
theorem calcDigest_success_releases_children_first
    (HashFile : String → Except String DigestItem)
    (h : Heap) (i : Nat) (hone : ∀ j, (h j).wgHashed ≤ 1) :
    (calcDigestLog HashFile h i).map (fun r => (r.1, r.2.1)) = calcDigest HashFile h i ∧
    ((∃ h', calcDigest HashFile h i = .ok (h', none)) ↔
      ((∃ d, calcDigestResult HashFile (h i) d) ∧ i ∉ (h i).linked ∧ (h i).linked.Nodup ∧
        (h i).wgHashed = 1 ∧ ∀ c ∈ (h i).linked, (h c).wgHashed = 1)) ∧
    (∀ h', calcDigest HashFile h i = .ok (h', none) →
      ∃ d, calcDigestResult HashFile (h i) d ∧
        calcDigestLog HashFile h i = .ok (h', none, (h i).linked ++ [i]) ∧
        ((h i).linked ++ [i]).Nodup ∧
        (∀ j ∈ (h i).linked ++ [i],
          (h j).wgHashed = 1 ∧ (h' j).wgHashed = 0 ∧ (h' j).digestItem = d) ∧
        (∀ j, (h' j).err = (h j).err) ∧
        (∀ j, j ≠ i → j ∉ (h i).linked → h' j = h j)) := by
  have hold := calcDigest_success_heaps HashFile h i hone
  refine ⟨calcDigestLog_forget HashFile h i, hold.1, fun h' hc => ?_⟩
  obtain ⟨d, h1, hres, _, _, ⟨_, hk1⟩, ⟨hwi, hwi', hdi⟩, hk, herr, hrest⟩ := hold.2 h' hc
  obtain ⟨_, hself, hnd, _, _⟩ := hold.1.mp ⟨h', hc⟩
  refine ⟨d, hres, calcDigestLog_ok_none hc, ?_, fun j hj => ?_, herr, hrest⟩
  · rw [List.nodup_append]
    refine ⟨hnd, List.nodup_singleton i, ?_⟩
    intro a ha hb
    rw [List.mem_singleton] at hb
    exact hself (hb ▸ ha)
  · rcases List.mem_append.mp hj with hj | hj
    · exact ⟨(hk1 j hj).1, (hk j hj).1, (hk j hj).2⟩
    · rw [List.mem_singleton] at hj
      subst hj
      exact ⟨hwi, hwi', hdi⟩

/-- Witness of C25: item 0 of the example heap with the items 1 and 2 linked
to it; the hasher returns the digest item "aa" of size 3; `calcDigest` returns
nil, and the signals were released in the order 1, 2, 0. -/
theorem calcDigest_success_releases_children_first_witness :
    (∀ j, (exLinked j).wgHashed ≤ 1) ∧
    ∃ h', calcDigest (fun _ => .ok { Digest := "aa", IsIsolated := true, Size := 3 }) exLinked 0
        = .ok (h', none) ∧
      calcDigestLog (fun _ => .ok { Digest := "aa", IsIsolated := true, Size := 3 }) exLinked 0
        = .ok (h', none, [1, 2, 0]) :=
  ⟨exLinked_counters,
    ((calcDigest_success_releases_children_first
      (fun _ => .ok { Digest := "aa", IsIsolated := true, Size := 3 }) exLinked 0
      exLinked_counters).2.1.mpr
      ⟨⟨{ Digest := "aa", IsIsolated := true, Size := 3 }, Or.inl ⟨by decide, rfl⟩⟩,
        by decide, by decide, by decide, by decide⟩).elim
      (fun h' hc => ⟨h', hc,
        ((calcDigest_success_releases_children_first
          (fun _ => .ok { Digest := "aa", IsIsolated := true, Size := 3 }) exLinked 0
          exLinked_counters).2.2 h' hc).elim (fun _ hh => hh.2.1)⟩)⟩

/-- One iteration of the lookup loop on an event other than `closed` keeps
what holds between events, the arrived items growing by the item received. -/
theorem LookupLoop.Good_select (a : archiver) (s : LookupLoop) (arrived : List Nat)
    (h : LookupLoop.Good a s arrived) (e : LookupEvent) :
    LookupLoop.Good a (stage3LookupLoop_select a s e) (arrived ++ LookupEvent.arrivals [e]) := by
  obtain ⟨items, timer, loop, batches⟩ := s
  obtain ⟨h1, h2, h3, h4, h5⟩ := h
  simp only at h1 h2 h3 h4 h5
  cases e with
  | closed =>
    simp only [stage3LookupLoop_select, LookupEvent.arrivals, List.append_nil]
    exact ⟨h1, h2, h3, h4, h5⟩
  | timer =>
    simp only [stage3LookupLoop_select, LookupEvent.arrivals, List.append_nil]
    cases timer with
    | false => simp only [Bool.false_eq_true, if_false]; exact ⟨h1, h2, h3, h4, h5⟩
    | true =>
      simp only [if_true]
      have hne : items ≠ [] := h2.mp rfl
      refine ⟨?_, by simp, ?_, fun hN => ?_, fun hN b hb => ?_⟩
      · simp only [List.flatten_append, List.flatten_cons, List.flatten_nil, List.append_nil]
        exact h1
      · intro b hb
        rcases List.mem_append.mp hb with hb | hb
        · exact h3 b hb
        · rw [List.mem_singleton.mp hb]; exact hne
      · simp only [List.length_nil]; omega
      · rcases List.mem_append.mp hb with hb | hb
        · exact h5 hN b hb
        · rw [List.mem_singleton.mp hb]; exact Nat.le_of_lt (h4 hN)
  | recv x =>
    simp only [stage3LookupLoop_select, LookupEvent.arrivals]
    by_cases hlen : (items ++ [x]).length = a.containsBatchSize
    · simp only [hlen, if_true]
      refine ⟨?_, by simp, ?_, fun hN => ?_, fun hN b hb => ?_⟩
      · simp only [List.flatten_append, List.flatten_cons, List.flatten_nil, List.append_nil]
        rw [← h1, List.append_assoc]
      · intro b hb
        rcases List.mem_append.mp hb with hb | hb
        · exact h3 b hb
        · rw [List.mem_singleton.mp hb]; simp
      · simp only [List.length_nil]; omega
      · rcases List.mem_append.mp hb with hb | hb
        · exact h5 hN b hb
        · rw [List.mem_singleton.mp hb]; exact Nat.le_of_eq hlen
    · have hpend : 1 ≤ a.containsBatchSize → (items ++ [x]).length < a.containsBatchSize := by
        intro hN
        have := h4 hN
        simp only [List.length_append, List.length_singleton] at hlen ⊢
        omega
      simp only [hlen, if_false]
      cases timer with
      | false =>
        simp only [if_true]
        exact ⟨by rw [← h1, List.append_assoc], by simp, h3, hpend, h5⟩
      | true =>
        simp only [Bool.true_eq_false, if_false]
        exact ⟨by rw [← h1, List.append_assoc], by simp, h3, hpend, h5⟩

theorem LookupEvent.arrivals_append (es1 es2 : List LookupEvent) :
    LookupEvent.arrivals (es1 ++ es2) = LookupEvent.arrivals es1 ++ LookupEvent.arrivals es2 := by
  induction es1 with
  | nil => rfl
  | cons e es ih =>
    cases e <;> simp [LookupEvent.arrivals, ih]

theorem LookupLoop.Good_start (a : archiver) : LookupLoop.Good a LookupLoop.start [] :=
  ⟨rfl, by simp [LookupLoop.start], by simp [LookupLoop.start],
    fun h => by simp only [LookupLoop.start, List.length_nil]; omega, by simp [LookupLoop.start]⟩

/-- While no event finds the channel closed the loop goes on, and what holds
between events holds after them, for the items that arrived. -/
theorem LookupLoop.Good_for (a : archiver) (events : List LookupEvent)
    (hev : ∀ e ∈ events, e ≠ .closed) :
    ∀ (s : LookupLoop) (arrived : List Nat), s.loop = true → LookupLoop.Good a s arrived →
      (stage3LookupLoop_for a s events).loop = true ∧
      LookupLoop.Good a (stage3LookupLoop_for a s events)
        (arrived ++ LookupEvent.arrivals events) := by
  induction events with
  | nil => intro s arrived hl h; simpa [stage3LookupLoop_for, LookupEvent.arrivals] using ⟨hl, h⟩
  | cons e es ih =>
    intro s arrived hl h
    have hs := LookupLoop.Good_select a s arrived h e
    have hl' : (stage3LookupLoop_select a s e).loop = true := by
      have hne := hev e (List.mem_cons_self _ _)
      cases e with
      | closed => exact absurd rfl hne
      | timer => simp only [stage3LookupLoop_select]; split <;> exact hl
      | recv x => simp only [stage3LookupLoop_select]; split <;> (try split) <;> exact hl
    have := ih (fun e' he' => hev e' (List.mem_cons_of_mem _ he')) _ _ hl' hs
    simp only [stage3LookupLoop_for, hl, if_true]
    rw [List.append_assoc, ← LookupEvent.arrivals_append] at this
    exact this

/-- C26: let any events other than `closed` (item arrivals and timer events,
in any order) be followed by the closing of the channel.  The batches the
lookup loop has scheduled, concatenated in order, are the items that arrived,
in the order of arrival.  When items are pending at the closing they are
scheduled as the last batch; when none are, nothing is scheduled then. -/
theorem lookup_batches_are_the_arrivals (a : archiver) (events : List LookupEvent)
    (hev : ∀ e ∈ events, e ≠ .closed) :
    (stage3LookupLoop a events).batches.flatten = LookupEvent.arrivals events ∧
    (stage3LookupLoop a events).loop = false ∧
    ((stage3LookupLoop_for a LookupLoop.start events).items ≠ [] →
      (stage3LookupLoop a events).batches =
        (stage3LookupLoop_for a LookupLoop.start events).batches ++
          [(stage3LookupLoop_for a LookupLoop.start events).items]) ∧
    ((stage3LookupLoop_for a LookupLoop.start events).items = [] →
      (stage3LookupLoop a events).batches =
        (stage3LookupLoop_for a LookupLoop.start events).batches) := by
  obtain ⟨hl, hg⟩ := LookupLoop.Good_for a events hev LookupLoop.start [] rfl
    (LookupLoop.Good_start a)
  have hrun : stage3LookupLoop a events =
      stage3LookupLoop_flush
        { stage3LookupLoop_for a LookupLoop.start events with loop := false } := by
    simp only [stage3LookupLoop, stage3LookupLoop_for_append]
    simp [stage3LookupLoop_for, hl, stage3LookupLoop_select]
  have hall := hg.all
  simp only [List.nil_append] at hall
  rw [hrun]
  by_cases hi : (stage3LookupLoop_for a LookupLoop.start events).items = []
  · refine ⟨?_, ?_, fun h => absurd hi h, fun _ => ?_⟩
    · simp only [stage3LookupLoop_flush, hi, List.length_nil, ne_eq, not_true_eq_false, if_false]
      rw [← hall, hi, List.append_nil]
    · simp only [stage3LookupLoop_flush, hi, List.length_nil, ne_eq, not_true_eq_false, if_false]
    · simp only [stage3LookupLoop_flush, hi, List.length_nil, ne_eq, not_true_eq_false, if_false]
  · have hlen : (stage3LookupLoop_for a LookupLoop.start events).items.length ≠ 0 := by
      intro h0; exact hi (List.length_eq_zero.mp h0)
    refine ⟨?_, ?_, fun _ => ?_, fun h => absurd h hi⟩
    · simp only [stage3LookupLoop_flush, hlen, ne_eq, not_false_eq_true, if_true,
        List.flatten_append, List.flatten_cons, List.flatten_nil, List.append_nil]
      exact hall
    · simp only [stage3LookupLoop_flush, hlen, ne_eq, not_false_eq_true, if_true]
    · simp only [stage3LookupLoop_flush, hlen, ne_eq, not_false_eq_true, if_true]

/-- Witness of C26: with batch size 2, the items 0, 1, 2 arrive, the timer
fires, the items 3 and 4 arrive, and the channel is closed. -/
theorem lookup_batches_are_the_arrivals_witness :
    (∀ e ∈ [LookupEvent.recv 0, .recv 1, .recv 2, .timer, .recv 3], e ≠ .closed) ∧
    (stage3LookupLoop { New with containsBatchSize := 2 }
      [.recv 0, .recv 1, .recv 2, .timer, .recv 3]).batches = [[0, 1], [2], [3]] ∧
    (stage3LookupLoop { New with containsBatchSize := 2 }
      [.recv 0, .recv 1, .recv 2, .timer, .recv 3]).batches.flatten =
        LookupEvent.arrivals [.recv 0, .recv 1, .recv 2, .timer, .recv 3] :=
  ⟨by decide, by decide,
    (lookup_batches_are_the_arrivals { New with containsBatchSize := 2 }
      [.recv 0, .recv 1, .recv 2, .timer, .recv 3] (by decide)).1⟩

/-- C27: with `containsBatchSize = N >= 1`, after any events (none of them
`closed`): fewer than `N` items are pending; every batch scheduled so far, and
every batch scheduled once the channel is closed, is non-empty and has at most
`N` items.  An arriving item schedules either nothing or exactly one batch, of
exactly `N` items; a timer event schedules nothing or the pending items, which
are not empty; the end of the loop schedules nothing or the pending items,
which are not empty and fewer than `N`. -/
theorem lookup_batch_sizes (a : archiver) (events : List LookupEvent)
    (hN : 1 ≤ a.containsBatchSize) (hev : ∀ e ∈ events, e ≠ .closed) :
    (stage3LookupLoop_for a LookupLoop.start events).items.length < a.containsBatchSize ∧
    (∀ b ∈ (stage3LookupLoop_for a LookupLoop.start events).batches,
      b ≠ [] ∧ b.length ≤ a.containsBatchSize) ∧
    (∀ b ∈ (stage3LookupLoop a events).batches, b ≠ [] ∧ b.length ≤ a.containsBatchSize) ∧
    (∀ x, (stage3LookupLoop_select a (stage3LookupLoop_for a LookupLoop.start events)
        (.recv x)).batches = (stage3LookupLoop_for a LookupLoop.start events).batches ∨
      ∃ b, (stage3LookupLoop_select a (stage3LookupLoop_for a LookupLoop.start events)
          (.recv x)).batches = (stage3LookupLoop_for a LookupLoop.start events).batches ++ [b] ∧
        b.length = a.containsBatchSize) ∧
    ((stage3LookupLoop_select a (stage3LookupLoop_for a LookupLoop.start events)
        .timer).batches = (stage3LookupLoop_for a LookupLoop.start events).batches ∨
      ((stage3LookupLoop_select a (stage3LookupLoop_for a LookupLoop.start events)
          .timer).batches = (stage3LookupLoop_for a LookupLoop.start events).batches ++
            [(stage3LookupLoop_for a LookupLoop.start events).items] ∧
        (stage3LookupLoop_for a LookupLoop.start events).items ≠ [])) ∧
    ((stage3LookupLoop_flush (stage3LookupLoop_for a LookupLoop.start events)).batches =
        (stage3LookupLoop_for a LookupLoop.start events).batches ∨
      ((stage3LookupLoop_flush (stage3LookupLoop_for a LookupLoop.start events)).batches =
          (stage3LookupLoop_for a LookupLoop.start events).batches ++
            [(stage3LookupLoop_for a LookupLoop.start events).items] ∧
        (stage3LookupLoop_for a LookupLoop.start events).items ≠ [] ∧
        (stage3LookupLoop_for a LookupLoop.start events).items.length < a.containsBatchSize)) := by
  obtain ⟨hl, hg⟩ := LookupLoop.Good_for a events hev LookupLoop.start [] rfl
    (LookupLoop.Good_start a)
  have hfin : stage3LookupLoop a events =
      stage3LookupLoop_flush
        { stage3LookupLoop_for a LookupLoop.start events with loop := false } := by
    simp only [stage3LookupLoop, stage3LookupLoop_for_append]
    simp [stage3LookupLoop_for, hl, stage3LookupLoop_select]
  generalize stage3LookupLoop_for a LookupLoop.start events = s at hl hg hfin ⊢
  obtain ⟨items, timer, loop, batches⟩ := s
  obtain ⟨h1, h2, h3, h4, h5⟩ := hg
  simp only at h1 h2 h3 h4 h5 hl
  have hpend := h4 hN
  refine ⟨hpend, fun b hb => ⟨h3 b hb, h5 hN b hb⟩, ?_, fun x => ?_, ?_, ?_⟩
  · rw [hfin]
    intro b hb
    simp only [stage3LookupLoop_flush] at hb
    split at hb
    · rename_i hne
      rcases List.mem_append.mp hb with hb | hb
      · exact ⟨h3 b hb, h5 hN b hb⟩
      · rw [List.mem_singleton.mp hb]
        exact ⟨fun h0 => hne (by simp [h0]), Nat.le_of_lt hpend⟩
    · exact ⟨h3 b hb, h5 hN b hb⟩
  · simp only [stage3LookupLoop_select]
    by_cases hlen : (items ++ [x]).length = a.containsBatchSize
    · simp only [hlen, if_true]
      exact Or.inr ⟨items ++ [x], rfl, hlen⟩
    · simp only [hlen, if_false]
      left
      split <;> rfl
  · simp only [stage3LookupLoop_select]
    cases timer with
    | false => left; simp
    | true => right; exact ⟨by simp, h2.mp rfl⟩
  · simp only [stage3LookupLoop_flush]
    by_cases hi : items.length ≠ 0
    · right
      rw [if_pos hi]
      exact ⟨rfl, fun h0 => hi (by simp [h0]), hpend⟩
    · left
      rw [if_neg hi]

/-- Witness of C27: with batch size 2, the items 0, 1, 2 have arrived; the
next item fills a batch of exactly 2. -/
theorem lookup_batch_sizes_witness :
    (1 ≤ ({ New with containsBatchSize := 2 } : archiver).containsBatchSize ∧
      ∀ e ∈ [LookupEvent.recv 0, .recv 1, .recv 2], e ≠ .closed) ∧
    (stage3LookupLoop_for { New with containsBatchSize := 2 } LookupLoop.start
      [.recv 0, .recv 1, .recv 2]).items = [2] ∧
    (stage3LookupLoop_for { New with containsBatchSize := 2 } LookupLoop.start
      [.recv 0, .recv 1, .recv 2]).items.length < 2 :=
  ⟨⟨by decide, by decide⟩, by decide,
    (lookup_batch_sizes { New with containsBatchSize := 2 } [.recv 0, .recv 1, .recv 2]
      (by decide) (by decide)).1⟩

/-- C28: after any events (none of them `closed`) the timer of the lookup
loop is armed if and only if items are pending, whatever the batch size.  An
iteration creates a timer exactly when it receives an item while nothing is
pending (and that item does not fill a batch by itself); the timer was not
armed then and is armed afterwards.  An item that arrives while items are
pending creates no timer, and leaves the timer armed unless it fills the
batch.  Every iteration that schedules a batch leaves the timer disarmed and
nothing pending. -/
theorem lookup_timer_armed_iff_pending (a : archiver) (events : List LookupEvent)
    (hev : ∀ e ∈ events, e ≠ .closed) :
    ((stage3LookupLoop_for a LookupLoop.start events).timer = true ↔
      (stage3LookupLoop_for a LookupLoop.start events).items ≠ []) ∧
    (∀ x, stage3LookupLoop_arms a (stage3LookupLoop_for a LookupLoop.start events) (.recv x) = true ↔
      ((stage3LookupLoop_for a LookupLoop.start events).items = [] ∧ a.containsBatchSize ≠ 1)) ∧
    stage3LookupLoop_arms a (stage3LookupLoop_for a LookupLoop.start events) .timer = false ∧
    stage3LookupLoop_arms a (stage3LookupLoop_for a LookupLoop.start events) .closed = false ∧
    (∀ x, stage3LookupLoop_arms a (stage3LookupLoop_for a LookupLoop.start events) (.recv x) = true →
      (stage3LookupLoop_for a LookupLoop.start events).timer = false ∧
      (stage3LookupLoop_select a (stage3LookupLoop_for a LookupLoop.start events)
        (.recv x)).timer = true) ∧
    (∀ x, (stage3LookupLoop_for a LookupLoop.start events).items ≠ [] →
      stage3LookupLoop_arms a (stage3LookupLoop_for a LookupLoop.start events) (.recv x) = false ∧
      ((stage3LookupLoop_select a (stage3LookupLoop_for a LookupLoop.start events)
          (.recv x)).batches = (stage3LookupLoop_for a LookupLoop.start events).batches →
        (stage3LookupLoop_select a (stage3LookupLoop_for a LookupLoop.start events)
          (.recv x)).timer = true)) ∧
    (∀ e, (stage3LookupLoop_select a (stage3LookupLoop_for a LookupLoop.start events) e).batches ≠
        (stage3LookupLoop_for a LookupLoop.start events).batches →
      (stage3LookupLoop_select a (stage3LookupLoop_for a LookupLoop.start events) e).timer = false ∧
      (stage3LookupLoop_select a (stage3LookupLoop_for a LookupLoop.start events) e).items = []) := by
  obtain ⟨hl, hg⟩ := LookupLoop.Good_for a events hev LookupLoop.start [] rfl
    (LookupLoop.Good_start a)
  generalize stage3LookupLoop_for a LookupLoop.start events = s at hl hg ⊢
  obtain ⟨items, timer, loop, batches⟩ := s
  have h2 := hg.armed
  simp only at h2
  refine ⟨h2, fun x => ?_, rfl, rfl, fun x hx => ?_, fun x hi => ?_, fun e he => ?_⟩
  · simp only [stage3LookupLoop_arms, List.length_append, List.length_singleton]
    cases timer with
    | true =>
      have hne : items ≠ [] := h2.mp rfl
      simp [hne]
    | false =>
      have hnil : items = [] := by
        by_contra hne
        exact absurd (h2.mpr hne) (by simp)
      subst hnil
      by_cases hN : a.containsBatchSize = 1
      · simp [hN]
      · have hN' : ¬ (0 + 1 = a.containsBatchSize) := fun h => hN h.symm
        simp [hN, hN']
  · simp only [stage3LookupLoop_arms] at hx
    simp only [stage3LookupLoop_select]
    by_cases hlen : (items ++ [x]).length = a.containsBatchSize
    · simp [hlen] at hx
    · cases timer with
      | true => simp [hlen] at hx
      | false => rw [if_neg hlen]; simp
  · have ht : timer = true := h2.mpr hi
    subst ht
    refine ⟨?_, fun hb => ?_⟩
    · simp only [stage3LookupLoop_arms]
      split <;> simp
    · simp only [stage3LookupLoop_select] at hb ⊢
      by_cases hlen : (items ++ [x]).length = a.containsBatchSize
      · simp [hlen] at hb
      · rw [if_neg hlen]; simp
  · cases e with
    | closed => exact absurd rfl he
    | timer =>
      simp only [stage3LookupLoop_select] at he ⊢
      cases timer with
      | false => simp at he
      | true => simp
    | recv x =>
      simp only [stage3LookupLoop_select] at he ⊢
      by_cases hlen : (items ++ [x]).length = a.containsBatchSize
      · simp [hlen]
      · exfalso
        apply he
        simp only [hlen, if_false]
        split <;> rfl

/-- Witness of C28: with batch size 3, item 0 arrives and arms the timer;
item 1 arrives and does not. -/
theorem lookup_timer_armed_iff_pending_witness :
    (∀ e ∈ [LookupEvent.recv 0], e ≠ .closed) ∧
    stage3LookupLoop_arms { New with containsBatchSize := 3 } LookupLoop.start (.recv 0) = true ∧
    (stage3LookupLoop_for { New with containsBatchSize := 3 } LookupLoop.start
      [.recv 0]).timer = true ∧
    stage3LookupLoop_arms { New with containsBatchSize := 3 }
      (stage3LookupLoop_for { New with containsBatchSize := 3 } LookupLoop.start [.recv 0])
      (.recv 1) = false :=
  ⟨by decide, by decide, by decide,
    ((lookup_timer_armed_iff_pending { New with containsBatchSize := 3 } [.recv 0]
      (by decide)).2.2.2.2.2.1 1 (by decide)).1⟩

end Archiver

/-! ## Claims on the other packages -/

namespace Strings

theorem HasPrefix_iff (s p : String) : HasPrefix s p = true ↔ ∃ r : String, s = p ++ r := by
  unfold HasPrefix
  rw [List.isPrefixOf_iff_prefix]
  constructor
  · rintro ⟨t, ht⟩
    exact ⟨⟨t⟩, by apply String.ext; simp [ht]⟩
  · rintro ⟨r, rfl⟩
    exact ⟨r.data, by simp⟩

theorem HasSuffix_iff (s p : String) : HasSuffix s p = true ↔ ∃ r : String, s = r ++ p := by
  unfold HasSuffix
  rw [List.isSuffixOf_iff_suffix]
  constructor
  · rintro ⟨t, ht⟩
    exact ⟨⟨t⟩, by apply String.ext; simp [ht]⟩
  · rintro ⟨r, rfl⟩
    exact ⟨r.data, by simp⟩

theorem TrimPrefix_append (p r : String) : TrimPrefix (p ++ r) p = r := by
  have h : HasPrefix (p ++ r) p = true := (HasPrefix_iff _ _).mpr ⟨r, rfl⟩
  simp only [TrimPrefix, h, if_true]
  apply String.ext
  simp

theorem TrimSuffix_append (r p : String) : TrimSuffix (r ++ p) p = r := by
  have h : HasSuffix (r ++ p) p = true := (HasSuffix_iff _ _).mpr ⟨r, rfl⟩
  simp only [TrimSuffix, h, if_true]
  apply String.ext
  simp

end Strings

namespace Coordinator

/-- C21: for every project name `p`,
`ProjectFromNamespace(ProjectNamespace(p))` is `p`; and for every namespace
that does not begin with "luci.", `ProjectFromNamespace` returns the empty
string. -/
theorem projectFromNamespace_inverts_projectNamespace :
    (∀ p : String, ProjectFromNamespace (ProjectNamespace p) = p) ∧
    (∀ ns : String, Strings.HasPrefix ns "luci." = false → ProjectFromNamespace ns = "") ∧
    (∀ ns : String, (¬ ∃ r : String, ns = "luci." ++ r) → ProjectFromNamespace ns = "") := by
  have h2 : ∀ ns : String, Strings.HasPrefix ns "luci." = false → ProjectFromNamespace ns = "" := by
    intro ns h
    have h' : Strings.HasPrefix ns projectNamespacePrefix = false := h
    unfold ProjectFromNamespace
    rw [h']
    rfl
  refine ⟨fun p => ?_, h2, fun ns h => h2 ns ?_⟩
  · have h : Strings.HasPrefix (projectNamespacePrefix ++ p) projectNamespacePrefix = true :=
      (Strings.HasPrefix_iff _ _).mpr ⟨p, rfl⟩
    simp only [ProjectFromNamespace, ProjectNamespace, h, Bool.not_true, Bool.false_eq_true,
      if_false]
    apply String.ext
    show List.drop projectNamespacePrefix.length (projectNamespacePrefix ++ p).data = p.data
    rw [String.data_append]
    exact List.drop_left' rfl
  · cases hh : Strings.HasPrefix ns "luci." with
    | false => rfl
    | true => exact absurd ((Strings.HasPrefix_iff _ _).mp hh) h

/-- Witness of C21: the namespace of the project `chromium` is
`luci.chromium`, which gives `chromium` back; the namespace `other` does not
begin with "luci." and gives the empty string. -/
theorem projectFromNamespace_inverts_projectNamespace_witness :
    Strings.HasPrefix "other" "luci." = false ∧
    ProjectNamespace "chromium" = "luci.chromium" ∧
    ProjectFromNamespace (ProjectNamespace "chromium") = "chromium" ∧
    ProjectFromNamespace "other" = "" :=
  ⟨rfl, by decide, projectFromNamespace_inverts_projectNamespace.1 "chromium",
    projectFromNamespace_inverts_projectNamespace.2.1 "other" rfl⟩

end Coordinator

namespace Cproto

/-- C29: for all strings `v`, `pfx` and `sfx`: when `v` is `pfx ++ r ++ sfx`
for some `r`, `trimPhrase` returns that `r`; when there is no such `r`, it
returns the empty string.  So it returns the empty string when `v` does not
begin with `pfx`, when what follows `pfx` in `v` does not end with `sfx`, and
when `v` is `pfx ++ sfx`. -/
theorem trimPhrase_returns_the_middle (v pfx sfx : String) :
    (∀ r : String, v = pfx ++ r ++ sfx → trimPhrase v pfx sfx = r) ∧
    ((¬ ∃ r : String, v = pfx ++ r ++ sfx) → trimPhrase v pfx sfx = "") ∧
    (Strings.HasPrefix v pfx = false → trimPhrase v pfx sfx = "") ∧
    (Strings.HasSuffix (Strings.TrimPrefix v pfx) sfx = false → trimPhrase v pfx sfx = "") ∧
    (v = pfx ++ sfx → trimPhrase v pfx sfx = "") := by
  have h1 : ∀ r : String, v = pfx ++ r ++ sfx → trimPhrase v pfx sfx = r := by
    intro r hv
    subst hv
    have hp : Strings.HasPrefix (pfx ++ r ++ sfx) pfx = true :=
      (Strings.HasPrefix_iff _ _).mpr ⟨r ++ sfx, by rw [String.append_assoc]⟩
    have ht : Strings.TrimPrefix (pfx ++ r ++ sfx) pfx = r ++ sfx := by
      rw [String.append_assoc]; exact Strings.TrimPrefix_append _ _
    have hs : Strings.HasSuffix (r ++ sfx) sfx = true := (Strings.HasSuffix_iff _ _).mpr ⟨r, rfl⟩
    simp only [trimPhrase, hp, ht, hs, Bool.not_true, Bool.false_eq_true, if_false]
    exact Strings.TrimSuffix_append _ _
  have h3 : Strings.HasPrefix v pfx = false → trimPhrase v pfx sfx = "" := by
    intro h; simp [trimPhrase, h]
  have h4 : Strings.HasSuffix (Strings.TrimPrefix v pfx) sfx = false →
      trimPhrase v pfx sfx = "" := by
    intro h
    simp only [trimPhrase, h]
    split <;> simp
  refine ⟨h1, ?_, h3, h4, ?_⟩
  · intro hno
    cases hp : Strings.HasPrefix v pfx with
    | false => exact h3 hp
    | true =>
      cases hs : Strings.HasSuffix (Strings.TrimPrefix v pfx) sfx with
      | false => exact h4 hs
      | true =>
        exfalso
        obtain ⟨t, ht⟩ := (Strings.HasPrefix_iff _ _).mp hp
        subst ht
        rw [Strings.TrimPrefix_append] at hs
        obtain ⟨r, hr⟩ := (Strings.HasSuffix_iff _ _).mp hs
        exact hno ⟨r, by rw [hr, String.append_assoc]⟩
  · intro hv
    have := h1 "" (by rw [hv]; simp)
    exact this

/-- Witness of C29: the phrase between "func " and "(" of a declaration. -/
theorem trimPhrase_returns_the_middle_witness :
    "func Register(" = "func " ++ "Register" ++ "(" ∧
    trimPhrase "func Register(" "func " "(" = "Register" :=
  ⟨by decide, (trimPhrase_returns_the_middle "func Register(" "func " "(").1 "Register"
    (by decide)⟩

end Cproto

namespace Strings

theorem span_sep_append (sep : Char) : ∀ (a b : List Char), sep ∉ a →
    (a ++ sep :: b).span (fun c => c != sep) = (a, sep :: b) := by
  intro a
  induction a with
  | nil => intro b _; simp [List.span_eq_take_drop, List.takeWhile, List.dropWhile]
  | cons x a ih =>
    intro b hx
    simp only [List.mem_cons, not_or] at hx
    have hne : (x != sep) = true := by simpa using fun e => hx.1 e.symm
    have := ih b hx.2
    simp only [List.span_eq_take_drop, Prod.mk.injEq] at this ⊢
    simp [List.takeWhile, List.dropWhile, hne, this.1, this.2]

theorem span_sep_shape (sep : Char) : ∀ (s : List Char),
    (∃ a, s.span (fun c => c != sep) = (a, []) ∧ s = a ∧ sep ∉ a) ∨
    (∃ a b, s.span (fun c => c != sep) = (a, sep :: b) ∧ s = a ++ sep :: b ∧ sep ∉ a) := by
  intro s
  induction s with
  | nil => exact Or.inl ⟨[], by simp [List.span_eq_take_drop], rfl, by simp⟩
  | cons x s ih =>
    by_cases hx : x = sep
    · subst hx
      exact Or.inr ⟨[], s, by simp [List.span_eq_take_drop, List.takeWhile, List.dropWhile], rfl,
        by simp⟩
    · have hne : (x != sep) = true := by simpa using hx
      rcases ih with ⟨a, ha, rfl, hn⟩ | ⟨a, b, _, rfl, hn⟩
      · refine Or.inl ⟨x :: s, ?_, rfl, ?_⟩
        · simp only [List.span_eq_take_drop, Prod.mk.injEq] at ha ⊢
          simp [List.takeWhile, List.dropWhile, hne, ha.1, ha.2]
        · simp only [List.mem_cons, not_or]
          exact ⟨fun e => hx e.symm, hn⟩
      · refine Or.inr ⟨x :: a, b, ?_, rfl, ?_⟩
        · have := span_sep_append sep (x :: a) b (by
            simp only [List.mem_cons, not_or]; exact ⟨fun e => hx e.symm, hn⟩)
          simpa using this
        · simp only [List.mem_cons, not_or]
          exact ⟨fun e => hx e.symm, hn⟩

theorem SplitN_last (sep : Char) (n : Nat) (s a : List Char)
    (h : s.span (fun c => c != sep) = (a, [])) : SplitN sep (n + 2) s = [a] := by
  rw [SplitN, h]

theorem SplitN_cut (sep : Char) (n : Nat) (s a b : List Char) (x : Char)
    (h : s.span (fun c => c != sep) = (a, x :: b)) :
    SplitN sep (n + 2) s = a :: SplitN sep (n + 1) b := by
  rw [SplitN, h]

theorem SplitN_three_parts (sep : Char) (p q : List Char) (hp : sep ∉ p) :
    SplitN sep 3 (sep :: (p ++ sep :: q)) = [[], p, q] := by
  have h1 : (sep :: (p ++ sep :: q)).span (fun c => c != sep) = ([], sep :: (p ++ sep :: q)) :=
    span_sep_append sep [] (p ++ sep :: q) (by simp)
  have h2 := span_sep_append sep p q hp
  have e1 : SplitN sep 3 (sep :: (p ++ sep :: q)) = [] :: SplitN sep 2 (p ++ sep :: q) :=
    SplitN_cut sep 1 _ _ _ _ h1
  have e2 : SplitN sep 2 (p ++ sep :: q) = p :: SplitN sep 1 q := SplitN_cut sep 0 _ _ _ _ h2
  rw [e1, e2]
  rfl

/-- The call `SplitN(s, "/", 3)` yields three pieces of which the first is
empty exactly when `s` is a separator, a piece without separator, a separator
and a rest; the pieces are then that piece and that rest. -/
theorem SplitN_three (sep : Char) (s : List Char) :
    ((SplitN sep 3 s).length = 3 ∧ ((SplitN sep 3 s).getD 0 []).length = 0) ↔
      ∃ p q, s = sep :: (p ++ sep :: q) ∧ sep ∉ p := by
  constructor
  · rintro ⟨hl, h0⟩
    rcases span_sep_shape sep s with ⟨a, ha, rfl, _⟩ | ⟨a, b, ha, rfl, hna⟩
    · rw [SplitN_last sep 1 _ _ ha] at hl
      simp at hl
    · rw [SplitN_cut sep 1 _ _ _ _ ha] at hl h0
      rcases span_sep_shape sep b with ⟨c, hc, rfl, _⟩ | ⟨c, d, hc, rfl, hnc⟩
      · rw [SplitN_last sep 0 _ _ hc] at hl
        simp at hl
      · simp only [List.getD_cons_zero, List.length_eq_zero] at h0
        subst h0
        exact ⟨c, d, rfl, hnc⟩
  · rintro ⟨p, q, rfl, hp⟩
    rw [SplitN_three_parts sep p q hp]
    simp

end Strings

namespace Types

/-- C22: `ParseURL` returns an error when `url.Parse` fails, when the scheme
is not "logdog", and when the path is not a slash, a project without slash, a
slash and a stream path.  The host is never looked at: when the scheme is
"logdog", the path has that form and the project and the stream path are
valid, `ParseURL` returns the address with the host of the URL, whatever it
is, the empty host included. -/
theorem ParseURL_never_checks_host (urlParse : String → Except String URL)
    (projectValidate pathValidate : String → Option String) (v : String) :
    (∀ e, urlParse v = .error e →
      ∃ err, ParseURL urlParse projectValidate pathValidate v = .error err) ∧
    (∀ u, urlParse v = .ok u → u.Scheme ≠ "logdog" →
      ∃ err, ParseURL urlParse projectValidate pathValidate v = .error err) ∧
    (∀ u, urlParse v = .ok u →
      (¬ ∃ p q, u.Path.data = '/' :: (p ++ '/' :: q) ∧ '/' ∉ p) →
      ∃ err, ParseURL urlParse projectValidate pathValidate v = .error err) ∧
    (∀ u p q, urlParse v = .ok u → u.Scheme = "logdog" →
      u.Path.data = '/' :: (p ++ '/' :: q) → '/' ∉ p →
      projectValidate ⟨p⟩ = none → pathValidate ⟨q⟩ = none →
      ParseURL urlParse projectValidate pathValidate v =
        .ok { Host := u.Host, Project := ⟨p⟩, Path := ⟨q⟩ }) := by
  refine ⟨fun e he => ?_, fun u hu hs => ?_, fun u hu hf => ?_, fun u p q hu hs hpath hp hpv hqv => ?_⟩
  · simp only [ParseURL, he]
    exact ⟨_, rfl⟩
  · simp only [ParseURL, hu, logDogURLScheme, hs, ne_eq, not_false_eq_true, if_true]
    exact ⟨_, rfl⟩
  · have hsplit : (Strings.SplitN '/' 3 u.Path.data).length ≠ 3 ∨
        ((Strings.SplitN '/' 3 u.Path.data).getD 0 []).length ≠ 0 := by
      by_contra hc
      simp only [not_or, not_not] at hc
      exact hf ((Strings.SplitN_three '/' u.Path.data).mp hc)
    by_cases hs : u.Scheme = "logdog"
    · simp only [ParseURL, hu, logDogURLScheme, hs, ne_eq, not_true_eq_false, if_false, hsplit,
        if_true]
      exact ⟨_, rfl⟩
    · simp only [ParseURL, hu, logDogURLScheme, hs, ne_eq, not_false_eq_true, if_true]
      exact ⟨_, rfl⟩
  · have h3 := Strings.SplitN_three_parts '/' p q hp
    simp only [ParseURL, hu, logDogURLScheme, hs, ne_eq, not_true_eq_false, if_false, hpath, h3,
      List.length_cons, List.length_nil, List.getD_cons_zero, List.getD_cons_succ,
      or_self, hpv, hqv]

/-- Witness of C22, the input on which the claim fails: for
`logdog:///proj/a/+/b`, whose host is empty, `ParseURL` returns the address
with the empty host, the project `proj` and the path `a/+/b`, when these two
are valid. -/
theorem ParseURL_never_checks_host_witness :
    ParseURL exUrlParse (fun _ => none) (fun _ => none) "logdog:///proj/a/+/b" =
      .ok { Host := "", Project := "proj", Path := "a/+/b" } :=
  (ParseURL_never_checks_host exUrlParse (fun _ => none) (fun _ => none)
    "logdog:///proj/a/+/b").2.2.2
    { Scheme := "logdog", Host := "", Path := "/proj/a/+/b" } "proj".data "a/+/b".data
    rfl rfl rfl (by decide) rfl rfl

end Types

namespace Delegation

theorem validateItem_not_about (MakeIdentity : String → Except String String)
    (Kind : String → String) (v : identitySetValidator) (s : String) :
    ∀ c ∈ validateItem MakeIdentity Kind v s, aboutMaxValidity c = false := by
  intro c hc
  unfold validateItem at hc
  split at hc
  · simp at hc
  · split at hc
    · split at hc
      · simp only [List.mem_singleton] at hc; subst hc; rfl
      · split at hc
        · simp only [List.mem_singleton] at hc; subst hc; rfl
        · simp at hc
    · split at hc
      · simp only [List.mem_singleton] at hc; subst hc; rfl
      · split at hc
        · simp at hc
        · split at hc
          · simp at hc
          · simp only [List.mem_singleton] at hc; subst hc; rfl

theorem validate_not_about (MakeIdentity : String → Except String String)
    (Kind : String → String) (v : identitySetValidator) (items : List String) :
    (validate MakeIdentity Kind v items).filter aboutMaxValidity = [] := by
  rw [List.filter_eq_nil_iff]
  intro c hc
  unfold validate at hc
  split at hc
  · simp only [List.mem_singleton] at hc; subst hc; simp [aboutMaxValidity]; rfl
  · simp only [List.mem_append, List.mem_singleton, List.mem_flatten, List.mem_map] at hc
    rcases hc with (hc | ⟨l, ⟨s, _, rfl⟩, hc⟩) | hc
    · subst hc; simp [aboutMaxValidity]
    · simp [validateItem_not_about MakeIdentity Kind v s c hc]
    · subst hc; simp [aboutMaxValidity]

theorem validateRule_filter (Requestor Service : String)
    (MakeIdentity : String → Except String String) (Kind : String → String) (title : String)
    (r : DelegationRule) :
    (validateRule Requestor Service MakeIdentity Kind title r).filter aboutMaxValidity =
      if r.MaxValidityDuration = 0 then [.Error "\"max_validity_duration\" is required" []]
      else if r.MaxValidityDuration < 0 then
        [.Error "\"max_validity_duration\" must be positive" []]
      else if r.MaxValidityDuration > 24 * 3600 then
        [.Error "\"max_validity_duration\" must be smaller than 86401" []]
      else [] := by
  have hname : (if r.Name = "" then [CtxCall.Error "\"name\" is required" []] else []).filter
      aboutMaxValidity = [] := by
    split
    · rfl
    · rfl
  have h1 : aboutMaxValidity (.Error "\"max_validity_duration\" is required" []) = true := rfl
  have h2 : aboutMaxValidity (.Error "\"max_validity_duration\" must be positive" []) = true := rfl
  have h3 : aboutMaxValidity (.Error "\"max_validity_duration\" must be smaller than 86401" [])
      = true := rfl
  unfold validateRule
  simp only [List.filter_append, validate_not_about, hname, List.append_nil, List.nil_append]
  have he : [CtxCall.Enter title []].filter aboutMaxValidity = [] := rfl
  have hx : [CtxCall.Exit].filter aboutMaxValidity = [] := rfl
  rw [he, hx, List.nil_append, List.append_nil]
  split
  · simp only [List.filter_cons, h1, if_true, List.filter_nil]
  · split
    · simp only [List.filter_cons, h2, if_true, List.filter_nil]
    · split
      · simp only [List.filter_cons, h3, if_true, List.filter_nil]
      · rfl

/-- C30: among the calls `validateRule` makes on the context, those that
report an error about "max_validity_duration" are: none when the duration is
in 1..86400; otherwise exactly one, `is required` for 0, `must be positive`
for a negative duration and `must be smaller than 86401` for one above
86400. -/
theorem validateRule_max_validity_duration (Requestor Service : String)
    (MakeIdentity : String → Except String String) (Kind : String → String) (title : String)
    (r : DelegationRule) :
    (((validateRule Requestor Service MakeIdentity Kind title r).filter aboutMaxValidity ≠ [] ↔
      ¬ (1 ≤ r.MaxValidityDuration ∧ r.MaxValidityDuration ≤ 86400)) ∧
    ((validateRule Requestor Service MakeIdentity Kind title r).filter aboutMaxValidity).length
      ≤ 1) ∧
    (r.MaxValidityDuration = 0 →
      (validateRule Requestor Service MakeIdentity Kind title r).filter aboutMaxValidity =
        [.Error "\"max_validity_duration\" is required" []]) ∧
    (r.MaxValidityDuration < 0 →
      (validateRule Requestor Service MakeIdentity Kind title r).filter aboutMaxValidity =
        [.Error "\"max_validity_duration\" must be positive" []]) ∧
    (86400 < r.MaxValidityDuration →
      (validateRule Requestor Service MakeIdentity Kind title r).filter aboutMaxValidity =
        [.Error "\"max_validity_duration\" must be smaller than 86401" []]) := by
  rw [validateRule_filter]
  refine ⟨⟨?_, ?_⟩, fun h0 => ?_, fun hneg => ?_, fun hbig => ?_⟩
  · split
    · simp; omega
    · split
      · simp; omega
      · split
        · simp; omega
        · simp; omega
  · split
    · simp
    · split
      · simp
      · split
        · simp
        · simp
  · rw [if_pos h0]
  · rw [if_neg (by omega), if_pos hneg]
  · rw [if_neg (by omega), if_neg (by omega), if_pos (by omega)]

/-- Witness of C30: the example rule has a `max_validity_duration` of 0, and
the one error about that field is `is required`. -/
theorem validateRule_max_validity_duration_witness :
    exRule.MaxValidityDuration = 0 ∧
    (validateRule "REQUESTOR" "service" (fun s => .ok s) (fun _ => "user") "rule #1" exRule).filter
        aboutMaxValidity = [.Error "\"max_validity_duration\" is required" []] :=
  ⟨rfl, (validateRule_max_validity_duration "REQUESTOR" "service" (fun s => .ok s)
    (fun _ => "user") "rule #1" exRule).2.1 rfl⟩

end Delegation
